import Mathlib

/-!
tora: a word-based software transactional memory.

A shallow embedding of `tora.hpp` / `tora.cpp`.

* Words, addresses and identities (`word_t`, `addr_t`, `id_t`) are natural numbers.
  `id_t` is `std::size_t`; the only arithmetic on it is `m_version += VERSION_STEP`,
  embedded as addition modulo `2 ^ bits`, with the width `bits` a parameter of `write`.
* Memory is a function from addresses to words; the orec table is the array
  `m_records[SIZE]`, a function from `Fin SIZE`.
* `assert` depends on the build: the flag `ndebug` says whether `NDEBUG` is defined
  (assertions compiled out) or not (a failing assertion stops the process).
* A member function of `transaction_t` takes the shared state (`world_t`) and the
  descriptor and gives back its outcome together with both.
-/

namespace tora

abbrev word_t := Nat
abbrev addr_t := Nat
abbrev id_t := Nat

/-- The enumerator `VERSION_FIRST = 1` (keep versions odd). -/
def VERSION_FIRST : id_t := 1

/-- The enumerator `VERSION_STEP = 2`. -/
def VERSION_STEP : id_t := 2

/-- The struct `value_t`: a word and the version it was seen at. -/
structure value_t where
  m_value : word_t
  m_version : id_t
deriving DecidableEq

/-- The enum `acquisition_e`. -/
inductive acquisition_e where
  | ACQUISITION_SUCCEED
  | ACQUISITION_FAILED
  | ACQUISITION_BUSY
deriving DecidableEq

/-- The two ways a call can end other than by returning: the exception
`bad_consistency_t`, and a failed `assert` (which stops the process). -/
inductive fault_t where
  | bad_consistency
  | assertion
deriving DecidableEq

/-- Outcome of a call: a returned value or a fault. -/
inductive result_t (α : Type) where
  | ok (a : α)
  | fault (f : fault_t)
deriving DecidableEq

/-- The macro `assert(cond)`: it passes when `NDEBUG` is defined or `cond` holds. -/
def assert_ok (ndebug : Bool) (cond : Bool) : Bool := ndebug || cond

/-- Addition in `id_t` (an unsigned type of `bits` bits). -/
def id_add (bits : Nat) (a b : id_t) : id_t := (a + b) % 2 ^ bits

/-- The class `ownership_t`: one word, a version or the identity of a transaction. -/
structure ownership_t where
  m_id : id_t
deriving DecidableEq

/-- The default constructor `ownership_t() : m_id(VERSION_FIRST)`. -/
def ownership_t.default : ownership_t := ⟨VERSION_FIRST⟩

/-- The accessor `ownership_t::id`. -/
def ownership_t.id (self : ownership_t) : id_t := self.m_id

/-- The test `ownership_t::is_version`: `0 != (m_id % 2)`. -/
def ownership_t.is_version (self : ownership_t) : Bool := 0 != self.m_id % 2

/-- Modelled from the spec: the word-sized compare-and-swap of section 4.1
(`AO_compare_and_swap_full` of the atomic_ops library, which is not under src/):
it stores `next` into the cell if the cell equals `prev`, and tells whether the
store happened. The `#if 0` branch of `ownership_t::compare_and_swap` spells out the
same behaviour. The result is the flag and the cell afterwards. -/
def detail.compare_and_swap (cell prev next : id_t) : Bool × id_t :=
  if cell = prev then (true, next) else (false, cell)

/-- The member `ownership_t::compare_and_swap`: gives the orec seen and the orec
afterwards. -/
def ownership_t.compare_and_swap (ndebug : Bool) (self : ownership_t) (prev next : id_t) :
    result_t ownership_t × ownership_t :=
  match detail.compare_and_swap self.m_id prev next with
  | (true, m) =>
    if assert_ok ndebug (m == next) then (.ok ⟨prev⟩, ⟨m⟩) else (.fault .assertion, ⟨m⟩)
  | (false, m) => (.ok ⟨m⟩, ⟨m⟩)

/-- The member `ownership_t::assign`: `m_id = rhs.m_id` followed by a barrier. -/
def ownership_t.assign (_self rhs : ownership_t) : ownership_t := ⟨rhs.m_id⟩

/-- The member `ownership_t::acquire`. -/
def ownership_t.acquire (ndebug : Bool) (self : ownership_t) (prev next : id_t) :
    result_t acquisition_e × ownership_t :=
  match self.compare_and_swap ndebug prev next with
  | (.ok seen, self1) =>
    if seen.id = prev ∨ seen.id = next then (.ok .ACQUISITION_SUCCEED, self1)
    else if seen.is_version then (.ok .ACQUISITION_FAILED, self1)
    else (.ok .ACQUISITION_BUSY, self1)
  | (.fault f, self1) => (.fault f, self1)

/-- The member `ownership_t::resolve`: throws on an owned orec, otherwise pairs the
word at `addr` with the version. -/
def ownership_t.resolve (self : ownership_t) (memory : addr_t → word_t) (addr : addr_t) :
    result_t value_t :=
  if !self.is_version then .fault .bad_consistency
  else .ok ⟨memory addr, self.m_id⟩

/-- The enumerator `ownership_table_t::SIZE = 256`. -/
abbrev SIZE : Nat := 256

/-- The class `ownership_table_t`: the array `m_records[SIZE]`. -/
structure ownership_table_t where
  m_records : Fin SIZE → ownership_t

/-- The hash `ownership_table_t::hash_fn`: the address divided by 3. -/
def ownership_table_t.hash_fn (addr : addr_t) : Nat := addr / 3

/-- The slot `ownership_table_t::index`: `hash_fn(addr) % SIZE`. -/
def ownership_table_t.index (addr : addr_t) : Fin SIZE :=
  ⟨ownership_table_t.hash_fn addr % SIZE, Nat.mod_lt _ (by decide)⟩

/-- The member `ownership_table_t::find`: a copy of the indexed orec. -/
def ownership_table_t.find (self : ownership_table_t) (addr : addr_t) : ownership_t :=
  self.m_records (ownership_table_t.index addr)

/-- The member `ownership_table_t::insert`: assign to the indexed orec. -/
def ownership_table_t.insert (self : ownership_table_t) (addr : addr_t) (orec : ownership_t) :
    ownership_table_t :=
  ⟨Function.update self.m_records (ownership_table_t.index addr)
    ((self.m_records (ownership_table_t.index addr)).assign orec)⟩

/-- The member `ownership_table_t::acquire`: delegate to the indexed orec. -/
def ownership_table_t.acquire (ndebug : Bool) (self : ownership_table_t) (addr : addr_t)
    (prev next : id_t) : result_t acquisition_e × ownership_table_t :=
  match (self.m_records (ownership_table_t.index addr)).acquire ndebug prev next with
  | (r, o) => (r, ⟨Function.update self.m_records (ownership_table_t.index addr) o⟩)

/-- The class `context_t`: it owns one orec table. -/
structure context_t where
  m_orecs : ownership_table_t

/-- The constructor `context_t()`: every orec is default-constructed. -/
def context_t.fresh : context_t := ⟨⟨fun _ => ownership_t.default⟩⟩

/-- The struct `entry_t`. -/
structure entry_t where
  m_addr : addr_t
  m_old : value_t
  m_new : value_t
deriving DecidableEq

/-- The enum `transaction_t::state_e`. -/
inductive state_e where
  | STATE_ACTIVE
  | STATE_COMMITED
  | STATE_ABORTED
deriving DecidableEq

/-- The class `transaction_t`. `this_id` is `to_id(this)`, the identity of the
descriptor; `m_orecs` points at the table of the context, held in `world_t`. -/
structure transaction_t where
  this_id : id_t
  m_state : state_e
  m_entries : List entry_t

/-- The state shared by the descriptors of one context: the transacted memory and
the context with its orec table. -/
structure world_t where
  memory : addr_t → word_t
  ctx : context_t

/-- The constructor `transaction_t(ctx)`: active, with an empty log. -/
def transaction_t.create (this_id : id_t) : transaction_t :=
  ⟨this_id, .STATE_ACTIVE, []⟩

/-- The accessor `transaction_t::active`. -/
def transaction_t.active (self : transaction_t) : Bool :=
  decide (self.m_state = .STATE_ACTIVE)

/-- The accessor `transaction_t::entry_size`. -/
def transaction_t.entry_size (self : transaction_t) : Nat := self.m_entries.length

/-- The accessor `transaction_t::get`. An index out of range fails the assertion;
without the assertion the access is undefined and the model stops there too. -/
def transaction_t.get (_ndebug : Bool) (self : transaction_t) (i : Nat) : result_t entry_t :=
  match self.m_entries[i]? with
  | some e => .ok e
  | none => .fault .assertion

/-- The member `transaction_t::set`, with the same treatment of the index. -/
def transaction_t.set (_ndebug : Bool) (self : transaction_t) (i : Nat) (e : entry_t) :
    result_t Unit × transaction_t :=
  if i < self.m_entries.length then
    (.ok (), { self with m_entries := self.m_entries.set i e })
  else (.fault .assertion, self)

/-- The scan at the head of `transaction_t::ensure`: the first index whose entry has
the address. -/
def ensure_scan (addr : addr_t) : List entry_t → Option Nat
  | [] => none
  | e :: es => if e.m_addr = addr then some 0 else (ensure_scan addr es).map (· + 1)

/-- The member `transaction_t::ensure`. -/
def transaction_t.ensure (self : transaction_t) (w : world_t) (addr : addr_t) :
    result_t Nat × world_t × transaction_t :=
  match ensure_scan addr self.m_entries with
  | some i => (.ok i, w, self)
  | none =>
    match (w.ctx.m_orecs.find addr).resolve w.memory addr with
    | .ok val =>
      (.ok (self.m_entries.length + 1 - 1), w,
        { self with m_entries := self.m_entries ++ [⟨addr, val, val⟩] })
    | .fault f => (.fault f, w, self)

/-- The member `transaction_t::read`. -/
def transaction_t.read (ndebug : Bool) (self : transaction_t) (w : world_t) (addr : addr_t) :
    result_t word_t × world_t × transaction_t :=
  if assert_ok ndebug self.active then
    match self.ensure w addr with
    | (.ok i, w1, t1) =>
      match t1.get ndebug i with
      | .ok e => (.ok e.m_new.m_value, w1, t1)
      | .fault f => (.fault f, w1, t1)
    | (.fault f, w1, t1) => (.fault f, w1, t1)
  else (.fault .assertion, w, self)

/-- The member `transaction_t::write`. -/
def transaction_t.write (ndebug : Bool) (bits : Nat) (self : transaction_t) (w : world_t)
    (addr : addr_t) (word : word_t) : result_t Unit × world_t × transaction_t :=
  if assert_ok ndebug self.active then
    match self.ensure w addr with
    | (.ok i, w1, t1) =>
      match t1.get ndebug i with
      | .ok e =>
        match t1.set ndebug i
            { e with m_new := ⟨word, id_add bits e.m_new.m_version VERSION_STEP⟩ } with
        | (r, t2) => (r, w1, t2)
      | .fault f => (.fault f, w1, t1)
    | (.fault f, w1, t1) => (.fault f, w1, t1)
  else (.fault .assertion, w, self)

/-- The member `transaction_t::acquire`: only `ACQUISITION_SUCCEED` counts. -/
def transaction_t.acquire (ndebug : Bool) (self : transaction_t) (w : world_t)
    (entry : entry_t) : result_t Bool × world_t × transaction_t :=
  match w.ctx.m_orecs.acquire ndebug entry.m_addr entry.m_old.m_version self.this_id with
  | (.ok a, tbl) =>
    (.ok (match a with
      | .ACQUISITION_SUCCEED => true
      | _ => false), { w with ctx := ⟨tbl⟩ }, self)
  | (.fault f, tbl) => (.fault f, { w with ctx := ⟨tbl⟩ }, self)

/-- The member `transaction_t::release`. -/
def transaction_t.release (ndebug : Bool) (self : transaction_t) (w : world_t)
    (entry : entry_t) : result_t Unit × world_t × transaction_t :=
  if assert_ok ndebug (decide (state_e.STATE_ACTIVE ≠ self.m_state)) then
    if assert_ok ndebug (decide (self.this_id = (w.ctx.m_orecs.find entry.m_addr).id)) then
      if self.m_state = .STATE_COMMITED then
        (.ok (), { w with ctx := ⟨w.ctx.m_orecs.insert entry.m_addr ⟨entry.m_new.m_version⟩⟩ },
          self)
      else if assert_ok ndebug (decide (state_e.STATE_ABORTED = self.m_state)) then
        (.ok (), { w with ctx := ⟨w.ctx.m_orecs.insert entry.m_addr ⟨entry.m_old.m_version⟩⟩ },
          self)
      else (.fault .assertion, w, self)
    else (.fault .assertion, w, self)
  else (.fault .assertion, w, self)

/-- The inner loop of `transaction_t::acquire_all`: release the entries from
`begin()` up to the one that failed. -/
def transaction_t.release_upto (ndebug : Bool) :
    List entry_t → transaction_t → world_t → result_t Unit × world_t × transaction_t
  | [], self, w => (.ok (), w, self)
  | e :: es, self, w =>
    match self.release ndebug w e with
    | (.ok _, w1, t1) => transaction_t.release_upto ndebug es t1 w1
    | (.fault f, w1, t1) => (.fault f, w1, t1)

/-- The outer loop of `transaction_t::acquire_all`: `passed` holds the entries from
`begin()` up to the iterator, the list argument those from the iterator on. -/
def transaction_t.acquire_from (ndebug : Bool) (passed : List entry_t) :
    List entry_t → transaction_t → world_t → result_t Bool × world_t × transaction_t
  | [], self, w => (.ok true, w, self)
  | e :: es, self, w =>
    match self.acquire ndebug w e with
    | (.ok true, w1, t1) => transaction_t.acquire_from ndebug (passed ++ [e]) es t1 w1
    | (.ok false, w1, t1) =>
      match transaction_t.release_upto ndebug passed t1 w1 with
      | (.ok _, w2, t2) => (.ok false, w2, t2)
      | (.fault f, w2, t2) => (.fault f, w2, t2)
    | (.fault f, w1, t1) => (.fault f, w1, t1)

/-- The member `transaction_t::acquire_all`. -/
def transaction_t.acquire_all (ndebug : Bool) (self : transaction_t) (w : world_t) :
    result_t Bool × world_t × transaction_t :=
  transaction_t.acquire_from ndebug [] self.m_entries self w

/-- The loop of `transaction_t::make_all_changes`: store the new word, then release. -/
def transaction_t.publish_from (ndebug : Bool) :
    List entry_t → transaction_t → world_t → result_t Unit × world_t × transaction_t
  | [], self, w => (.ok (), w, self)
  | e :: es, self, w =>
    match self.release ndebug
        { w with memory := Function.update w.memory e.m_addr e.m_new.m_value } e with
    | (.ok _, w1, t1) => transaction_t.publish_from ndebug es t1 w1
    | (.fault f, w1, t1) => (.fault f, w1, t1)

/-- The member `transaction_t::make_all_changes`. -/
def transaction_t.make_all_changes (ndebug : Bool) (self : transaction_t) (w : world_t) :
    result_t Unit × world_t × transaction_t :=
  transaction_t.publish_from ndebug self.m_entries
    { self with m_state := .STATE_COMMITED } w

/-- The member `transaction_t::commit`. -/
def transaction_t.commit (ndebug : Bool) (self : transaction_t) (w : world_t) :
    result_t Unit × world_t × transaction_t :=
  if assert_ok ndebug self.active then
    match self.acquire_all ndebug w with
    | (.ok true, w1, t1) => t1.make_all_changes ndebug w1
    | (.ok false, w1, t1) => (.fault .bad_consistency, w1, t1)
    | (.fault f, w1, t1) => (.fault f, w1, t1)
  else (.fault .assertion, w, self)

/-- The member `transaction_t::abort`. -/
def transaction_t.abort (ndebug : Bool) (self : transaction_t) (w : world_t) :
    result_t Unit × world_t × transaction_t :=
  if assert_ok ndebug self.active then
    (.ok (), w, { self with m_state := .STATE_ABORTED })
  else (.fault .assertion, w, self)

/-- The destructor `~transaction_t`: abort when still active. -/
def transaction_t.destroy (ndebug : Bool) (self : transaction_t) (w : world_t) :
    result_t Unit × world_t × transaction_t :=
  if state_e.STATE_ACTIVE = self.m_state then self.abort ndebug w
  else (.ok (), w, self)

/-- The word held by the orec slot that `addr` indexes: `find(addr).id()`. -/
def world_t.orec (w : world_t) (addr : addr_t) : id_t := (w.ctx.m_orecs.find addr).id

/-- The world after `m_orecs->insert(addr, ownership_t(id))`. -/
def world_t.set_orec (w : world_t) (addr : addr_t) (id : id_t) : world_t :=
  { w with ctx := ⟨w.ctx.m_orecs.insert addr ⟨id⟩⟩ }

/-- The world after the store `*addr = word`. -/
def world_t.store (w : world_t) (addr : addr_t) (word : word_t) : world_t :=
  { w with memory := Function.update w.memory addr word }

/-- The world a run of `make_all_changes` over the entries leaves when every
release goes through: each entry stores its new word and inserts its new version. -/
def publish_world (es : List entry_t) (w : world_t) : world_t :=
  es.foldl (fun w e => (w.store e.m_addr e.m_new.m_value).set_orec e.m_addr e.m_new.m_version) w

/-- The world a run of `acquire_all` leaves when every acquisition succeeds: each
entry puts the identity into its slot. -/
def acquire_world (id : id_t) (es : List entry_t) (w : world_t) : world_t :=
  es.foldl (fun w e => w.set_orec e.m_addr id) w

/-- The log invariant P3: no two entries have the same address. -/
def log_unique (es : List entry_t) : Prop := (es.map entry_t.m_addr).Nodup

/-- A fresh context over a memory that holds 10 in every word. -/
def world_ten : world_t := ⟨fun _ => 10, context_t.fresh⟩

/-- The state of a context with two descriptors, `t` at identity 2 and `u` at
identity 4, after some calls: the outcome of the last call, the world, and both
descriptors. -/
structure run_t where
  last : result_t Unit
  world : world_t
  t : transaction_t
  u : transaction_t

/-- Scenario "conflict behind an acquired entry", up to the commit of `t`: `t` reads
30 and 0, then `u` writes 20 to 0 and commits (`last` is the outcome of that commit).
Addresses 30 and 0 index slots 10 and 0. -/
def setup_conflict_behind (ndebug : Bool) (bits : Nat) : run_t :=
  let r1 := (transaction_t.create 2).read ndebug world_ten 30
  let r2 := r1.2.2.read ndebug r1.2.1 0
  let r3 := (transaction_t.create 4).write ndebug bits r2.2.1 0 20
  let r4 := r3.2.2.commit ndebug r3.2.1
  ⟨r4.1, r4.2.1, r2.2.2, r4.2.2⟩

/-- Scenario "conflict behind an acquired entry": the setup, then `t` commits. -/
def run_conflict_behind (ndebug : Bool) (bits : Nat) : run_t :=
  let s := setup_conflict_behind ndebug bits
  let r := s.t.commit ndebug s.world
  ⟨r.1, r.2.1, r.2.2, s.u⟩

/-- Scenario "conflict hidden by an aliased entry", up to the commit of `t`: `t`
writes 30 to 0, then `u` writes 20 to 0, reads 768 and commits (`last` is the outcome
of that commit). Addresses 0 and 768 both index slot 0. -/
def setup_conflict_aliased (ndebug : Bool) (bits : Nat) : run_t :=
  let r1 := (transaction_t.create 2).write ndebug bits world_ten 0 30
  let r2 := (transaction_t.create 4).write ndebug bits r1.2.1 0 20
  let r3 := r2.2.2.read ndebug r2.2.1 768
  let r4 := r3.2.2.commit ndebug r3.2.1
  ⟨r4.1, r4.2.1, r1.2.2, r4.2.2⟩

/-- Scenario "conflict hidden by an aliased entry": the setup, then `t` commits. -/
def run_conflict_aliased (ndebug : Bool) (bits : Nat) : run_t :=
  let s := setup_conflict_aliased ndebug bits
  let r := s.t.commit ndebug s.world
  ⟨r.1, r.2.1, r.2.2, s.u⟩

/-- A call of the public interface that touches one address. -/
inductive call_t where
  | read (addr : addr_t)
  | write (addr : addr_t) (word : word_t)
deriving DecidableEq

/-- One call on a descriptor; the word a read returns is dropped. -/
def transaction_t.call (ndebug : Bool) (bits : Nat) (self : transaction_t) (w : world_t) :
    call_t → result_t Unit × world_t × transaction_t
  | .read addr =>
    match self.read ndebug w addr with
    | (.ok _, w1, t1) => (.ok (), w1, t1)
    | (.fault f, w1, t1) => (.fault f, w1, t1)
  | .write addr word => self.write ndebug bits w addr word

/-- A sequence of calls on one descriptor. A caller that catches `bad_consistency_t`
goes on with the next call; a failed assertion ends the run. -/
def transaction_t.calls (ndebug : Bool) (bits : Nat) :
    List call_t → transaction_t → world_t → result_t Unit × world_t × transaction_t
  | [], self, w => (.ok (), w, self)
  | c :: cs, self, w =>
    match self.call ndebug bits w c with
    | (.fault .assertion, w1, t1) => (.fault .assertion, w1, t1)
    | (_, w1, t1) => transaction_t.calls ndebug bits cs t1 w1

/-- The entry as `write` leaves it: the word stored, the new version stepped. -/
def entry_t.written (e : entry_t) (bits : Nat) (v : word_t) : entry_t :=
  { e with m_new := ⟨v, id_add bits e.m_new.m_version VERSION_STEP⟩ }

/-- The words a sequence of calls writes to the address, in order. -/
def writes_to (a : addr_t) : List call_t → List word_t
  | [] => []
  | .read _ :: cs => writes_to a cs
  | .write b v :: cs => if b = a then v :: writes_to a cs else writes_to a cs

/-- What a sequence of calls makes of the entry of the address: each write to the
address rewrites it as `write` does. -/
def entry_t.after (bits : Nat) (a : addr_t) : entry_t → List call_t → entry_t
  | e, [] => e
  | e, .read _ :: cs => entry_t.after bits a e cs
  | e, .write b v :: cs =>
    if b = a then entry_t.after bits a (e.written bits v) cs else entry_t.after bits a e cs

/-- A version after `k` steps in `id_t`. -/
def stepped (bits : Nat) (ver : id_t) (k : Nat) : id_t :=
  if k = 0 then ver else (ver + 2 * k) % 2 ^ bits

/-- A call that touches one address: the public `read` and `write`, and the exposed
`ensure`. -/
inductive touch_t where
  | read (addr : addr_t)
  | write (addr : addr_t) (word : word_t)
  | ensure (addr : addr_t)
deriving DecidableEq

/-- One touching call on a descriptor; the value returned is dropped. -/
def transaction_t.touch (ndebug : Bool) (bits : Nat) (self : transaction_t) (w : world_t) :
    touch_t → result_t Unit × world_t × transaction_t
  | .read addr => self.call ndebug bits w (.read addr)
  | .write addr word => self.call ndebug bits w (.write addr word)
  | .ensure addr =>
    match self.ensure w addr with
    | (.ok _, w1, t1) => (.ok (), w1, t1)
    | (.fault f, w1, t1) => (.fault f, w1, t1)

/-- The descriptor after a sequence of touching calls, each made in the world given
with it (other transactions may have committed in between). A caller that catches
`bad_consistency_t` goes on with the next call; a failed assertion ends the run. -/
def transaction_t.touches (ndebug : Bool) (bits : Nat) :
    List (world_t × touch_t) → transaction_t → transaction_t
  | [], self => self
  | (w, c) :: cs, self =>
    match self.touch ndebug bits w c with
    | (.fault .assertion, _, t1) => t1
    | (_, _, t1) => transaction_t.touches ndebug bits cs t1

/-- Every version recorded in the log is odd. -/
def log_odd (es : List entry_t) : Prop :=
  ∀ e ∈ es, e.m_old.m_version % 2 = 1 ∧ e.m_new.m_version % 2 = 1

/-- The address a call touches. -/
def call_t.addr : call_t → addr_t
  | .read a => a
  | .write a _ => a

/-- A step of one transaction: the four public calls, and the two phases of `commit`,
which the class exposes on their own. -/
inductive op_t where
  | read (addr : addr_t)
  | write (addr : addr_t) (word : word_t)
  | commit
  | abort
  | acquire_all
  | make_all_changes
deriving DecidableEq

/-- The public calls among the steps. -/
def op_t.is_public : op_t → Bool
  | .acquire_all => false
  | .make_all_changes => false
  | _ => true

/-- One step on a descriptor; the value returned is dropped. -/
def transaction_t.step (ndebug : Bool) (bits : Nat) (self : transaction_t) (w : world_t) :
    op_t → result_t Unit × world_t × transaction_t
  | .read addr => self.call ndebug bits w (.read addr)
  | .write addr word => self.call ndebug bits w (.write addr word)
  | .commit => self.commit ndebug w
  | .abort => self.abort ndebug w
  | .acquire_all =>
    match self.acquire_all ndebug w with
    | (.ok _, w1, t1) => (.ok (), w1, t1)
    | (.fault f, w1, t1) => (.fault f, w1, t1)
  | .make_all_changes => self.make_all_changes ndebug w

/-- A context with its transactions: the shared world and the descriptor living at
each identity (every descriptor starts as `transaction_t(ctx)` leaves it). -/
structure system_t where
  world : world_t
  txns : id_t → transaction_t

/-- A fresh context over the given memory, no transaction having run yet. -/
def system_t.fresh (memory : addr_t → word_t) : system_t :=
  ⟨⟨memory, context_t.fresh⟩, transaction_t.create⟩

/-- One step of the transaction with identity `i`. -/
def system_t.step (ndebug : Bool) (bits : Nat) (s : system_t) (i : id_t) (o : op_t) :
    result_t Unit × system_t :=
  match (s.txns i).step ndebug bits s.world o with
  | (r, w1, t1) => (r, ⟨w1, Function.update s.txns i t1⟩)

/-- A sequence of complete steps: each returns or throws `bad_consistency_t` (caught
by the caller). A failed assertion stops the process, and there is no state after. -/
def system_t.run (ndebug : Bool) (bits : Nat) :
    List (id_t × op_t) → system_t → Option system_t
  | [], s => some s
  | (i, o) :: rest, s =>
    match s.step ndebug bits i o with
    | (.fault .assertion, _) => none
    | (_, s1) => system_t.run ndebug bits rest s1

/-- The invariant of the runs: every slot holds a word satisfying `G`, and every
descriptor lives at its identity and has only odd versions in its log. -/
def system_t.good (G : id_t → Prop) (s : system_t) : Prop :=
  (∀ b, G (s.world.orec b)) ∧ ∀ j, (s.txns j).this_id = j ∧ log_odd (s.txns j).m_entries

/-- Every acquisition of the run of `acquire_all` over the entries succeeds: each
entry finds in its slot its old version or already the identity. -/
def acquirable (id : id_t) : List entry_t → world_t → Prop
  | [], _ => True
  | e :: es, w =>
    (w.orec e.m_addr = e.m_old.m_version ∨ w.orec e.m_addr = id) ∧
      acquirable id es (w.set_orec e.m_addr id)

/-- The old versions of entries that share a slot do not decrease along the log. -/
def log_mono (es : List entry_t) : Prop :=
  es.Pairwise (fun e x =>
    ownership_table_t.index e.m_addr = ownership_table_t.index x.m_addr →
      e.m_old.m_version ≤ x.m_old.m_version)

/-- The log agrees with the world on shared slots: when an entry was taken at the
word its slot holds now, so was every later entry of that slot. -/
def log_coherent (w : world_t) (es : List entry_t) : Prop :=
  es.Pairwise (fun e x =>
    ownership_table_t.index e.m_addr = ownership_table_t.index x.m_addr →
      w.orec e.m_addr = e.m_old.m_version → x.m_old.m_version = e.m_old.m_version)

/-- The order facts about a log in a world, with `n` a bound on every version: no
new version is below its old one or above `n`, no old version is above the word its
slot holds, and `log_mono`. -/
def log_ordered (n : Nat) (w : world_t) (es : List entry_t) : Prop :=
  (∀ e ∈ es, e.m_old.m_version ≤ e.m_new.m_version ∧ e.m_new.m_version ≤ n ∧
    e.m_old.m_version ≤ w.orec e.m_addr) ∧ log_mono es

/-- The invariant of runs without wrap-around: the invariant `good` for odd words, every
slot word at most `n`, and every log ordered. -/
def system_t.steady (n : Nat) (s : system_t) : Prop :=
  s.good (fun x => x % 2 = 1) ∧ (∀ b, s.world.orec b ≤ n) ∧
    ∀ j, log_ordered n s.world (s.txns j).m_entries

/-- The number of `write` steps of a run. -/
def writes_in : List (id_t × op_t) → Nat
  | [] => 0
  | (_, .write _ _) :: rest => writes_in rest + 1
  | _ :: rest => writes_in rest

/-- Scenario "rollback over a slot already owned", up to the second `acquire_all` of
`t`: `t` reads 0 and runs `acquire_all` on its own, which returns true and leaves it
active and owning slot 0; `t` reads 30; then `u` writes 20 to 30 and commits (`last`
is the outcome of that commit). Addresses 0 and 30 index slots 0 and 10. -/
def setup_rollback_owned (ndebug : Bool) (bits : Nat) : run_t :=
  let r1 := (transaction_t.create 2).read ndebug world_ten 0
  let r2 := r1.2.2.acquire_all ndebug r1.2.1
  let r3 := r2.2.2.read ndebug r2.2.1 30
  let r4 := (transaction_t.create 4).write ndebug bits r3.2.1 30 20
  let r5 := r4.2.2.commit ndebug r4.2.1
  ⟨r5.1, r5.2.1, r3.2.2, r5.2.2⟩

theorem ensure_scan_some {a : addr_t} : ∀ {es : List entry_t} {i : Nat},
    ensure_scan a es = some i → ∃ e, es[i]? = some e ∧ e.m_addr = a
  | [], i, h => by simp [ensure_scan] at h
  | e :: es, i, h => by
    unfold ensure_scan at h
    by_cases hc : e.m_addr = a
    · simp [hc] at h
      subst h
      exact ⟨e, by simp, hc⟩
    · simp [hc] at h
      obtain ⟨j, hj, rfl⟩ := h
      obtain ⟨e1, h1, h2⟩ := ensure_scan_some hj
      exact ⟨e1, by simpa using h1, h2⟩

theorem ensure_scan_none {a : addr_t} : ∀ {es : List entry_t},
    ensure_scan a es = none ↔ ∀ e ∈ es, e.m_addr ≠ a
  | [] => by simp [ensure_scan]
  | e :: es => by
    unfold ensure_scan
    by_cases hc : e.m_addr = a
    · simp [hc]
    · simp [hc, @ensure_scan_none a es]

theorem ensure_scan_isSome {a : addr_t} {es : List entry_t}
    (h : ∃ e ∈ es, e.m_addr = a) : ∃ i, ensure_scan a es = some i := by
  cases hs : ensure_scan a es with
  | some i => exact ⟨i, rfl⟩
  | none =>
    obtain ⟨e, he, hea⟩ := h
    exact absurd hea (ensure_scan_none.mp hs e he)

theorem ensure_scan_append {a : addr_t} (x : entry_t) (hx : x.m_addr = a) :
    ∀ {es : List entry_t}, ensure_scan a es = none →
      ensure_scan a (es ++ [x]) = some es.length
  | [], _ => by simp [ensure_scan, hx]
  | e :: es, h => by
    unfold ensure_scan at h
    by_cases hc : e.m_addr = a
    · simp [hc] at h
    · simp [hc] at h
      simp [ensure_scan, hc, ensure_scan_append x hx h]

theorem ensure_scan_append_of_some {a : addr_t} (x : entry_t) :
    ∀ {es : List entry_t} {i : Nat}, ensure_scan a es = some i →
      ensure_scan a (es ++ [x]) = some i
  | [], i, h => by simp [ensure_scan] at h
  | e :: es, i, h => by
    unfold ensure_scan at h
    by_cases hc : e.m_addr = a
    · simp [hc] at h
      simp [ensure_scan, hc, h]
    · simp [hc] at h
      obtain ⟨j, hj, rfl⟩ := h
      simp [ensure_scan, hc, ensure_scan_append_of_some x hj]

theorem ensure_scan_set {a : addr_t} (x : entry_t) (hx : x.m_addr = a) :
    ∀ {es : List entry_t} {i : Nat}, ensure_scan a es = some i →
      ensure_scan a (es.set i x) = some i
  | [], i, h => by simp [ensure_scan] at h
  | e :: es, i, h => by
    unfold ensure_scan at h
    by_cases hc : e.m_addr = a
    · simp [hc] at h
      subst h
      simp [ensure_scan, hx]
    · simp [hc] at h
      obtain ⟨j, hj, rfl⟩ := h
      simp [ensure_scan, hc, ensure_scan_set x hx hj]

/-- Setting an entry with another address does not disturb the scan for `a`. -/
theorem ensure_scan_set_other {a : addr_t} (x : entry_t) (hx : x.m_addr ≠ a) :
    ∀ {es : List entry_t} {j : Nat}, (∀ e, es[j]? = some e → e.m_addr ≠ a) →
      ensure_scan a (es.set j x) = ensure_scan a es
  | [], j, _ => by simp
  | e :: es, 0, h => by
    have : e.m_addr ≠ a := h e (by simp)
    simp [ensure_scan, hx, this]
  | e :: es, j + 1, h => by
    have ih := @ensure_scan_set_other a x hx es j (by simpa using h)
    simp [ensure_scan, ih]

/-- Outcome of `ensure` on an address already in the log. -/
theorem ensure_of_scan_some {t : transaction_t} {w : world_t} {a : addr_t} {i : Nat}
    (h : ensure_scan a t.m_entries = some i) : t.ensure w a = (.ok i, w, t) := by
  simp [transaction_t.ensure, h]

/-- Outcome of `ensure` on a first touch of an unowned orec. -/
theorem ensure_of_scan_none_version {t : transaction_t} {w : world_t} {a : addr_t}
    (h : ensure_scan a t.m_entries = none)
    (hv : (w.ctx.m_orecs.find a).is_version = true) :
    t.ensure w a = (.ok t.m_entries.length, w,
      { t with m_entries := t.m_entries ++
        [⟨a, ⟨w.memory a, (w.ctx.m_orecs.find a).m_id⟩,
             ⟨w.memory a, (w.ctx.m_orecs.find a).m_id⟩⟩] }) := by
  simp [transaction_t.ensure, h, ownership_t.resolve, hv]

/-- Outcome of `ensure` on a first touch of an owned orec. -/
theorem ensure_of_scan_none_owned {t : transaction_t} {w : world_t} {a : addr_t}
    (h : ensure_scan a t.m_entries = none)
    (hv : (w.ctx.m_orecs.find a).is_version = false) :
    t.ensure w a = (.fault .bad_consistency, w, t) := by
  simp [transaction_t.ensure, h, ownership_t.resolve, hv]

/-- Whenever `ensure` returns, its index is the scan position of the address in
the log it leaves, the world is untouched and only the log may have grown. -/
theorem ensure_ok_spec {t t1 : transaction_t} {w w1 : world_t} {a : addr_t} {i : Nat}
    (h : t.ensure w a = (.ok i, w1, t1)) :
    w1 = w ∧ t1.this_id = t.this_id ∧ t1.m_state = t.m_state ∧
      ensure_scan a t1.m_entries = some i := by
  cases hs : ensure_scan a t.m_entries with
  | some j =>
    rw [ensure_of_scan_some hs] at h
    simp only [Prod.mk.injEq, result_t.ok.injEq] at h
    obtain ⟨rfl, rfl, rfl⟩ := h
    exact ⟨rfl, rfl, rfl, hs⟩
  | none =>
    cases hv : (w.ctx.m_orecs.find a).is_version with
    | true =>
      rw [ensure_of_scan_none_version hs hv] at h
      simp only [Prod.mk.injEq, result_t.ok.injEq] at h
      obtain ⟨rfl, rfl, rfl⟩ := h
      exact ⟨rfl, rfl, rfl, ensure_scan_append ⟨a, _, _⟩ rfl hs⟩
    | false =>
      rw [ensure_of_scan_none_owned hs hv] at h
      simp at h

/-- Reading an address whose scan position is `i` returns the new value there. -/
theorem read_of_scan_some {nd : Bool} {t : transaction_t} {w : world_t} {a : addr_t}
    {i : Nat} {e : entry_t} (hact : t.m_state = .STATE_ACTIVE)
    (h : ensure_scan a t.m_entries = some i) (he : t.m_entries[i]? = some e) :
    t.read nd w a = (.ok e.m_new.m_value, w, t) := by
  simp [transaction_t.read, transaction_t.active, hact, assert_ok, ensure_of_scan_some h,
    transaction_t.get, he]

/-- Writing an address whose scan position is `i` rewrites the new snapshot there. -/
theorem write_of_scan_some {nd : Bool} {bits : Nat} {t : transaction_t} {w : world_t}
    {a : addr_t} {v : word_t} {i : Nat} {e : entry_t} (hact : t.m_state = .STATE_ACTIVE)
    (h : ensure_scan a t.m_entries = some i) (he : t.m_entries[i]? = some e) :
    t.write nd bits w a v = (.ok (), w,
      { t with m_entries := t.m_entries.set i (e.written bits v) }) := by
  have hi : i < t.m_entries.length := by
    rcases Nat.lt_or_ge i t.m_entries.length with h1 | h1
    · exact h1
    · rw [List.getElem?_eq_none h1] at he
      simp at he
  simp [transaction_t.write, transaction_t.active, hact, assert_ok, ensure_of_scan_some h,
    transaction_t.get, he, transaction_t.set, hi, entry_t.written]

/-- Claim C1. Write/read round trip: for an active transaction and an address whose
orec is unowned (odd) or which is already logged, `write(a, v)` returns, leaves the
transaction active, and a following `read(a)` (in any state of the shared world)
returns `v`. -/
theorem C1_write_read_round_trip (nd : Bool) (bits : Nat) (t : transaction_t) (w : world_t)
    (a : addr_t) (v : word_t) (hact : t.m_state = .STATE_ACTIVE)
    (h : (w.ctx.m_orecs.find a).is_version = true ∨ ∃ e ∈ t.m_entries, e.m_addr = a) :
    ∃ t1, t.write nd bits w a v = (.ok (), w, t1) ∧ t1.m_state = .STATE_ACTIVE ∧
      ∀ w1, t1.read nd w1 a = (.ok v, w1, t1) := by
  have key : ∃ i t0, t.ensure w a = (.ok i, w, t0) := by
    cases hs : ensure_scan a t.m_entries with
    | some i => exact ⟨i, t, ensure_of_scan_some hs⟩
    | none =>
      rcases h with hv | hin
      · exact ⟨_, _, ensure_of_scan_none_version hs hv⟩
      · obtain ⟨i, hi⟩ := ensure_scan_isSome hin
        rw [hi] at hs
        cases hs
  obtain ⟨i, t0, h0⟩ := key
  obtain ⟨-, -, hst, hscan⟩ := ensure_ok_spec h0
  obtain ⟨e, he, hea⟩ := ensure_scan_some hscan
  have hact0 : t0.m_state = .STATE_ACTIVE := hst.trans hact
  have hi : i < t0.m_entries.length := by
    rcases Nat.lt_or_ge i t0.m_entries.length with h1 | h1
    · exact h1
    · rw [List.getElem?_eq_none h1] at he
      simp at he
  refine ⟨{ t0 with m_entries := t0.m_entries.set i (e.written bits v) }, ?_, hact0, ?_⟩
  · simp [transaction_t.write, transaction_t.active, hact, assert_ok, h0,
      transaction_t.get, he, transaction_t.set, hi, entry_t.written]
  · intro w1
    have := @read_of_scan_some nd
      { t0 with m_entries := t0.m_entries.set i (e.written bits v) } w1 a i
      (e.written bits v) hact0 (ensure_scan_set (e.written bits v) hea hscan) (by simp [hi])
    simpa [entry_t.written] using this

/-- Witness for C1: a first write of 30 to address 0 in a fresh context. -/
theorem C1_write_read_round_trip_witness :
    ∃ t1, (transaction_t.create 2).write false 64 ⟨fun _ => 20, context_t.fresh⟩ 0 30
        = (.ok (), ⟨fun _ => 20, context_t.fresh⟩, t1) ∧ t1.m_state = .STATE_ACTIVE ∧
      ∀ w1, t1.read false w1 0 = (.ok 30, w1, t1) :=
  C1_write_read_round_trip false 64 (transaction_t.create 2) ⟨fun _ => 20, context_t.fresh⟩
    0 30 rfl (Or.inl (by decide))

theorem world_ext {w1 w2 : world_t} (hm : w1.memory = w2.memory)
    (ho : w1.ctx.m_orecs.m_records = w2.ctx.m_orecs.m_records) : w1 = w2 := by
  cases w1 with
  | mk m1 c1 =>
    cases w2 with
    | mk m2 c2 =>
      cases c1 with
      | mk o1 =>
        cases c2 with
        | mk o2 =>
          cases o1
          cases o2
          simp_all

theorem orec_set_orec (w : world_t) (a b : addr_t) (id : id_t) :
    (w.set_orec a id).orec b =
      if ownership_table_t.index b = ownership_table_t.index a then id else w.orec b := by
  simp [world_t.set_orec, world_t.orec, ownership_table_t.insert, ownership_table_t.find,
    ownership_t.assign, ownership_t.id, Function.update_apply]
  split <;> rfl

theorem memory_set_orec (w : world_t) (a : addr_t) (id : id_t) :
    (w.set_orec a id).memory = w.memory := rfl

theorem orec_store (w : world_t) (a b : addr_t) (v : word_t) :
    (w.store a v).orec b = w.orec b := rfl

theorem memory_store (w : world_t) (a b : addr_t) (v : word_t) :
    (w.store a v).memory b = if b = a then v else w.memory b := by
  simp [world_t.store, Function.update_apply]

/-- Writing into a slot the word it already holds changes nothing. -/
theorem set_orec_self (w : world_t) (a : addr_t) : w.set_orec a (w.orec a) = w := by
  apply world_ext
  · rfl
  · funext i
    simp only [world_t.set_orec, world_t.orec, ownership_table_t.insert, ownership_table_t.find,
      ownership_t.assign, ownership_t.id, Function.update_apply]
    split
    · next h => rw [h]
    · rfl

/-- Closed form of `ownership_t::compare_and_swap`: its assertion never fails. -/
theorem cas_eq (nd : Bool) (o : ownership_t) (prev next : id_t) :
    o.compare_and_swap nd prev next =
      if o.m_id = prev then (.ok ⟨prev⟩, ⟨next⟩) else (.ok o, o) := by
  unfold ownership_t.compare_and_swap detail.compare_and_swap
  by_cases h : o.m_id = prev
  · simp [h, assert_ok]
  · simp [h]

/-- Closed form of `ownership_t::acquire`. -/
theorem orec_acquire_eq (nd : Bool) (o : ownership_t) (prev next : id_t) :
    o.acquire nd prev next =
      if o.m_id = prev then (.ok .ACQUISITION_SUCCEED, ⟨next⟩)
      else if o.m_id = next then (.ok .ACQUISITION_SUCCEED, o)
      else if o.is_version then (.ok .ACQUISITION_FAILED, o)
      else (.ok .ACQUISITION_BUSY, o) := by
  unfold ownership_t.acquire
  rw [cas_eq]
  by_cases h : o.m_id = prev
  · rw [if_pos h, if_pos h]
    simp [ownership_t.id]
  · rw [if_neg h, if_neg h]
    by_cases h2 : o.m_id = next
    · rw [if_pos h2]
      simp only [ownership_t.id, h2, or_true, if_true]
    · rw [if_neg h2]
      simp only [ownership_t.id, h, h2, or_self, if_false]

/-- Closed form of `transaction_t::acquire`: it never faults; it succeeds exactly when
the slot holds the old version or already the identity, and then the slot holds the
identity; otherwise nothing changes. -/
theorem acquire_eq (nd : Bool) (t : transaction_t) (w : world_t) (e : entry_t) :
    t.acquire nd w e =
      if w.orec e.m_addr = e.m_old.m_version ∨ w.orec e.m_addr = t.this_id then
        (.ok true, w.set_orec e.m_addr t.this_id, t)
      else (.ok false, w, t) := by
  have hself : ∀ (r : Fin SIZE → ownership_t) (i : Fin SIZE), Function.update r i (r i) = r :=
    fun r i => Function.update_eq_self i r
  have hw0 : ({ w with ctx := ⟨⟨w.ctx.m_orecs.m_records⟩⟩ } : world_t) = w := rfl
  unfold transaction_t.acquire ownership_table_t.acquire
  rw [orec_acquire_eq]
  by_cases h1 : w.orec e.m_addr = e.m_old.m_version
  · have h1' : (w.ctx.m_orecs.m_records (ownership_table_t.index e.m_addr)).m_id
        = e.m_old.m_version := h1
    simp [h1, h1', world_t.set_orec, ownership_table_t.insert, ownership_t.assign]
  · have h1' : ¬ (w.ctx.m_orecs.m_records (ownership_table_t.index e.m_addr)).m_id
        = e.m_old.m_version := h1
    rw [if_neg h1']
    by_cases h2 : w.orec e.m_addr = t.this_id
    · have h2' : (w.ctx.m_orecs.m_records (ownership_table_t.index e.m_addr)).m_id
        = t.this_id := h2
      have hw : w.set_orec e.m_addr t.this_id = w := by
        rw [← h2]
        exact set_orec_self w e.m_addr
      rw [if_pos h2', if_pos (Or.inr h2), hw]
      simp only [hself, hw0]
    · have h2' : ¬ (w.ctx.m_orecs.m_records (ownership_table_t.index e.m_addr)).m_id
        = t.this_id := h2
      rw [if_neg h2', if_neg (not_or.mpr ⟨h1, h2⟩)]
      by_cases h3 : (w.ctx.m_orecs.m_records (ownership_table_t.index e.m_addr)).is_version
      · simp only [h3, if_true, hself, hw0]
      · simp only [h3, hself, hw0]
        simp

/-- Closed form of `transaction_t::release`. With assertions compiled in it stops when
the transaction is active or the slot does not hold its identity; otherwise it inserts
the new version when committed and the old version when not. -/
theorem release_eq (nd : Bool) (t : transaction_t) (w : world_t) (e : entry_t) :
    t.release nd w e =
      if nd = false ∧ (t.m_state = .STATE_ACTIVE ∨ t.this_id ≠ w.orec e.m_addr) then
        (.fault .assertion, w, t)
      else
        (.ok (), w.set_orec e.m_addr
          (if t.m_state = .STATE_COMMITED then e.m_new.m_version else e.m_old.m_version), t) := by
  have ho : (w.ctx.m_orecs.find e.m_addr).id = w.orec e.m_addr := rfl
  unfold transaction_t.release
  rw [ho]
  cases nd <;> cases hs : t.m_state <;> by_cases hid : t.this_id = w.orec e.m_addr <;>
    simp [assert_ok, hid, world_t.set_orec]

/-- The rollback loop of `acquire_all` with assertions compiled in: with at least one
entry to release and the transaction active, the first release stops the process. -/
theorem release_upto_active_checked (t : transaction_t) (w : world_t) (e : entry_t)
    (es : List entry_t) (hact : t.m_state = .STATE_ACTIVE) :
    transaction_t.release_upto false (e :: es) t w = (.fault .assertion, w, t) := by
  simp [transaction_t.release_upto, release_eq, hact]

/-- The world the rollback loop of `acquire_all` leaves when assertions are compiled
out: each entry puts its old version back. -/
theorem release_upto_active_ndebug (t : transaction_t) (hact : t.m_state = .STATE_ACTIVE) :
    ∀ (es : List entry_t) (w : world_t),
      transaction_t.release_upto true es t w =
        (.ok (), es.foldl (fun w e => w.set_orec e.m_addr e.m_old.m_version) w, t)
  | [], w => rfl
  | e :: es, w => by
    simp [transaction_t.release_upto, release_eq, hact,
      release_upto_active_ndebug t hact es]

/-- Whenever the publishing loop of a committed transaction returns, the world is
`publish_world` of the entries and the descriptor is untouched. -/
theorem publish_from_ok {nd : Bool} {t : transaction_t}
    (hst : t.m_state = .STATE_COMMITED) :
    ∀ {es : List entry_t} {w w1 : world_t} {t1 : transaction_t},
      transaction_t.publish_from nd es t w = (.ok (), w1, t1) →
        w1 = publish_world es w ∧ t1 = t
  | [], w, w1, t1, h => by
    simp only [transaction_t.publish_from, Prod.mk.injEq] at h
    exact ⟨h.2.1.symm, h.2.2.symm⟩
  | e :: es, w, w1, t1, h => by
    unfold transaction_t.publish_from at h
    rw [release_eq] at h
    by_cases c : nd = false ∧ (t.m_state = .STATE_ACTIVE ∨ t.this_id ≠
        ({ w with memory := Function.update w.memory e.m_addr e.m_new.m_value } : world_t).orec
          e.m_addr)
    · rw [if_pos c] at h
      simp at h
    · rw [if_neg c] at h
      simp only [hst, if_true] at h
      exact @publish_from_ok nd t hst es _ w1 t1 h

/-- With assertions compiled out the publishing loop of a committed transaction
always returns. -/
theorem publish_from_ndebug (t : transaction_t) (hst : t.m_state = .STATE_COMMITED) :
    ∀ (es : List entry_t) (w : world_t),
      transaction_t.publish_from true es t w = (.ok (), publish_world es w, t)
  | [], w => rfl
  | e :: es, w => by
    unfold transaction_t.publish_from
    rw [release_eq]
    simp only [hst, if_true]
    simp only [Bool.true_eq_false, false_and, if_false]
    exact publish_from_ndebug t hst es _

/-- One turn of the loop of `acquire_all`. -/
theorem acquire_from_cons (nd : Bool) (passed : List entry_t) (e : entry_t)
    (es : List entry_t) (t : transaction_t) (w : world_t) :
    transaction_t.acquire_from nd passed (e :: es) t w =
      if w.orec e.m_addr = e.m_old.m_version ∨ w.orec e.m_addr = t.this_id then
        transaction_t.acquire_from nd (passed ++ [e]) es t (w.set_orec e.m_addr t.this_id)
      else
        match transaction_t.release_upto nd passed t w with
        | (.ok _, w2, t2) => (.ok false, w2, t2)
        | (.fault f, w2, t2) => (.fault f, w2, t2) := by
  rw [transaction_t.acquire_from, acquire_eq]
  by_cases c : w.orec e.m_addr = e.m_old.m_version ∨ w.orec e.m_addr = t.this_id
  · rw [if_pos c, if_pos c]
  · rw [if_neg c, if_neg c]

/-- One turn of the rollback loop of `acquire_all`. -/
theorem release_upto_cons (nd : Bool) (e : entry_t) (es : List entry_t) (t : transaction_t)
    (w : world_t) :
    transaction_t.release_upto nd (e :: es) t w =
      if nd = false ∧ (t.m_state = .STATE_ACTIVE ∨ t.this_id ≠ w.orec e.m_addr) then
        (.fault .assertion, w, t)
      else
        transaction_t.release_upto nd es t (w.set_orec e.m_addr
          (if t.m_state = .STATE_COMMITED then e.m_new.m_version else e.m_old.m_version)) := by
  rw [transaction_t.release_upto, release_eq]
  by_cases c : nd = false ∧ (t.m_state = .STATE_ACTIVE ∨ t.this_id ≠ w.orec e.m_addr)
  · rw [if_pos c, if_pos c]
  · rw [if_neg c, if_neg c]

/-- The rollback loop gives back the descriptor it was given. -/
theorem release_upto_descriptor (nd : Bool) :
    ∀ (es : List entry_t) (t : transaction_t) (w : world_t),
      (transaction_t.release_upto nd es t w).2.2 = t
  | [], t, w => rfl
  | e :: es, t, w => by
    rw [release_upto_cons]
    split
    · rfl
    · exact release_upto_descriptor nd es t _

/-- The rollback loop does not touch memory. -/
theorem release_upto_memory (nd : Bool) :
    ∀ (es : List entry_t) (t : transaction_t) (w : world_t),
      (transaction_t.release_upto nd es t w).2.1.memory = w.memory
  | [], t, w => rfl
  | e :: es, t, w => by
    rw [release_upto_cons]
    split
    · rfl
    · exact release_upto_memory nd es t _

/-- Whenever `acquire_all` (from any point of its loop) returns true, the world is
`acquire_world` of the remaining entries and the descriptor is untouched. -/
theorem acquire_from_true {nd : Bool} {t : transaction_t} :
    ∀ {es passed : List entry_t} {w w1 : world_t} {t1 : transaction_t},
      transaction_t.acquire_from nd passed es t w = (.ok true, w1, t1) →
        w1 = acquire_world t.this_id es w ∧ t1 = t
  | [], passed, w, w1, t1, h => by
    simp only [transaction_t.acquire_from, Prod.mk.injEq] at h
    exact ⟨h.2.1.symm, h.2.2.symm⟩
  | e :: es, passed, w, w1, t1, h => by
    rw [acquire_from_cons] at h
    by_cases c : w.orec e.m_addr = e.m_old.m_version ∨ w.orec e.m_addr = t.this_id
    · rw [if_pos c] at h
      exact @acquire_from_true nd t es _ _ w1 t1 h
    · rw [if_neg c] at h
      split at h <;> simp at h

/-- The loop of `acquire_all` gives back the descriptor it was given, whatever the
outcome. -/
theorem acquire_from_descriptor (nd : Bool) (t : transaction_t) :
    ∀ (es passed : List entry_t) (w : world_t),
      (transaction_t.acquire_from nd passed es t w).2.2 = t
  | [], passed, w => rfl
  | e :: es, passed, w => by
    rw [acquire_from_cons]
    split
    · exact acquire_from_descriptor nd t es _ _
    · have := release_upto_descriptor nd passed t w
      split
      · next heq => rw [heq] at this; exact this
      · next heq => rw [heq] at this; exact this

/-- The loop of `acquire_all` does not touch memory, whatever the outcome. -/
theorem acquire_from_memory (nd : Bool) (t : transaction_t) :
    ∀ (es passed : List entry_t) (w : world_t),
      (transaction_t.acquire_from nd passed es t w).2.1.memory = w.memory
  | [], passed, w => rfl
  | e :: es, passed, w => by
    rw [acquire_from_cons]
    split
    · exact acquire_from_memory nd t es _ _
    · have := release_upto_memory nd passed t w
      split
      · next heq => rw [heq] at this; exact this
      · next heq => rw [heq] at this; exact this

theorem acquire_world_cons (id : id_t) (e : entry_t) (es : List entry_t) (w : world_t) :
    acquire_world id (e :: es) w = acquire_world id es (w.set_orec e.m_addr id) := rfl

theorem acquire_world_memory (id : id_t) :
    ∀ (es : List entry_t) (w : world_t), (acquire_world id es w).memory = w.memory
  | [], w => rfl
  | e :: es, w => by
    rw [acquire_world_cons]
    exact acquire_world_memory id es _

/-- After a run of successful acquisitions every slot indexed by one of the entries
holds the identity. -/
theorem acquire_world_orec_mem (id : id_t) :
    ∀ (es : List entry_t) (w : world_t) (b : addr_t),
      ((∃ e ∈ es, ownership_table_t.index e.m_addr = ownership_table_t.index b) ∨
          w.orec b = id) →
        (acquire_world id es w).orec b = id
  | [], w, b, h => by
    rcases h with ⟨e, he, -⟩ | h
    · simp at he
    · exact h
  | e :: es, w, b, h => by
    rw [acquire_world_cons]
    apply acquire_world_orec_mem id es
    by_cases hb : ownership_table_t.index b = ownership_table_t.index e.m_addr
    · right
      rw [orec_set_orec, if_pos hb]
    · rcases h with ⟨x, hx, hxi⟩ | h
      · rcases List.mem_cons.mp hx with rfl | hx
        · exact absurd hxi.symm hb
        · exact Or.inl ⟨x, hx, hxi⟩
      · right
        rw [orec_set_orec, if_neg hb]
        exact h

/-- A run of successful acquisitions leaves the slots it does not index alone. -/
theorem acquire_world_orec_not_mem (id : id_t) :
    ∀ (es : List entry_t) (w : world_t) (b : addr_t),
      (∀ e ∈ es, ownership_table_t.index e.m_addr ≠ ownership_table_t.index b) →
        (acquire_world id es w).orec b = w.orec b
  | [], w, b, _ => rfl
  | e :: es, w, b, h => by
    rw [acquire_world_cons, acquire_world_orec_not_mem id es _ b (fun x hx => h x (List.mem_cons_of_mem _ hx)),
      orec_set_orec, if_neg (fun hb => h e (List.mem_cons_self _ _) hb.symm)]

theorem publish_world_cons (e : entry_t) (es : List entry_t) (w : world_t) :
    publish_world (e :: es) w =
      publish_world es ((w.store e.m_addr e.m_new.m_value).set_orec e.m_addr e.m_new.m_version) :=
  rfl

/-- Publishing leaves the words at addresses outside the log alone. -/
theorem publish_world_memory_not_mem :
    ∀ (es : List entry_t) (w : world_t) (b : addr_t), (∀ e ∈ es, e.m_addr ≠ b) →
      (publish_world es w).memory b = w.memory b
  | [], w, b, _ => rfl
  | e :: es, w, b, h => by
    rw [publish_world_cons,
      publish_world_memory_not_mem es _ b (fun x hx => h x (List.mem_cons_of_mem _ hx)),
      memory_set_orec, memory_store, if_neg (fun hb => h e (List.mem_cons_self _ _) hb.symm)]

/-- Publishing a log without repeated addresses leaves at each logged address the
new word of its entry. -/
theorem publish_world_memory_mem :
    ∀ (es : List entry_t) (w : world_t), log_unique es →
      ∀ e ∈ es, (publish_world es w).memory e.m_addr = e.m_new.m_value
  | [], _, _, e, he => by simp at he
  | x :: es, w, hu, e, he => by
    have hu' : x.m_addr ∉ es.map entry_t.m_addr ∧ log_unique es := by
      simpa [log_unique] using hu
    rw [publish_world_cons]
    rcases List.mem_cons.mp he with rfl | he
    · rw [publish_world_memory_not_mem es _ _ (fun y hy hya => hu'.1
          (List.mem_map.mpr ⟨y, hy, hya⟩)),
        memory_set_orec, memory_store, if_pos rfl]
    · exact publish_world_memory_mem es _ hu'.2 e he

/-- Whenever `commit` returns, both phases went through: the world is that of the
acquisitions followed by the publication, and the descriptor is the same but
committed. -/
theorem commit_ok {nd : Bool} {t t1 : transaction_t} {w w1 : world_t}
    (h : t.commit nd w = (.ok (), w1, t1)) :
    w1 = publish_world t.m_entries (acquire_world t.this_id t.m_entries w) ∧
      t1 = { t with m_state := .STATE_COMMITED } := by
  unfold transaction_t.commit at h
  split at h
  · have hd := acquire_from_descriptor nd t t.m_entries [] w
    split at h
    · next w2 t2 heq =>
      rw [transaction_t.acquire_all] at heq
      obtain ⟨rfl, rfl⟩ := acquire_from_true heq
      exact publish_from_ok rfl h
    · simp at h
    · next heq => simp at h
  · simp at h

/-- The log invariant survives `ensure`. -/
theorem ensure_log_unique (t : transaction_t) (w : world_t) (a : addr_t)
    (hu : log_unique t.m_entries) : log_unique (t.ensure w a).2.2.m_entries := by
  unfold transaction_t.ensure
  cases hs : ensure_scan a t.m_entries with
  | some i => exact hu
  | none =>
    simp only
    cases hr : (w.ctx.m_orecs.find a).resolve w.memory a with
    | ok val =>
      simp only [log_unique, List.map_append, List.map_cons, List.map_nil]
      rw [List.nodup_append]
      refine ⟨hu, List.nodup_singleton _, ?_⟩
      intro x hx hx'
      rw [List.mem_singleton] at hx'
      subst hx'
      obtain ⟨e, he, hea⟩ := List.mem_map.mp hx
      exact ensure_scan_none.mp hs e he hea
    | fault f => exact hu

/-- Replacing an entry by one with the same address keeps the log invariant. -/
theorem log_unique_set {es : List entry_t} {i : Nat} {e x : entry_t}
    (hu : log_unique es) (he : es[i]? = some e) (hx : x.m_addr = e.m_addr) :
    log_unique (es.set i x) := by
  have : (es.set i x).map entry_t.m_addr = es.map entry_t.m_addr := by
    rw [List.map_set]
    apply List.ext_getElem?
    intro n
    by_cases hn : i = n
    · subst hn
      obtain ⟨hi, hei⟩ := List.getElem?_eq_some.mp he
      simp [hi, hx, ← hei]
    · rw [List.getElem?_set_ne hn]
  rw [log_unique, this]
  exact hu

/-- The log invariant survives `write`. -/
theorem write_log_unique (nd : Bool) (bits : Nat) (t : transaction_t) (w : world_t)
    (a : addr_t) (v : word_t) (hu : log_unique t.m_entries) :
    log_unique (t.write nd bits w a v).2.2.m_entries := by
  have h0 := ensure_log_unique t w a hu
  unfold transaction_t.write
  split
  · split
    · next i w1 t1 heq =>
      rw [heq] at h0
      simp only [transaction_t.get]
      split
      · next e he =>
        split at he
        · next e1 he1 =>
          cases he
          simp only [transaction_t.set]
          split
          · exact log_unique_set h0 he1 rfl
          · exact h0
        · simp at he
      · exact h0
    · next heq =>
      rw [heq] at h0
      exact h0
  · exact hu

/-- The log invariant survives `read`. -/
theorem read_log_unique (nd : Bool) (t : transaction_t) (w : world_t) (a : addr_t)
    (hu : log_unique t.m_entries) : log_unique (t.read nd w a).2.2.m_entries := by
  have h0 := ensure_log_unique t w a hu
  unfold transaction_t.read
  split
  · split
    · next i w1 t1 heq =>
      rw [heq] at h0
      split <;> exact h0
    · next heq =>
      rw [heq] at h0
      exact h0
  · exact hu

/-- Claim C2. Commit publishes every logged value: when `commit` of an active
transaction (whose log has one entry per address, the log invariant kept by `read`
and `write`) returns, the transaction is committed, its log is the same, and memory
holds at the address of every entry the new word of that entry. -/
theorem C2_commit_publishes (nd : Bool) (t t1 : transaction_t) (w w1 : world_t)
    (hact : t.m_state = .STATE_ACTIVE) (hu : log_unique t.m_entries)
    (h : t.commit nd w = (.ok (), w1, t1)) :
    t1.m_state = .STATE_COMMITED ∧ t1.m_entries = t.m_entries ∧
      ∀ e ∈ t.m_entries, w1.memory e.m_addr = e.m_new.m_value := by
  have _ := hact
  obtain ⟨rfl, rfl⟩ := commit_ok h
  exact ⟨rfl, rfl, fun e he => publish_world_memory_mem _ _ hu e he⟩

/-- Witness for C2: the run of `test_hello_commit`, one write of 20 over 10. -/
theorem C2_commit_publishes_witness :
    ∃ w1 t1, (⟨2, .STATE_ACTIVE, [⟨0, ⟨10, 1⟩, ⟨20, 3⟩⟩]⟩ : transaction_t).commit false
        ⟨fun _ => 10, context_t.fresh⟩ = (.ok (), w1, t1) ∧
      t1.m_state = .STATE_COMMITED ∧ w1.memory 0 = 20 :=
  ⟨_, _, rfl, ((C2_commit_publishes false ⟨2, .STATE_ACTIVE, [⟨0, ⟨10, 1⟩, ⟨20, 3⟩⟩]⟩ _
    ⟨fun _ => 10, context_t.fresh⟩ _ rfl (by simp [log_unique]) rfl).1),
    ((C2_commit_publishes false ⟨2, .STATE_ACTIVE, [⟨0, ⟨10, 1⟩, ⟨20, 3⟩⟩]⟩ _
    ⟨fun _ => 10, context_t.fresh⟩ _ rfl (by simp [log_unique]) rfl).2.2
      ⟨0, ⟨10, 1⟩, ⟨20, 3⟩⟩ (by simp))⟩

theorem is_version_iff (o : ownership_t) : o.is_version = true ↔ o.m_id % 2 = 1 := by
  unfold ownership_t.is_version
  have := Nat.mod_two_eq_zero_or_one o.m_id
  rcases this with h | h <;> simp [h]

theorem is_version_false_iff (o : ownership_t) : o.is_version = false ↔ o.m_id % 2 = 0 := by
  unfold ownership_t.is_version
  have := Nat.mod_two_eq_zero_or_one o.m_id
  rcases this with h | h <;> simp [h]

/-- Stepping a version in `id_t` keeps its parity, for every width of at least one
bit. -/
theorem id_add_step_parity (bits : Nat) (hb : 1 ≤ bits) (v : id_t) :
    id_add bits v VERSION_STEP % 2 = v % 2 := by
  unfold id_add VERSION_STEP
  have hd : 2 ∣ 2 ^ bits := dvd_pow_self 2 (by omega)
  rw [Nat.mod_mod_of_dvd _ hd]
  dsimp only [id_t] at *
  omega

/-- Stepping a version in `id_t` changes it, for every width of at least two bits. -/
theorem id_add_step_ne (bits : Nat) (hb : 2 ≤ bits) (v : id_t) :
    id_add bits v VERSION_STEP ≠ v := by
  unfold id_add VERSION_STEP
  intro h
  dsimp only [id_t] at *
  have h4 : 4 ≤ 2 ^ bits := by
    calc 4 = 2 ^ 2 := by norm_num
      _ ≤ 2 ^ bits := Nat.pow_le_pow_right (by norm_num) hb
  have hdm := Nat.div_add_mod (v + 2) (2 ^ bits)
  rw [h] at hdm
  have hq : 2 ^ bits * ((v + 2) / 2 ^ bits) = 2 :=
    Nat.add_right_cancel (hdm.trans (Nat.add_comm v 2))
  rcases Nat.eq_zero_or_pos ((v + 2) / 2 ^ bits) with h0 | h0
  · rw [h0] at hq
    simp at hq
  · have h5 : 2 ^ bits * 1 ≤ 2 ^ bits * ((v + 2) / 2 ^ bits) := Nat.mul_le_mul_left _ h0
    rw [hq, Nat.mul_one] at h5
    exact absurd (Nat.le_trans h4 h5) (by norm_num)

/-- A first write to an address whose orec is unowned appends the written entry. -/
theorem write_first_touch (nd : Bool) (bits : Nat) (t : transaction_t) (w : world_t)
    (a : addr_t) (v : word_t) (hact : t.m_state = .STATE_ACTIVE)
    (hs : ensure_scan a t.m_entries = none)
    (hv : (w.ctx.m_orecs.find a).is_version = true) :
    t.write nd bits w a v = (.ok (), w, { t with m_entries := t.m_entries ++
      [⟨a, ⟨w.memory a, w.orec a⟩, ⟨v, id_add bits (w.orec a) VERSION_STEP⟩⟩] }) := by
  unfold transaction_t.write
  rw [ensure_of_scan_none_version hs hv]
  simp [assert_ok, transaction_t.active, hact, transaction_t.get, transaction_t.set,
    world_t.orec, ownership_t.id]

/-- Commit of a log with one entry, in closed form. -/
theorem commit_single (nd : Bool) (id : id_t) (e : entry_t) (w : world_t) :
    (⟨id, .STATE_ACTIVE, [e]⟩ : transaction_t).commit nd w =
      if w.orec e.m_addr = e.m_old.m_version ∨ w.orec e.m_addr = id then
        (.ok (), ((w.set_orec e.m_addr id).store e.m_addr e.m_new.m_value).set_orec e.m_addr
          e.m_new.m_version, ⟨id, .STATE_COMMITED, [e]⟩)
      else (.fault .bad_consistency, w, ⟨id, .STATE_ACTIVE, [e]⟩) := by
  unfold transaction_t.commit transaction_t.acquire_all
  rw [acquire_from_cons]
  by_cases c : w.orec e.m_addr = e.m_old.m_version ∨ w.orec e.m_addr = id
  · rw [if_pos c, if_pos c]
    simp [assert_ok, transaction_t.active, transaction_t.acquire_from,
      transaction_t.make_all_changes, transaction_t.publish_from, release_eq, orec_set_orec,
      world_t.store, world_t.orec, world_t.set_orec, ownership_table_t.find,
      ownership_table_t.insert, ownership_t.id, ownership_t.assign]
  · rw [if_neg c, if_neg c]
    simp [assert_ok, transaction_t.active, transaction_t.release_upto]

/-- Claim C4. Write-write conflict: from a world where the slot of `a` holds an odd
version, two fresh transactions (the second with an even identity) each write `a`
once; then the commit of the first returns and leaves its word at `a`, and the
following commit of the second throws `bad_consistency_t`, changes nothing and leaves
the second transaction active. Holds in both builds, for every width of `id_t` of at
least two bits. -/
theorem C4_write_write_conflict (nd : Bool) (bits : Nat) (w : world_t) (a : addr_t)
    (v1 v2 : word_t) (id1 id2 : id_t) (hbits : 2 ≤ bits)
    (hV : (w.ctx.m_orecs.find a).is_version = true) (h2 : id2 % 2 = 0) :
    ∃ t1 t2 w1 t1c,
      (transaction_t.create id1).write nd bits w a v1 = (.ok (), w, t1) ∧
      (transaction_t.create id2).write nd bits w a v2 = (.ok (), w, t2) ∧
      t1.commit nd w = (.ok (), w1, t1c) ∧ t1c.m_state = .STATE_COMMITED ∧
      w1.memory a = v1 ∧
      t2.commit nd w1 = (.fault .bad_consistency, w1, t2) ∧ t2.m_state = .STATE_ACTIVE := by
  have hodd : w.orec a % 2 = 1 := (is_version_iff _).mp hV
  refine ⟨⟨id1, .STATE_ACTIVE, [⟨a, ⟨w.memory a, w.orec a⟩,
      ⟨v1, id_add bits (w.orec a) VERSION_STEP⟩⟩]⟩,
    ⟨id2, .STATE_ACTIVE, [⟨a, ⟨w.memory a, w.orec a⟩,
      ⟨v2, id_add bits (w.orec a) VERSION_STEP⟩⟩]⟩,
    ((w.set_orec a id1).store a v1).set_orec a (id_add bits (w.orec a) VERSION_STEP),
    ⟨id1, .STATE_COMMITED, [⟨a, ⟨w.memory a, w.orec a⟩,
      ⟨v1, id_add bits (w.orec a) VERSION_STEP⟩⟩]⟩, ?_, ?_, ?_, rfl, ?_, ?_, rfl⟩
  · exact write_first_touch nd bits (transaction_t.create id1) w a v1 rfl rfl hV
  · exact write_first_touch nd bits (transaction_t.create id2) w a v2 rfl rfl hV
  · rw [commit_single, if_pos (Or.inl rfl)]
  · rw [memory_set_orec, memory_store, if_pos rfl]
  · rw [commit_single, if_neg]
    rw [orec_set_orec, if_pos rfl]
    intro h
    rcases h with h | h
    · exact id_add_step_ne bits hbits _ h
    · have hp := id_add_step_parity bits (by omega) (w.orec a)
      rw [h, h2, hodd] at hp
      exact absurd hp (by decide)

/-- Witness for C4: the run of `test_hello_commit_abort` (10, then 20 and 30). -/
theorem C4_write_write_conflict_witness :
    ∃ t1 t2 w1 t1c,
      (transaction_t.create 2).write false 64 ⟨fun _ => 10, context_t.fresh⟩ 0 20
        = (.ok (), ⟨fun _ => 10, context_t.fresh⟩, t1) ∧
      (transaction_t.create 4).write false 64 ⟨fun _ => 10, context_t.fresh⟩ 0 30
        = (.ok (), ⟨fun _ => 10, context_t.fresh⟩, t2) ∧
      t1.commit false ⟨fun _ => 10, context_t.fresh⟩ = (.ok (), w1, t1c) ∧
      t1c.m_state = .STATE_COMMITED ∧ w1.memory 0 = 20 ∧
      t2.commit false w1 = (.fault .bad_consistency, w1, t2) ∧ t2.m_state = .STATE_ACTIVE :=
  C4_write_write_conflict false 64 ⟨fun _ => 10, context_t.fresh⟩ 0 20 30 2 4 (by decide)
    (by decide) (by decide)

/-- Claim C3. Conflict detection at commit fails on the code. In both runs the commit
of `u` returns after writing 20 to address 0, which `t` had touched before. With
assertions compiled in and an entry acquired before the conflicting one, the commit
of `t` stops on the assertion of `release` instead of throwing `bad_consistency_t`,
with slot 10 still holding the identity of `t` (with assertions compiled out that
commit does throw). With assertions compiled out and an aliased read-only entry in
the log of `u`, the commit of `t` returns and stores 30 over the committed 20 (with
assertions compiled in the commit of `u` already stops on the assertion). -/
theorem C3_conflict_not_signalled :
    ((setup_conflict_behind false 64).last = .ok () ∧
      (setup_conflict_behind false 64).u.m_state = .STATE_COMMITED ∧
      (setup_conflict_behind false 64).world.memory 0 = 20 ∧
      (run_conflict_behind false 64).last = .fault .assertion ∧
      (run_conflict_behind false 64).world.orec 30 = 2 ∧
      (run_conflict_behind false 64).t.m_state = .STATE_ACTIVE ∧
      (run_conflict_behind true 64).last = .fault .bad_consistency) ∧
    ((setup_conflict_aliased true 64).last = .ok () ∧
      (setup_conflict_aliased true 64).u.m_state = .STATE_COMMITED ∧
      (setup_conflict_aliased true 64).world.memory 0 = 20 ∧
      (run_conflict_aliased true 64).last = .ok () ∧
      (run_conflict_aliased true 64).t.m_state = .STATE_COMMITED ∧
      (run_conflict_aliased true 64).world.memory 0 = 30 ∧
      (setup_conflict_aliased false 64).last = .fault .assertion) := by
  decide

/-- A first read of an address whose orec is unowned appends the snapshot and
returns the word in memory. -/
theorem read_first_touch (nd : Bool) (t : transaction_t) (w : world_t) (a : addr_t)
    (hact : t.m_state = .STATE_ACTIVE) (hs : ensure_scan a t.m_entries = none)
    (hv : (w.ctx.m_orecs.find a).is_version = true) :
    t.read nd w a = (.ok (w.memory a), w, { t with m_entries := t.m_entries ++
      [⟨a, ⟨w.memory a, w.orec a⟩, ⟨w.memory a, w.orec a⟩⟩] }) := by
  unfold transaction_t.read
  rw [ensure_of_scan_none_version hs hv]
  simp [assert_ok, transaction_t.active, hact, transaction_t.get, world_t.orec, ownership_t.id]

/-- A first read of an address whose orec is owned throws and changes nothing. -/
theorem read_owned (nd : Bool) (t : transaction_t) (w : world_t) (a : addr_t)
    (hact : t.m_state = .STATE_ACTIVE) (hs : ensure_scan a t.m_entries = none)
    (hv : (w.ctx.m_orecs.find a).is_version = false) :
    t.read nd w a = (.fault .bad_consistency, w, t) := by
  unfold transaction_t.read
  rw [ensure_of_scan_none_owned hs hv]
  simp [assert_ok, transaction_t.active, hact]

/-- A first write of an address whose orec is owned throws and changes nothing. -/
theorem write_owned (nd : Bool) (bits : Nat) (t : transaction_t) (w : world_t) (a : addr_t)
    (v : word_t) (hact : t.m_state = .STATE_ACTIVE) (hs : ensure_scan a t.m_entries = none)
    (hv : (w.ctx.m_orecs.find a).is_version = false) :
    t.write nd bits w a v = (.fault .bad_consistency, w, t) := by
  unfold transaction_t.write
  rw [ensure_of_scan_none_owned hs hv]
  simp [assert_ok, transaction_t.active, hact]

/-- On an active descriptor `read` never fails an assertion and never touches the
world; it returns leaving the descriptor active with the same identity, or throws
leaving the descriptor as it was. -/
theorem read_active (nd : Bool) (t : transaction_t) (w : world_t) (a : addr_t)
    (hact : t.m_state = .STATE_ACTIVE) :
    (∃ v t1, t.read nd w a = (.ok v, w, t1) ∧ t1.m_state = .STATE_ACTIVE ∧
        t1.this_id = t.this_id) ∨
      t.read nd w a = (.fault .bad_consistency, w, t) := by
  cases hs : ensure_scan a t.m_entries with
  | some i =>
    obtain ⟨e, he, -⟩ := ensure_scan_some hs
    exact Or.inl ⟨_, _, read_of_scan_some hact hs he, hact, rfl⟩
  | none =>
    cases hv : (w.ctx.m_orecs.find a).is_version with
    | true => exact Or.inl ⟨_, _, read_first_touch nd t w a hact hs hv, hact, rfl⟩
    | false => exact Or.inr (read_owned nd t w a hact hs hv)

/-- The same for `write`. -/
theorem write_active (nd : Bool) (bits : Nat) (t : transaction_t) (w : world_t) (a : addr_t)
    (v : word_t) (hact : t.m_state = .STATE_ACTIVE) :
    (∃ t1, t.write nd bits w a v = (.ok (), w, t1) ∧ t1.m_state = .STATE_ACTIVE ∧
        t1.this_id = t.this_id) ∨
      t.write nd bits w a v = (.fault .bad_consistency, w, t) := by
  cases hs : ensure_scan a t.m_entries with
  | some i =>
    obtain ⟨e, he, -⟩ := ensure_scan_some hs
    exact Or.inl ⟨_, write_of_scan_some hact hs he, hact, rfl⟩
  | none =>
    cases hv : (w.ctx.m_orecs.find a).is_version with
    | true => exact Or.inl ⟨_, write_first_touch nd bits t w a v hact hs hv, hact, rfl⟩
    | false => exact Or.inr (write_owned nd bits t w a v hact hs hv)

/-- One call on an active descriptor: no assertion fails, the world is untouched, the
descriptor stays active with its identity. -/
theorem call_active (nd : Bool) (bits : Nat) (t : transaction_t) (w : world_t) (c : call_t)
    (hact : t.m_state = .STATE_ACTIVE) :
    ∃ r t1, t.call nd bits w c = (r, w, t1) ∧ r ≠ .fault .assertion ∧
      t1.m_state = .STATE_ACTIVE ∧ t1.this_id = t.this_id := by
  cases c with
  | read a =>
    rcases read_active nd t w a hact with ⟨v, t1, h, h1, h2⟩ | h
    · exact ⟨.ok (), t1, by simp [transaction_t.call, h], by simp, h1, h2⟩
    · exact ⟨.fault .bad_consistency, t, by simp [transaction_t.call, h], by simp, hact, rfl⟩
  | write a v =>
    rcases write_active nd bits t w a v hact with ⟨t1, h, h1, h2⟩ | h
    · exact ⟨.ok (), t1, by simp [transaction_t.call, h], by simp, h1, h2⟩
    · exact ⟨.fault .bad_consistency, t, by simp [transaction_t.call, h], by simp, hact, rfl⟩

/-- A sequence of calls on an active descriptor runs to its end: no assertion fails,
the world is untouched, the descriptor stays active with its identity. -/
theorem calls_active (nd : Bool) (bits : Nat) :
    ∀ (cs : List call_t) (t : transaction_t) (w : world_t), t.m_state = .STATE_ACTIVE →
      ∃ t1, transaction_t.calls nd bits cs t w = (.ok (), w, t1) ∧
        t1.m_state = .STATE_ACTIVE ∧ t1.this_id = t.this_id
  | [], t, w, hact => ⟨t, rfl, hact, rfl⟩
  | c :: cs, t, w, hact => by
    obtain ⟨r, t1, h, hr, h1, h2⟩ := call_active nd bits t w c hact
    obtain ⟨t2, h3, h4, h5⟩ := calls_active nd bits cs t1 w h1
    refine ⟨t2, ?_, h4, h5.trans h2⟩
    unfold transaction_t.calls
    rw [h]
    cases r with
    | ok u => exact h3
    | fault f =>
      cases f with
      | bad_consistency => exact h3
      | assertion => exact absurd rfl hr

/-- Claim C6. Abort discards: an active transaction that runs any sequence of read and
write calls (catching `bad_consistency_t`) and is then aborted, by `abort` or by its
destructor, ends in state ABORTED with its log kept, and the world (every memory word
and every orec slot) is the one it started in; so no slot holds its identity, given
that none did when it started. -/
theorem C6_abort_discards (nd : Bool) (bits : Nat) (cs : List call_t) (t : transaction_t)
    (w : world_t) (hact : t.m_state = .STATE_ACTIVE)
    (hown : ∀ i, (w.ctx.m_orecs.m_records i).id ≠ t.this_id) :
    ∃ t1, transaction_t.calls nd bits cs t w = (.ok (), w, t1) ∧
      t1.abort nd w = (.ok (), w, { t1 with m_state := .STATE_ABORTED }) ∧
      t1.destroy nd w = (.ok (), w, { t1 with m_state := .STATE_ABORTED }) ∧
      ∀ i, (w.ctx.m_orecs.m_records i).id ≠ t1.this_id := by
  obtain ⟨t1, h, h1, h2⟩ := calls_active nd bits cs t w hact
  refine ⟨t1, h, ?_, ?_, ?_⟩
  · simp [transaction_t.abort, assert_ok, transaction_t.active, h1]
  · simp [transaction_t.destroy, transaction_t.abort, assert_ok, transaction_t.active, h1]
  · rw [h2]
    exact hown

/-- Witness for C6: the run of `test_hello_abort`, one write of 20 over 10. -/
theorem C6_abort_discards_witness :
    ∃ t1, transaction_t.calls false 64 [.write 0 20] (transaction_t.create 2) world_ten
        = (.ok (), world_ten, t1) ∧
      t1.abort false world_ten = (.ok (), world_ten, { t1 with m_state := .STATE_ABORTED }) ∧
      t1.destroy false world_ten
        = (.ok (), world_ten, { t1 with m_state := .STATE_ABORTED }) ∧
      ∀ i, (world_ten.ctx.m_orecs.m_records i).id ≠ t1.this_id :=
  C6_abort_discards false 64 [.write 0 20] (transaction_t.create 2) world_ten rfl
    (fun _ => show (1 : Nat) ≠ 2 by decide)

/-- After `acquire_all` returned true every slot indexed by a logged address holds the
identity of the transaction. -/
theorem acquire_all_true_owns {nd : Bool} {t t1 : transaction_t} {w w1 : world_t}
    (h : t.acquire_all nd w = (.ok true, w1, t1)) {e : entry_t} (he : e ∈ t.m_entries) :
    w1.orec e.m_addr = t.this_id := by
  obtain ⟨rfl, -⟩ := acquire_from_true h
  exact acquire_world_orec_mem _ _ _ _ (Or.inl ⟨e, he, rfl⟩)

/-- On a first touch `ensure` throws exactly when the slot holds an even word. -/
theorem ensure_first_touch_throws (t : transaction_t) (w : world_t) (a : addr_t)
    (hs : ensure_scan a t.m_entries = none) :
    (t.ensure w a).1 = .fault .bad_consistency ↔ (w.ctx.m_orecs.find a).m_id % 2 = 0 := by
  rw [← is_version_false_iff]
  cases hv : (w.ctx.m_orecs.find a).is_version with
  | true => simp [ensure_of_scan_none_version hs hv]
  | false => simp [ensure_of_scan_none_owned hs hv]

/-- Claim C7. First touch of an owned orec fails cleanly: for an active transaction and
an address not in its log, each of `read`, `write` and `ensure` throws
`bad_consistency_t` exactly when the slot of the address holds an even word, and then
leaves the world and the descriptor (log and state) as they were. In particular, in the
world left by an `acquire_all` of a transaction with an even identity that returned
true, the first read or write of an address logged by that transaction throws. -/
theorem C7_first_touch_owned (nd : Bool) (bits : Nat) (t : transaction_t) (w : world_t)
    (a : addr_t) (v : word_t) (hact : t.m_state = .STATE_ACTIVE)
    (hnew : ∀ e ∈ t.m_entries, e.m_addr ≠ a) :
    (((t.read nd w a).1 = .fault .bad_consistency ↔ (w.ctx.m_orecs.find a).m_id % 2 = 0) ∧
      ((t.write nd bits w a v).1 = .fault .bad_consistency ↔
        (w.ctx.m_orecs.find a).m_id % 2 = 0) ∧
      ((t.ensure w a).1 = .fault .bad_consistency ↔ (w.ctx.m_orecs.find a).m_id % 2 = 0)) ∧
    ((w.ctx.m_orecs.find a).m_id % 2 = 0 →
      t.read nd w a = (.fault .bad_consistency, w, t) ∧
      t.write nd bits w a v = (.fault .bad_consistency, w, t) ∧
      t.ensure w a = (.fault .bad_consistency, w, t)) ∧
    (∀ (u u1 : transaction_t) (w0 : world_t), u.this_id % 2 = 0 →
      u.acquire_all nd w0 = (.ok true, w, u1) → (∃ e ∈ u.m_entries, e.m_addr = a) →
      t.read nd w a = (.fault .bad_consistency, w, t) ∧
      t.write nd bits w a v = (.fault .bad_consistency, w, t)) := by
  have hs : ensure_scan a t.m_entries = none := ensure_scan_none.mpr hnew
  have howned : (w.ctx.m_orecs.find a).m_id % 2 = 0 →
      t.read nd w a = (.fault .bad_consistency, w, t) ∧
      t.write nd bits w a v = (.fault .bad_consistency, w, t) ∧
      t.ensure w a = (.fault .bad_consistency, w, t) := by
    intro h0
    have hv := (is_version_false_iff _).mpr h0
    exact ⟨read_owned nd t w a hact hs hv, write_owned nd bits t w a v hact hs hv,
      ensure_of_scan_none_owned hs hv⟩
  refine ⟨⟨?_, ?_, ensure_first_touch_throws t w a hs⟩, howned, ?_⟩
  · constructor
    · intro h
      by_contra h0
      have hv : (w.ctx.m_orecs.find a).is_version = true := by
        rw [is_version_iff]
        rcases Nat.mod_two_eq_zero_or_one (w.ctx.m_orecs.find a).m_id with h1 | h1
        · exact absurd h1 h0
        · exact h1
      rw [read_first_touch nd t w a hact hs hv] at h
      simp at h
    · intro h0
      rw [(howned h0).1]
  · constructor
    · intro h
      by_contra h0
      have hv : (w.ctx.m_orecs.find a).is_version = true := by
        rw [is_version_iff]
        rcases Nat.mod_two_eq_zero_or_one (w.ctx.m_orecs.find a).m_id with h1 | h1
        · exact absurd h1 h0
        · exact h1
      rw [write_first_touch nd bits t w a v hact hs hv] at h
      simp at h
    · intro h0
      rw [(howned h0).2.1]
  · intro u u1 w0 hu hacq ⟨e, he, hea⟩
    have ho := acquire_all_true_owns hacq he
    rw [hea] at ho
    have h0 : (w.ctx.m_orecs.find a).m_id % 2 = 0 := by
      have : (w.ctx.m_orecs.find a).m_id = u.this_id := ho
      rw [this]
      exact hu
    exact ⟨(howned h0).1, (howned h0).2.1⟩

/-- Witness for C7: the run of `test_hello_false_abort`. Transaction 2 has written 20
to address 0 and run `acquire_all`; the first write of transaction 4 to address 0
then throws. -/
theorem C7_first_touch_owned_witness :
    (transaction_t.create 4).write false 64
        ((⟨2, .STATE_ACTIVE, [⟨0, ⟨10, 1⟩, ⟨20, 3⟩⟩]⟩ : transaction_t).acquire_all false
          world_ten).2.1 0 20
      = (.fault .bad_consistency,
        ((⟨2, .STATE_ACTIVE, [⟨0, ⟨10, 1⟩, ⟨20, 3⟩⟩]⟩ : transaction_t).acquire_all false
          world_ten).2.1, transaction_t.create 4) :=
  ((C7_first_touch_owned false 64 (transaction_t.create 4)
    ((⟨2, .STATE_ACTIVE, [⟨0, ⟨10, 1⟩, ⟨20, 3⟩⟩]⟩ : transaction_t).acquire_all false
      world_ten).2.1 0 20 rfl (by simp [transaction_t.create])).2.2
    ⟨2, .STATE_ACTIVE, [⟨0, ⟨10, 1⟩, ⟨20, 3⟩⟩]⟩ ⟨2, .STATE_ACTIVE, [⟨0, ⟨10, 1⟩, ⟨20, 3⟩⟩]⟩
    world_ten (by decide) rfl ⟨_, List.mem_singleton.mpr rfl, rfl⟩).2

/-- The call `ensure` never touches the world. -/
theorem ensure_world (t : transaction_t) (w : world_t) (a : addr_t) :
    (t.ensure w a).2.1 = w := by
  unfold transaction_t.ensure
  split
  · rfl
  · split <;> rfl

/-- The call `read` never touches the world, whatever the descriptor. -/
theorem read_world (nd : Bool) (t : transaction_t) (w : world_t) (a : addr_t) :
    (t.read nd w a).2.1 = w := by
  have h0 := ensure_world t w a
  unfold transaction_t.read
  split
  · split
    · next heq =>
      rw [heq] at h0
      split <;> exact h0
    · next heq =>
      rw [heq] at h0
      exact h0
  · rfl

/-- The call `write` never touches the world, whatever the descriptor. -/
theorem write_world (nd : Bool) (bits : Nat) (t : transaction_t) (w : world_t) (a : addr_t)
    (v : word_t) : (t.write nd bits w a v).2.1 = w := by
  have h0 := ensure_world t w a
  unfold transaction_t.write
  split
  · split
    · next heq =>
      rw [heq] at h0
      split <;> exact h0
    · next heq =>
      rw [heq] at h0
      exact h0
  · rfl

/-- Claim C8. Uncommitted writes are invisible: `read(a)` and `write(a, v)` of a
transaction `t` leave the world (every memory word and every orec slot) as it was.
So a first read of `a` by another active transaction `u` after the write of `t` is
the read it would have made before: it returns the word in memory when the slot of `a`
is unowned and throws when it is owned, and never returns `v` unless memory holds
`v` already. -/
theorem C8_uncommitted_invisible (nd : Bool) (bits : Nat) (t u : transaction_t) (w : world_t)
    (a : addr_t) (v : word_t) (hu : u.m_state = .STATE_ACTIVE)
    (hnew : ∀ e ∈ u.m_entries, e.m_addr ≠ a) :
    (t.read nd w a).2.1 = w ∧ (t.write nd bits w a v).2.1 = w ∧
      u.read nd (t.write nd bits w a v).2.1 a = u.read nd w a ∧
      ((w.ctx.m_orecs.find a).is_version = true →
        (u.read nd (t.write nd bits w a v).2.1 a).1 = .ok (w.memory a)) ∧
      ((w.ctx.m_orecs.find a).is_version = false →
        (u.read nd (t.write nd bits w a v).2.1 a).1 = .fault .bad_consistency) ∧
      (v ≠ w.memory a → (u.read nd (t.write nd bits w a v).2.1 a).1 ≠ .ok v) := by
  have hs : ensure_scan a u.m_entries = none := ensure_scan_none.mpr hnew
  have hw := write_world nd bits t w a v
  refine ⟨read_world nd t w a, hw, by rw [hw], ?_, ?_, ?_⟩
  · intro hv
    rw [hw, read_first_touch nd u w a hu hs hv]
  · intro hv
    rw [hw, read_owned nd u w a hu hs hv]
  · intro hne
    rw [hw]
    cases hv : (w.ctx.m_orecs.find a).is_version with
    | true =>
      rw [read_first_touch nd u w a hu hs hv]
      simpa using fun h => hne h.symm
    | false =>
      rw [read_owned nd u w a hu hs hv]
      simp

/-- Witness for C8: in `test_hello_commit_abort` transaction 2 writes 20 over 10, and
the first read of transaction 4 still returns 10. -/
theorem C8_uncommitted_invisible_witness :
    ((transaction_t.create 4).read false
      ((transaction_t.create 2).write false 64 world_ten 0 20).2.1 0).1 = .ok 10 :=
  (C8_uncommitted_invisible false 64 (transaction_t.create 2) (transaction_t.create 4)
    world_ten 0 20 rfl (by simp [transaction_t.create])).2.2.2.1 (by decide)

/-- Appending an entry of another address leaves the entries of `a` alone. -/
theorem filter_append_other (a : addr_t) (es : List entry_t) (x : entry_t)
    (hx : x.m_addr ≠ a) :
    (es ++ [x]).filter (fun e => decide (e.m_addr = a))
      = es.filter (fun e => decide (e.m_addr = a)) := by
  simp [List.filter_append, hx]

/-- Replacing an entry of another address by one of another address leaves the
entries of `a` alone. -/
theorem filter_set_other (a : addr_t) (x : entry_t) (hx : x.m_addr ≠ a) :
    ∀ (es : List entry_t) (i : Nat) (y : entry_t), es[i]? = some y → y.m_addr ≠ a →
      (es.set i x).filter (fun e => decide (e.m_addr = a))
        = es.filter (fun e => decide (e.m_addr = a))
  | [], _, _, _, _ => by simp
  | e :: es, 0, y, h, hy => by
    have : e = y := by simpa using h
    subst this
    simp [List.filter_cons, hx, hy]
  | e :: es, i + 1, y, h, hy => by
    have ih := filter_set_other a x hx es i y (by simpa using h) hy
    simp only [List.set_cons_succ, List.filter_cons, ih]

/-- When the entries of `a` are the single entry `e`, the scan finds `e`, and
replacing it by an entry of `a` makes that one the single entry. -/
theorem filter_set_scan (a : addr_t) (x : entry_t) (hx : x.m_addr = a) (e : entry_t) :
    ∀ (es : List entry_t) (i : Nat), ensure_scan a es = some i →
      es.filter (fun e => decide (e.m_addr = a)) = [e] →
      es[i]? = some e ∧ (es.set i x).filter (fun e => decide (e.m_addr = a)) = [x]
  | [], _, h, _ => by simp [ensure_scan] at h
  | e0 :: es, i, h, hf => by
    unfold ensure_scan at h
    by_cases hc : e0.m_addr = a
    · simp only [hc, if_true, Option.some.injEq] at h
      subst h
      simp only [List.filter_cons, hc, decide_True, if_true, List.cons.injEq] at hf
      obtain ⟨rfl, hf⟩ := hf
      simp [List.filter_cons, hx, hf]
    · simp only [hc, if_false, Option.map_eq_some'] at h
      obtain ⟨j, hj, rfl⟩ := h
      simp only [List.filter_cons, hc, decide_False] at hf
      obtain ⟨h1, h2⟩ := filter_set_scan a x hx e es j hj hf
      refine ⟨by simpa using h1, ?_⟩
      simp only [List.set_cons_succ, List.filter_cons, hc, decide_False]
      exact h2

/-- An address with an entry in the log is found by the scan. -/
theorem scan_of_filter {a : addr_t} {es : List entry_t} {e : entry_t}
    (hf : es.filter (fun e => decide (e.m_addr = a)) = [e]) :
    ∃ i, ensure_scan a es = some i := by
  apply ensure_scan_isSome
  have : e ∈ es.filter (fun e => decide (e.m_addr = a)) := by
    rw [hf]
    exact List.mem_singleton.mpr rfl
  rw [List.mem_filter] at this
  exact ⟨e, this.1, by simpa using this.2⟩

/-- One call keeps the log holding a single entry for `a`, rewritten when the call is
a write to `a`. -/
theorem call_filter (nd : Bool) (bits : Nat) (t : transaction_t) (w : world_t) (a : addr_t)
    (e : entry_t) (c : call_t) (hact : t.m_state = .STATE_ACTIVE)
    (hf : t.m_entries.filter (fun e => decide (e.m_addr = a)) = [e]) :
    (t.call nd bits w c).2.2.m_entries.filter (fun e => decide (e.m_addr = a))
      = [entry_t.after bits a e [c]] := by
  obtain ⟨ia, hia⟩ := scan_of_filter hf
  have hea : e.m_addr = a := by
    have : e ∈ t.m_entries.filter (fun e => decide (e.m_addr = a)) := by
      rw [hf]
      exact List.mem_singleton.mpr rfl
    rw [List.mem_filter] at this
    simpa using this.2
  cases c with
  | read b =>
    simp only [entry_t.after]
    rcases read_active nd t w b hact with ⟨v, t1, h, -, -⟩ | h
    · cases hs : ensure_scan b t.m_entries with
      | some i =>
        obtain ⟨y, hy, -⟩ := ensure_scan_some hs
        simp [transaction_t.call, read_of_scan_some hact hs hy, hf]
      | none =>
        have hb : b ≠ a := by
          rintro rfl
          rw [hs] at hia
          cases hia
        cases hv : (w.ctx.m_orecs.find b).is_version with
        | true =>
          simp only [transaction_t.call, read_first_touch nd t w b hact hs hv]
          rw [filter_append_other a _ _ hb]
          exact hf
        | false =>
          simp [transaction_t.call, read_owned nd t w b hact hs hv, hf]
    · simp [transaction_t.call, h, hf]
  | write b v =>
    cases hs : ensure_scan b t.m_entries with
    | some i =>
      obtain ⟨y, hy, hyb⟩ := ensure_scan_some hs
      simp only [transaction_t.call, write_of_scan_some hact hs hy]
      by_cases hb : b = a
      · subst hb
        obtain ⟨h1, h2⟩ := filter_set_scan b (e.written bits v) hea e t.m_entries i hs hf
        rw [hy] at h1
        cases h1
        simp only [entry_t.after, if_true]
        exact h2
      · simp only [entry_t.after, if_neg hb]
        rw [filter_set_other a (y.written bits v) (by rw [← hyb] at hb; exact hb)
          t.m_entries i y hy (by rw [hyb]; exact hb)]
        exact hf
    | none =>
      have hb : b ≠ a := by
        rintro rfl
        rw [hs] at hia
        cases hia
      simp only [entry_t.after, if_neg hb]
      cases hv : (w.ctx.m_orecs.find b).is_version with
      | true =>
        simp only [transaction_t.call, write_first_touch nd bits t w b v hact hs hv]
        rw [filter_append_other a _ _ hb]
        exact hf
      | false =>
        simp [transaction_t.call, write_owned nd bits t w b v hact hs hv, hf]

theorem after_cons (bits : Nat) (a : addr_t) (e : entry_t) (c : call_t) (cs : List call_t) :
    entry_t.after bits a e (c :: cs) = entry_t.after bits a (entry_t.after bits a e [c]) cs := by
  cases c with
  | read b => simp [entry_t.after]
  | write b v =>
    by_cases hb : b = a
    · simp [entry_t.after, hb]
    · simp [entry_t.after, hb]

/-- A sequence of calls on an active descriptor keeps the log holding a single entry
for `a`, the one `entry_t.after` computes. -/
theorem calls_filter (nd : Bool) (bits : Nat) (w : world_t) (a : addr_t) :
    ∀ (cs : List call_t) (t : transaction_t) (e : entry_t), t.m_state = .STATE_ACTIVE →
      t.m_entries.filter (fun e => decide (e.m_addr = a)) = [e] →
      (transaction_t.calls nd bits cs t w).2.2.m_entries.filter
        (fun e => decide (e.m_addr = a)) = [entry_t.after bits a e cs]
  | [], t, e, _, hf => by simpa [transaction_t.calls, entry_t.after] using hf
  | c :: cs, t, e, hact, hf => by
    obtain ⟨r, t1, h, hr, h1, -⟩ := call_active nd bits t w c hact
    have hf1 := call_filter nd bits t w a e c hact hf
    rw [h] at hf1
    have ih := calls_filter nd bits w a cs t1 (entry_t.after bits a e [c]) h1 hf1
    rw [after_cons]
    unfold transaction_t.calls
    rw [h]
    cases r with
    | ok u => exact ih
    | fault f =>
      cases f with
      | bad_consistency => exact ih
      | assertion => exact absurd rfl hr

theorem stepped_succ (bits : Nat) (ver : id_t) (k : Nat) :
    stepped bits (id_add bits ver VERSION_STEP) k = stepped bits ver (k + 1) := by
  unfold stepped id_add VERSION_STEP
  by_cases hk : k = 0
  · simp [hk]
  · simp only [hk, if_false, Nat.succ_ne_zero]
    rw [Nat.mod_add_mod]
    congr 1
    dsimp only [id_t] at *
    omega

theorem getLast_cons_getD (v x : word_t) (l : List word_t) :
    (v :: l).getLast?.getD x = l.getLast?.getD v := by
  cases l with
  | nil => rfl
  | cons y l =>
    rw [List.getLast?_cons_cons]
    cases h : (y :: l).getLast? with
    | none => simp at h
    | some z => rfl

/-- Closed form of `entry_t.after`: address and old snapshot are kept; the new
snapshot holds the last word written to the address and the version stepped once for
each write. -/
theorem after_eq (bits : Nat) (a : addr_t) :
    ∀ (cs : List call_t) (e : entry_t),
      entry_t.after bits a e cs =
        ⟨e.m_addr, e.m_old, ⟨(writes_to a cs).getLast?.getD e.m_new.m_value,
          stepped bits e.m_new.m_version (writes_to a cs).length⟩⟩
  | [], e => by simp [entry_t.after, writes_to, stepped]
  | .read b :: cs, e => by
    simp only [entry_t.after, writes_to]
    exact after_eq bits a cs e
  | .write b v :: cs, e => by
    by_cases hb : b = a
    · simp only [entry_t.after, writes_to, hb, if_true]
      rw [after_eq bits a cs (e.written bits v)]
      simp only [entry_t.written, List.length_cons, getLast_cons_getD, stepped_succ]
    · simp only [entry_t.after, writes_to, hb, if_false]
      exact after_eq bits a cs e

/-- Claim C9. Log entry after writes: an active transaction first touches `a` (its orec
unowned) in a world `w`, where memory holds `w.memory a` and the slot the version
`w.orec a`; it then runs any sequence of reads and writes of any addresses (in any
world `w1`, catching `bad_consistency_t`). The run reaches its end, and the log then
has exactly one entry for `a`: its old snapshot is the first one, its new snapshot
holds the last word written to `a` (the first word when there was no write) and the
first version stepped by 2 for each of the `k` writes to `a`, in `id_t`: the version
itself when `k = 0`, else `(V + 2k) mod 2^bits`, which is `V + 2k` whenever that fits
in `id_t`. -/
theorem C9_log_entry_after_writes (nd : Bool) (bits : Nat) (t : transaction_t)
    (w w1 : world_t) (a : addr_t) (cs : List call_t) (hact : t.m_state = .STATE_ACTIVE)
    (hnew : ∀ e ∈ t.m_entries, e.m_addr ≠ a)
    (hv : (w.ctx.m_orecs.find a).is_version = true) :
    ∃ t0 t1, t.ensure w a = (.ok t.m_entries.length, w, t0) ∧
      transaction_t.calls nd bits cs t0 w1 = (.ok (), w1, t1) ∧
      t1.m_entries.filter (fun e => decide (e.m_addr = a)) =
        [⟨a, ⟨w.memory a, w.orec a⟩,
          ⟨(writes_to a cs).getLast?.getD (w.memory a),
            if (writes_to a cs).length = 0 then w.orec a
            else (w.orec a + 2 * (writes_to a cs).length) % 2 ^ bits⟩⟩] ∧
      (w.orec a + 2 * (writes_to a cs).length < 2 ^ bits →
        t1.m_entries.filter (fun e => decide (e.m_addr = a)) =
          [⟨a, ⟨w.memory a, w.orec a⟩,
            ⟨(writes_to a cs).getLast?.getD (w.memory a),
              w.orec a + 2 * (writes_to a cs).length⟩⟩]) := by
  have hs : ensure_scan a t.m_entries = none := ensure_scan_none.mpr hnew
  have h0 := ensure_of_scan_none_version hs hv
  obtain ⟨t0, ht0⟩ : ∃ t0 : transaction_t, t0 = { t with m_entries := t.m_entries ++
      [⟨a, ⟨w.memory a, w.orec a⟩, ⟨w.memory a, w.orec a⟩⟩] } := ⟨_, rfl⟩
  have hact0 : t0.m_state = .STATE_ACTIVE := by rw [ht0]; exact hact
  have hf0 : t0.m_entries.filter (fun e => decide (e.m_addr = a))
      = [⟨a, ⟨w.memory a, w.orec a⟩, ⟨w.memory a, w.orec a⟩⟩] := by
    have : t.m_entries.filter (fun e => decide (e.m_addr = a)) = [] := by
      rw [List.filter_eq_nil_iff]
      intro e he
      simpa using hnew e he
    rw [ht0]
    simp [List.filter_append, this]
  obtain ⟨t1, h1, -, -⟩ := calls_active nd bits cs t0 w1 hact0
  have hf1 := calls_filter nd bits w1 a cs t0 _ hact0 hf0
  rw [h1, after_eq] at hf1
  have hmain : t1.m_entries.filter (fun e => decide (e.m_addr = a)) =
        [⟨a, ⟨w.memory a, w.orec a⟩,
          ⟨(writes_to a cs).getLast?.getD (w.memory a),
            if (writes_to a cs).length = 0 then w.orec a
            else (w.orec a + 2 * (writes_to a cs).length) % 2 ^ bits⟩⟩] := hf1
  refine ⟨t0, t1, ?_, h1, hmain, ?_⟩
  · rw [h0, ht0]
    rfl
  · intro hfit
    rw [hmain]
    by_cases hk : (writes_to a cs).length = 0
    · simp [hk]
    · simp only [hk, if_false]
      rw [Nat.mod_eq_of_lt hfit]

/-- Witness for C9: the run of `test_hello_read_write`: a first touch of address 0
holding 20 at version 1, then read, write 30, read, write 40 and a write of 210 to
another address leave the entry (0, (20, 1), (40, 5)). -/
theorem C9_log_entry_after_writes_witness :
    ∃ t0 t1, (transaction_t.create 2).ensure ⟨fun _ => 20, context_t.fresh⟩ 0
        = (.ok 0, ⟨fun _ => 20, context_t.fresh⟩, t0) ∧
      transaction_t.calls false 64
        [.read 0, .write 0 30, .read 0, .write 0 40, .write 9 210] t0 world_ten
          = (.ok (), world_ten, t1) ∧
      t1.m_entries.filter (fun e => decide (e.m_addr = 0)) = [⟨0, ⟨20, 1⟩, ⟨40, 5⟩⟩] := by
  obtain ⟨t0, t1, h0, h1, h2, -⟩ := C9_log_entry_after_writes false 64 (transaction_t.create 2)
    ⟨fun _ => 20, context_t.fresh⟩ world_ten 0
    [.read 0, .write 0 30, .read 0, .write 0 40, .write 9 210] rfl
    (by simp [transaction_t.create]) (by decide)
  exact ⟨t0, t1, h0, h1, h2⟩

/-- Publishing leaves the slots it does not index alone. -/
theorem publish_world_orec_not_mem :
    ∀ (es : List entry_t) (w : world_t) (b : addr_t),
      (∀ x ∈ es, ownership_table_t.index x.m_addr ≠ ownership_table_t.index b) →
        (publish_world es w).orec b = w.orec b
  | [], _, _, _ => rfl
  | e :: es, w, b, h => by
    rw [publish_world_cons,
      publish_world_orec_not_mem es _ b (fun x hx => h x (List.mem_cons_of_mem _ hx)),
      orec_set_orec, if_neg (fun hb => h e (List.mem_cons_self _ _) hb.symm), orec_store]

theorem publish_world_append (pre post : List entry_t) (w : world_t) :
    publish_world (pre ++ post) w = publish_world post (publish_world pre w) := by
  simp [publish_world, List.foldl_append]

/-- Where `commit` returns, the slot indexed by an entry that no later entry of the log
shares its slot with holds the new version of that entry. Holds in both builds. -/
theorem commit_slot_of_last_entry (nd : Bool) (t t1 : transaction_t) (w w1 : world_t)
    (pre post : List entry_t) (e : entry_t) (h : t.commit nd w = (.ok (), w1, t1))
    (hlog : t.m_entries = pre ++ e :: post)
    (hlast : ∀ x ∈ post, ownership_table_t.index x.m_addr ≠ ownership_table_t.index e.m_addr) :
    w1.orec e.m_addr = e.m_new.m_version := by
  obtain ⟨rfl, -⟩ := commit_ok h
  rw [hlog, publish_world_append, publish_world_cons,
    publish_world_orec_not_mem post _ _ hlast, orec_set_orec, if_pos rfl]

/-- The run of `test_hello_read_write`: the log is (0, 20 to 40, version 1 to 5),
(9, 200 to 210, version 1 to 3); after the commit the slot of address 0 holds 5. -/
theorem commit_slot_of_last_entry_example :
    ((⟨2, .STATE_ACTIVE, [⟨0, ⟨20, 1⟩, ⟨40, 5⟩⟩, ⟨9, ⟨200, 1⟩, ⟨210, 3⟩⟩]⟩ :
      transaction_t).commit false world_ten).2.1.orec 0 = 5 :=
  commit_slot_of_last_entry false
    ⟨2, .STATE_ACTIVE, [⟨0, ⟨20, 1⟩, ⟨40, 5⟩⟩, ⟨9, ⟨200, 1⟩, ⟨210, 3⟩⟩]⟩ _ world_ten _
    [] [⟨9, ⟨200, 1⟩, ⟨210, 3⟩⟩] ⟨0, ⟨20, 1⟩, ⟨40, 5⟩⟩ rfl rfl (by decide)

/-- Claim C10. The post-commit orec version is wrong on the code for a log with two
addresses on one slot. Transaction 4 writes 20 to address 0 and reads address 768, which
indexes the same slot 0; its log is (0, version 1 to 3), (768, version 1 to 1). With
assertions compiled out its commit returns, and the slot indexed by address 0 then
holds 1, the version of the read-only entry released after it, not the 3 of the entry
of address 0: `make_all_changes` has called `release` on the entry of 768 while the slot
held 3 and not the identity. With assertions compiled in the commit stops on that
second assertion of `release`. -/
theorem C10_aliased_slot_wrong_version :
    transaction_t.calls true 64 [.write 0 20, .read 768] (transaction_t.create 4) world_ten
        = (.ok (), world_ten,
          ⟨4, .STATE_ACTIVE, [⟨0, ⟨10, 1⟩, ⟨20, 3⟩⟩, ⟨768, ⟨10, 1⟩, ⟨10, 1⟩⟩]⟩) ∧
      ownership_table_t.index 0 = ownership_table_t.index 768 ∧
      ((⟨4, .STATE_ACTIVE, [⟨0, ⟨10, 1⟩, ⟨20, 3⟩⟩, ⟨768, ⟨10, 1⟩, ⟨10, 1⟩⟩]⟩ :
        transaction_t).commit true world_ten).1 = .ok () ∧
      ((⟨4, .STATE_ACTIVE, [⟨0, ⟨10, 1⟩, ⟨20, 3⟩⟩, ⟨768, ⟨10, 1⟩, ⟨10, 1⟩⟩]⟩ :
        transaction_t).commit true world_ten).2.1.orec 0 = 1 ∧
      ¬ (∀ e ∈ [(⟨0, ⟨10, 1⟩, ⟨20, 3⟩⟩ : entry_t), ⟨768, ⟨10, 1⟩, ⟨10, 1⟩⟩],
        ((⟨4, .STATE_ACTIVE, [⟨0, ⟨10, 1⟩, ⟨20, 3⟩⟩, ⟨768, ⟨10, 1⟩, ⟨10, 1⟩⟩]⟩ :
          transaction_t).commit true world_ten).2.1.orec e.m_addr = e.m_new.m_version) ∧
      ((⟨4, .STATE_ACTIVE, [⟨0, ⟨10, 1⟩, ⟨20, 3⟩⟩, ⟨768, ⟨10, 1⟩, ⟨10, 1⟩⟩]⟩ :
        transaction_t).commit false world_ten).1 = .fault .assertion := by
  refine ⟨rfl, by decide, by decide, by decide, by decide, by decide⟩


/-- Claim C12. Orec acquire classification: `ownership_t::acquire(prev, next)` on an
orec holding `o.m_id` never fails an assertion; it returns SUCCEED exactly when the
word is `prev` or `next`; when it is neither, it returns FAILED exactly when the word
is odd and BUSY exactly when it is even; afterwards the orec holds `next` when the
word was `prev` and is unchanged in every other case. Holds in both builds. -/
theorem C12_acquire_classification (nd : Bool) (o : ownership_t) (prev next : id_t) :
    ((o.acquire nd prev next).1 = .ok .ACQUISITION_SUCCEED ↔
        (o.m_id = prev ∨ o.m_id = next)) ∧
      (¬ (o.m_id = prev ∨ o.m_id = next) →
        ((o.acquire nd prev next).1 = .ok .ACQUISITION_FAILED ↔ o.m_id % 2 = 1) ∧
        ((o.acquire nd prev next).1 = .ok .ACQUISITION_BUSY ↔ o.m_id % 2 = 0)) ∧
      (o.m_id = prev → (o.acquire nd prev next).2.m_id = next) ∧
      (o.m_id ≠ prev → (o.acquire nd prev next).2 = o) := by
  rw [orec_acquire_eq]
  by_cases h1 : o.m_id = prev
  · rw [if_pos h1]
    exact ⟨⟨fun _ => Or.inl h1, fun _ => rfl⟩, fun h => absurd (Or.inl h1) h,
      fun _ => rfl, fun h => absurd h1 h⟩
  · rw [if_neg h1]
    by_cases h2 : o.m_id = next
    · rw [if_pos h2]
      exact ⟨⟨fun _ => Or.inr h2, fun _ => rfl⟩, fun h => absurd (Or.inr h2) h,
        fun h => absurd h h1, fun _ => rfl⟩
    · rw [if_neg h2]
      cases hv : o.is_version with
      | true =>
        have hodd := (is_version_iff o).mp hv
        rw [if_pos rfl]
        refine ⟨⟨fun h => by simp at h, fun h => absurd h (not_or.mpr ⟨h1, h2⟩)⟩,
          fun _ => ⟨⟨fun _ => hodd, fun _ => rfl⟩, ⟨fun h => by simp at h, fun h => ?_⟩⟩,
          fun h => absurd h h1, fun _ => rfl⟩
        rw [hodd] at h
        exact absurd h (by decide)
      | false =>
        have hev := (is_version_false_iff o).mp hv
        rw [if_neg (by simp)]
        refine ⟨⟨fun h => by simp at h, fun h => absurd h (not_or.mpr ⟨h1, h2⟩)⟩,
          fun _ => ⟨⟨fun h => by simp at h, fun h => ?_⟩, ⟨fun _ => hev, fun _ => rfl⟩⟩,
          fun h => absurd h h1, fun _ => rfl⟩
        rw [hev] at h
        exact absurd h (by decide)

/-- Witness for C12: an orec at version 3 asked to go from version 1 to identity 2
answers FAILED and keeps 3. -/
theorem C12_acquire_classification_witness :
    ((⟨3⟩ : ownership_t).acquire false 1 2).1 = .ok .ACQUISITION_FAILED ∧
      ((⟨3⟩ : ownership_t).acquire false 1 2).2 = ⟨3⟩ :=
  ⟨((C12_acquire_classification false ⟨3⟩ 1 2).2.1 (by decide)).1.mpr (by decide),
    (C12_acquire_classification false ⟨3⟩ 1 2).2.2.2 (by decide)⟩

/-- Claim C15. First-touch entry: for an active transaction and an address `a` not in
its log whose orec slot, `m_records[index(a)]`, holds an odd word `V`, `ensure(a)`
returns the previous log length, touches nothing in the world, and leaves the log as the
old one followed by the single entry (`a`, (word at `a`, `V`), (word at `a`, `V`)), so
every earlier entry is unchanged; in a fresh context every slot of the table holds 1. -/
theorem C15_first_touch_entry (t : transaction_t) (w : world_t) (a : addr_t)
    (hact : t.m_state = .STATE_ACTIVE) (hnew : ∀ e ∈ t.m_entries, e.m_addr ≠ a)
    (hv : (w.ctx.m_orecs.m_records (ownership_table_t.index a)).m_id % 2 = 1) :
    (∃ t1, t.ensure w a = (.ok t.m_entries.length, w, t1) ∧
        t1.m_entries = t.m_entries ++
          [⟨a, ⟨w.memory a, (w.ctx.m_orecs.m_records (ownership_table_t.index a)).m_id⟩,
            ⟨w.memory a, (w.ctx.m_orecs.m_records (ownership_table_t.index a)).m_id⟩⟩] ∧
        t1.m_state = .STATE_ACTIVE ∧ t1.this_id = t.this_id ∧
        (∀ i, i < t.m_entries.length → t1.m_entries[i]? = t.m_entries[i]?)) ∧
      ∀ i : Fin SIZE, (context_t.fresh.m_orecs.m_records i).m_id = 1 := by
  have hs : ensure_scan a t.m_entries = none := ensure_scan_none.mpr hnew
  have hver : (w.ctx.m_orecs.find a).is_version = true := (is_version_iff _).mpr hv
  refine ⟨⟨_, ensure_of_scan_none_version hs hver, rfl, hact, rfl, ?_⟩, fun _ => rfl⟩
  intro i hi
  exact List.getElem?_append_left hi

/-- Witness for C15: a table whose slot 10 holds 7 and every other slot 1, a memory
holding `a + 100` at `a`, and a log that already has address 0. The first touch of
address 30 (slot 10) returns index 1 and appends (30, (130, 7), (130, 7)). -/
theorem C15_first_touch_entry_witness :
    ∃ t1, (⟨2, .STATE_ACTIVE, [⟨0, ⟨100, 1⟩, ⟨100, 1⟩⟩]⟩ : transaction_t).ensure
        ⟨fun a => a + 100, ⟨⟨fun i => if i.val = 10 then ⟨7⟩ else ⟨1⟩⟩⟩⟩ 30
        = (.ok 1, ⟨fun a => a + 100, ⟨⟨fun i => if i.val = 10 then ⟨7⟩ else ⟨1⟩⟩⟩⟩, t1) ∧
      t1.m_entries = [⟨0, ⟨100, 1⟩, ⟨100, 1⟩⟩, ⟨30, ⟨130, 7⟩, ⟨130, 7⟩⟩] := by
  obtain ⟨⟨t1, h1, h2, -⟩, -⟩ := C15_first_touch_entry
    ⟨2, .STATE_ACTIVE, [⟨0, ⟨100, 1⟩, ⟨100, 1⟩⟩]⟩
    ⟨fun a => a + 100, ⟨⟨fun i => if i.val = 10 then ⟨7⟩ else ⟨1⟩⟩⟩⟩ 30 rfl (by decide)
    (by decide)
  exact ⟨t1, h1, h2⟩

/-- Claim C16. Ownership after phase 1: whenever `acquire_all` of an active transaction
returns true, the descriptor is untouched and the slot indexed by the address of every
entry of the log holds the identity of the transaction, also when several logged
addresses index one slot. Holds in both builds and for every log. -/
theorem C16_ownership_after_acquire_all (nd : Bool) (t t1 : transaction_t) (w w1 : world_t)
    (hact : t.m_state = .STATE_ACTIVE) (h : t.acquire_all nd w = (.ok true, w1, t1)) :
    t1 = t ∧ ∀ e ∈ t.m_entries,
      (w1.ctx.m_orecs.m_records (ownership_table_t.index e.m_addr)).m_id = t.this_id := by
  have _ := hact
  exact ⟨(acquire_from_true h).2, fun e he => acquire_all_true_owns h he⟩

/-- Witness for C16: a log with the aliased addresses 0 and 768 and the address 30;
`acquire_all` returns true and slots 0 and 10 hold the identity 2. -/
theorem C16_ownership_after_acquire_all_witness :
    (((⟨2, .STATE_ACTIVE, [⟨0, ⟨10, 1⟩, ⟨20, 3⟩⟩, ⟨768, ⟨10, 1⟩, ⟨10, 1⟩⟩,
          ⟨30, ⟨10, 1⟩, ⟨10, 1⟩⟩]⟩ : transaction_t).acquire_all false
            world_ten).2.1.ctx.m_orecs.m_records (ownership_table_t.index 768)).m_id = 2 ∧
      (((⟨2, .STATE_ACTIVE, [⟨0, ⟨10, 1⟩, ⟨20, 3⟩⟩, ⟨768, ⟨10, 1⟩, ⟨10, 1⟩⟩,
          ⟨30, ⟨10, 1⟩, ⟨10, 1⟩⟩]⟩ : transaction_t).acquire_all false
            world_ten).2.1.ctx.m_orecs.m_records (ownership_table_t.index 30)).m_id = 2 :=
  ⟨(C16_ownership_after_acquire_all false
    ⟨2, .STATE_ACTIVE, [⟨0, ⟨10, 1⟩, ⟨20, 3⟩⟩, ⟨768, ⟨10, 1⟩, ⟨10, 1⟩⟩, ⟨30, ⟨10, 1⟩, ⟨10, 1⟩⟩]⟩
    ((⟨2, .STATE_ACTIVE, [⟨0, ⟨10, 1⟩, ⟨20, 3⟩⟩, ⟨768, ⟨10, 1⟩, ⟨10, 1⟩⟩,
      ⟨30, ⟨10, 1⟩, ⟨10, 1⟩⟩]⟩ : transaction_t).acquire_all false world_ten).2.2
    world_ten
    ((⟨2, .STATE_ACTIVE, [⟨0, ⟨10, 1⟩, ⟨20, 3⟩⟩, ⟨768, ⟨10, 1⟩, ⟨10, 1⟩⟩,
      ⟨30, ⟨10, 1⟩, ⟨10, 1⟩⟩]⟩ : transaction_t).acquire_all false world_ten).2.1
    rfl rfl).2 ⟨768, ⟨10, 1⟩, ⟨10, 1⟩⟩ (by decide),
  (C16_ownership_after_acquire_all false
    ⟨2, .STATE_ACTIVE, [⟨0, ⟨10, 1⟩, ⟨20, 3⟩⟩, ⟨768, ⟨10, 1⟩, ⟨10, 1⟩⟩, ⟨30, ⟨10, 1⟩, ⟨10, 1⟩⟩]⟩
    ((⟨2, .STATE_ACTIVE, [⟨0, ⟨10, 1⟩, ⟨20, 3⟩⟩, ⟨768, ⟨10, 1⟩, ⟨10, 1⟩⟩,
      ⟨30, ⟨10, 1⟩, ⟨10, 1⟩⟩]⟩ : transaction_t).acquire_all false world_ten).2.2
    world_ten
    ((⟨2, .STATE_ACTIVE, [⟨0, ⟨10, 1⟩, ⟨20, 3⟩⟩, ⟨768, ⟨10, 1⟩, ⟨10, 1⟩⟩,
      ⟨30, ⟨10, 1⟩, ⟨10, 1⟩⟩]⟩ : transaction_t).acquire_all false world_ten).2.1
    rfl rfl).2 ⟨30, ⟨10, 1⟩, ⟨10, 1⟩⟩ (by decide)⟩

/-- Claim C20. Orec table lookup law: the slot index of an address is the address
divided by 3, modulo 256, and is below 256; after `insert(a, orec)` the call `find(b)`
gives the inserted word when `a` and `b` index the same slot and the previous word of
its slot otherwise; `acquire(a, prev, next)` leaves every slot other than the one of
`a` as it was. -/
theorem C20_table_lookup_law (nd : Bool) (tbl : ownership_table_t) (a b : addr_t)
    (orec : ownership_t) (prev next : id_t) :
    (ownership_table_t.index a).val = a / 3 % 256 ∧
      (ownership_table_t.index a).val < 256 ∧
      (ownership_table_t.index a = ownership_table_t.index b →
        ((tbl.insert a orec).find b).m_id = orec.m_id) ∧
      (ownership_table_t.index a ≠ ownership_table_t.index b →
        (tbl.insert a orec).find b = tbl.find b) ∧
      ∀ i : Fin SIZE, i ≠ ownership_table_t.index a →
        (tbl.acquire nd a prev next).2.m_records i = tbl.m_records i := by
  refine ⟨rfl, (ownership_table_t.index a).isLt, ?_, ?_, ?_⟩
  · intro h
    simp [ownership_table_t.insert, ownership_table_t.find, ownership_t.assign, h]
  · intro h
    simp [ownership_table_t.insert, ownership_table_t.find, Function.update_apply,
      Ne.symm h]
  · intro i hi
    simp [ownership_table_t.acquire, Function.update_apply, hi]

/-- Witness for C20: addresses 0 and 768 share slot 0, address 30 has slot 10. -/
theorem C20_table_lookup_law_witness :
    ((context_t.fresh.m_orecs.insert 0 ⟨7⟩).find 768).m_id = 7 ∧
      (context_t.fresh.m_orecs.insert 0 ⟨7⟩).find 30 = context_t.fresh.m_orecs.find 30 :=
  ⟨(C20_table_lookup_law false context_t.fresh.m_orecs 0 768 ⟨7⟩ 0 0).2.2.1 (by decide),
    (C20_table_lookup_law false context_t.fresh.m_orecs 0 30 ⟨7⟩ 0 0).2.2.2.1 (by decide)⟩


/-- The descriptor `call` leaves is the one `read` or `write` leaves. -/
theorem call_descriptor (nd : Bool) (bits : Nat) (t : transaction_t) (w : world_t) :
    ∀ c : call_t, (t.call nd bits w c).2.2 =
      match c with
      | .read a => (t.read nd w a).2.2
      | .write a v => (t.write nd bits w a v).2.2
  | .read a => by
    simp only [transaction_t.call]
    split <;> next heq => rw [heq]
  | .write a v => rfl

/-- The descriptor a touching call leaves is the one the member function leaves. -/
theorem touch_descriptor (nd : Bool) (bits : Nat) (t : transaction_t) (w : world_t) :
    ∀ c : touch_t, (t.touch nd bits w c).2.2 =
      match c with
      | .read a => (t.read nd w a).2.2
      | .write a v => (t.write nd bits w a v).2.2
      | .ensure a => (t.ensure w a).2.2
  | .read a => call_descriptor nd bits t w (.read a)
  | .write a v => rfl
  | .ensure a => by
    simp only [transaction_t.touch]
    split <;> next heq => rw [heq]

/-- The log invariant survives every touching call. -/
theorem touch_log_unique (nd : Bool) (bits : Nat) (t : transaction_t) (w : world_t)
    (c : touch_t) (hu : log_unique t.m_entries) :
    log_unique (t.touch nd bits w c).2.2.m_entries := by
  rw [touch_descriptor]
  cases c with
  | read a => exact read_log_unique nd t w a hu
  | write a v => exact write_log_unique nd bits t w a v hu
  | ensure a => exact ensure_log_unique t w a hu

/-- A property of descriptors kept by every touching call holds after a sequence of
them. -/
theorem touches_induction (nd : Bool) (bits : Nat) (p : transaction_t → Prop)
    (hstep : ∀ t w c, p t → p (t.touch nd bits w c).2.2) :
    ∀ (cs : List (world_t × touch_t)) (t : transaction_t), p t →
      p (transaction_t.touches nd bits cs t)
  | [], t, h => h
  | (w, c) :: cs, t, h => by
    have h1 := hstep t w c h
    unfold transaction_t.touches
    split
    · next heq =>
      rw [heq] at h1
      exact h1
    · next heq =>
      rw [heq] at h1
      exact touches_induction nd bits p hstep cs _ h1

/-- On a log with one entry per address `ensure` of a logged address returns the
index of its entry and changes nothing. -/
theorem ensure_logged (t : transaction_t) (w : world_t) (e : entry_t)
    (hu : log_unique t.m_entries) (he : e ∈ t.m_entries) :
    ∃ i, t.ensure w e.m_addr = (.ok i, w, t) ∧ t.m_entries[i]? = some e := by
  obtain ⟨i, hi⟩ := ensure_scan_isSome ⟨e, he, rfl⟩
  obtain ⟨x, hx, hxa⟩ := ensure_scan_some hi
  refine ⟨i, ensure_of_scan_some hi, ?_⟩
  rw [hx]
  congr 1
  obtain ⟨j, hj, hje⟩ := List.mem_iff_getElem.mp he
  obtain ⟨hlt, hxe⟩ := List.getElem?_eq_some.mp hx
  have hinj := List.nodup_iff_injective_get.mp hu
  have hij : (⟨i, by simpa using hlt⟩ : Fin (t.m_entries.map entry_t.m_addr).length)
      = ⟨j, by simpa using hj⟩ := by
    apply hinj
    simp [List.get_eq_getElem, hxe, hje, hxa]
  have : i = j := by simpa using hij
  subst this
  rw [← hxe, ← hje]

/-- Claim C14. Log address uniqueness: after any sequence of read, write and ensure
calls (each in any world) on a new transaction the log has at most one entry per
address; and on any descriptor whose log has one entry per address, `ensure` of the
address of a logged entry returns the index of that entry and leaves the world and
the descriptor unchanged. -/
theorem C14_log_address_uniqueness (nd : Bool) (bits : Nat)
    (cs : List (world_t × touch_t)) (id : id_t) :
    log_unique (transaction_t.touches nd bits cs (transaction_t.create id)).m_entries ∧
      ∀ (w : world_t), ∀ e ∈ (transaction_t.touches nd bits cs
          (transaction_t.create id)).m_entries,
        ∃ i, (transaction_t.touches nd bits cs (transaction_t.create id)).ensure w e.m_addr
            = (.ok i, w, transaction_t.touches nd bits cs (transaction_t.create id)) ∧
          (transaction_t.touches nd bits cs (transaction_t.create id)).m_entries[i]?
            = some e := by
  have hu : log_unique (transaction_t.touches nd bits cs (transaction_t.create id)).m_entries :=
    touches_induction nd bits (fun t => log_unique t.m_entries)
      (fun t w c h => touch_log_unique nd bits t w c h) cs _ List.nodup_nil
  exact ⟨hu, fun w e he => ensure_logged _ w e hu he⟩

/-- Witness for C14: the calls of `test_hello_read_write`; the log has one entry per
address and `ensure` of address 0 returns index 0. -/
theorem C14_log_address_uniqueness_witness :
    log_unique (transaction_t.touches false 64
        [(world_ten, .read 0), (world_ten, .write 0 30), (world_ten, .ensure 0),
          (world_ten, .write 9 210)] (transaction_t.create 2)).m_entries ∧
      ∃ i, (transaction_t.touches false 64
        [(world_ten, .read 0), (world_ten, .write 0 30), (world_ten, .ensure 0),
          (world_ten, .write 9 210)] (transaction_t.create 2)).ensure world_ten 0
            = (.ok i, world_ten, transaction_t.touches false 64
        [(world_ten, .read 0), (world_ten, .write 0 30), (world_ten, .ensure 0),
          (world_ten, .write 9 210)] (transaction_t.create 2)) ∧
        (transaction_t.touches false 64
        [(world_ten, .read 0), (world_ten, .write 0 30), (world_ten, .ensure 0),
          (world_ten, .write 9 210)] (transaction_t.create 2)).m_entries[i]?
            = some ⟨0, ⟨10, 1⟩, ⟨30, 3⟩⟩ :=
  ⟨(C14_log_address_uniqueness false 64 _ 2).1,
    (C14_log_address_uniqueness false 64 _ 2).2 world_ten ⟨0, ⟨10, 1⟩, ⟨30, 3⟩⟩ (by decide)⟩

/-- The entry `ensure` appends carries an odd version: `resolve` gives none else. -/
theorem ensure_log_odd (t : transaction_t) (w : world_t) (a : addr_t)
    (ho : log_odd t.m_entries) : log_odd (t.ensure w a).2.2.m_entries := by
  unfold transaction_t.ensure
  cases hs : ensure_scan a t.m_entries with
  | some i => exact ho
  | none =>
    simp only
    cases hv : (w.ctx.m_orecs.find a).is_version with
    | true =>
      have hodd := (is_version_iff _).mp hv
      simp only [ownership_t.resolve, hv, Bool.not_true, Bool.false_eq_true, if_false]
      intro e he
      rcases List.mem_append.mp he with h | h
      · exact ho e h
      · rw [List.mem_singleton] at h
        subst h
        exact ⟨hodd, hodd⟩
    | false =>
      simp only [ownership_t.resolve, hv, Bool.not_false, if_true]
      exact ho

/-- Reading keeps every version odd. -/
theorem read_log_odd (nd : Bool) (t : transaction_t) (w : world_t) (a : addr_t)
    (ho : log_odd t.m_entries) : log_odd (t.read nd w a).2.2.m_entries := by
  have h0 := ensure_log_odd t w a ho
  unfold transaction_t.read
  split
  · split
    · next i w1 t1 heq =>
      rw [heq] at h0
      split <;> exact h0
    · next heq =>
      rw [heq] at h0
      exact h0
  · exact ho

/-- Writing keeps every version odd, for every width of at least one bit. -/
theorem write_log_odd (nd : Bool) (bits : Nat) (hb : 1 ≤ bits) (t : transaction_t)
    (w : world_t) (a : addr_t) (v : word_t) (ho : log_odd t.m_entries) :
    log_odd (t.write nd bits w a v).2.2.m_entries := by
  have h0 := ensure_log_odd t w a ho
  unfold transaction_t.write
  split
  · split
    · next i w1 t1 heq =>
      rw [heq] at h0
      simp only [transaction_t.get]
      split
      · next e he =>
        split at he
        · next e1 he1 =>
          cases he
          simp only [transaction_t.set]
          split
          · intro x hx
            have he1mem : e ∈ t1.m_entries := by
              obtain ⟨hlt, hget⟩ := List.getElem?_eq_some.mp he1
              rw [← hget]
              exact List.getElem_mem _
            rcases List.mem_or_eq_of_mem_set hx with h | h
            · exact h0 x h
            · subst h
              refine ⟨(h0 e he1mem).1, ?_⟩
              show id_add bits e.m_new.m_version VERSION_STEP % 2 = 1
              rw [id_add_step_parity bits hb]
              exact (h0 e he1mem).2
          · exact h0
        · simp at he
      · exact h0
    · next heq =>
      rw [heq] at h0
      exact h0
  · exact ho

/-- Every touching call keeps every version odd. -/
theorem touch_log_odd (nd : Bool) (bits : Nat) (hb : 1 ≤ bits) (t : transaction_t)
    (w : world_t) (c : touch_t) (ho : log_odd t.m_entries) :
    log_odd (t.touch nd bits w c).2.2.m_entries := by
  rw [touch_descriptor]
  cases c with
  | read a => exact read_log_odd nd t w a ho
  | write a v => exact write_log_odd nd bits hb t w a v ho
  | ensure a => exact ensure_log_odd t w a ho

/-- Claim C19. Prospective versions stay odd: after any sequence of read and write
(and ensure) calls, each in any world, on a new transaction, the old and the new
version of every log entry are odd, for every width of `id_t` of at least one bit,
so also when the addition of 2 wraps around. -/
theorem C19_versions_stay_odd (nd : Bool) (bits : Nat) (cs : List (world_t × touch_t))
    (id : id_t) (hbits : 1 ≤ bits) :
    ∀ e ∈ (transaction_t.touches nd bits cs (transaction_t.create id)).m_entries,
      e.m_old.m_version % 2 = 1 ∧ e.m_new.m_version % 2 = 1 :=
  touches_induction nd bits (fun t => log_odd t.m_entries)
    (fun t w c h => touch_log_odd nd bits hbits t w c h) cs _
    (fun e he => by simp [transaction_t.create] at he)

/-- Witness for C19: a 64-bit `id_t` and a slot at the last odd version; the write
wraps the new version around to 1. -/
theorem C19_versions_stay_odd_witness :
    (transaction_t.touches false 64
        [(⟨fun _ => 10, ⟨⟨fun _ => ⟨2 ^ 64 - 1⟩⟩⟩⟩, .write 0 20)]
        (transaction_t.create 2)).m_entries = [⟨0, ⟨10, 2 ^ 64 - 1⟩, ⟨20, 1⟩⟩] ∧
      ∀ e ∈ (transaction_t.touches false 64
        [(⟨fun _ => 10, ⟨⟨fun _ => ⟨2 ^ 64 - 1⟩⟩⟩⟩, .write 0 20)]
        (transaction_t.create 2)).m_entries,
        e.m_old.m_version % 2 = 1 ∧ e.m_new.m_version % 2 = 1 :=
  ⟨by decide, C19_versions_stay_odd false 64 _ 2 (by decide)⟩


/-- One call on an active descriptor whose log holds only entries of `a`, made on `a`,
leaves a log that holds only entries of `a`. -/
theorem call_only (nd : Bool) (bits : Nat) (t : transaction_t) (w : world_t) (a : addr_t)
    (c : call_t) (hact : t.m_state = .STATE_ACTIVE) (hc : c.addr = a)
    (ht : ∀ e ∈ t.m_entries, e.m_addr = a) :
    ∀ e ∈ (t.call nd bits w c).2.2.m_entries, e.m_addr = a := by
  rw [call_descriptor]
  cases c with
  | read b =>
    have hb : b = a := hc
    subst hb
    simp only
    cases hs : ensure_scan b t.m_entries with
    | some i =>
      obtain ⟨y, hy, -⟩ := ensure_scan_some hs
      rw [read_of_scan_some hact hs hy]
      exact ht
    | none =>
      cases hv : (w.ctx.m_orecs.find b).is_version with
      | true =>
        rw [read_first_touch nd t w b hact hs hv]
        intro e he
        rcases List.mem_append.mp he with h | h
        · exact ht e h
        · rw [List.mem_singleton] at h
          subst h
          rfl
      | false =>
        rw [read_owned nd t w b hact hs hv]
        exact ht
  | write b v =>
    have hb : b = a := hc
    subst hb
    simp only
    cases hs : ensure_scan b t.m_entries with
    | some i =>
      obtain ⟨y, hy, hyb⟩ := ensure_scan_some hs
      rw [write_of_scan_some hact hs hy]
      intro e he
      rcases List.mem_or_eq_of_mem_set he with h | h
      · exact ht e h
      · subst h
        exact hyb
    | none =>
      cases hv : (w.ctx.m_orecs.find b).is_version with
      | true =>
        rw [write_first_touch nd bits t w b v hact hs hv]
        intro e he
        rcases List.mem_append.mp he with h | h
        · exact ht e h
        · rw [List.mem_singleton] at h
          subst h
          rfl
      | false =>
        rw [write_owned nd bits t w b v hact hs hv]
        exact ht

/-- A sequence of calls on `a` alone leaves a log that holds only entries of `a`. -/
theorem calls_only (nd : Bool) (bits : Nat) (w : world_t) (a : addr_t) :
    ∀ (cs : List call_t) (t : transaction_t), t.m_state = .STATE_ACTIVE →
      (∀ c ∈ cs, c.addr = a) → (∀ e ∈ t.m_entries, e.m_addr = a) →
      ∀ e ∈ (transaction_t.calls nd bits cs t w).2.2.m_entries, e.m_addr = a
  | [], t, _, _, ht => ht
  | c :: cs, t, hact, hcs, ht => by
    obtain ⟨r, t1, h, hr, h1, -⟩ := call_active nd bits t w c hact
    have ht1 := call_only nd bits t w a c hact (hcs c (List.mem_cons_self _ _)) ht
    rw [h] at ht1
    have ih := calls_only nd bits w a cs t1 h1
      (fun c hc => hcs c (List.mem_cons_of_mem _ hc)) ht1
    unfold transaction_t.calls
    rw [h]
    cases r with
    | ok u => exact ih
    | fault f =>
      cases f with
      | bad_consistency => exact ih
      | assertion => exact absurd rfl hr

/-- A version stepped at least once is odd when the first version is, for every width
of at least one bit. -/
theorem stepped_parity (bits : Nat) (hb : 1 ≤ bits) (ver : id_t) (k : Nat) :
    stepped bits ver k % 2 = ver % 2 := by
  unfold stepped
  by_cases hk : k = 0
  · simp [hk]
  · simp only [hk, if_false]
    have hd : 2 ∣ 2 ^ bits := dvd_pow_self 2 (by omega)
    rw [Nat.mod_mod_of_dvd _ hd]
    dsimp only [id_t] at *
    omega

/-- Claim C11 (amended). Version after a writing commit: a new transaction first
touches `a`, whose slot holds the odd version `V`, then makes any calls on `a` alone
with `k` writes among them, `k` at least 1, and commits. The run reaches its end, the
commit returns, and the slot then holds `V` stepped by 2 for each write, in `id_t`:
`(V + 2k) mod 2^bits`, an odd word, and `V + 2k` whenever that fits in `id_t`. -/
theorem C11_version_after_commit (nd : Bool) (bits : Nat) (id : id_t) (w : world_t)
    (a : addr_t) (cs : List call_t) (hbits : 1 ≤ bits)
    (hv : (w.ctx.m_orecs.find a).m_id % 2 = 1) (honly : ∀ c ∈ cs, c.addr = a)
    (hwrite : writes_to a cs ≠ []) :
    ∃ t0 t1 w1 t2, (transaction_t.create id).ensure w a = (.ok 0, w, t0) ∧
      transaction_t.calls nd bits cs t0 w = (.ok (), w, t1) ∧
      t1.commit nd w = (.ok (), w1, t2) ∧ t2.m_state = .STATE_COMMITED ∧
      w1.orec a = (w.orec a + 2 * (writes_to a cs).length) % 2 ^ bits ∧
      w1.orec a % 2 = 1 ∧
      (w.orec a + 2 * (writes_to a cs).length < 2 ^ bits →
        w1.orec a = w.orec a + 2 * (writes_to a cs).length) := by
  have hk : (writes_to a cs).length ≠ 0 := by
    intro h
    exact hwrite (List.length_eq_zero.mp h)
  obtain ⟨t0, ht0⟩ : ∃ t0 : transaction_t, t0 = ⟨id, .STATE_ACTIVE,
      [⟨a, ⟨w.memory a, w.orec a⟩, ⟨w.memory a, w.orec a⟩⟩]⟩ := ⟨_, rfl⟩
  have h0 : (transaction_t.create id).ensure w a = (.ok 0, w, t0) := by
    rw [ht0]
    exact ensure_of_scan_none_version rfl ((is_version_iff _).mpr hv)
  have hact0 : t0.m_state = .STATE_ACTIVE := by rw [ht0]
  have hf0 : t0.m_entries.filter (fun e => decide (e.m_addr = a))
      = [⟨a, ⟨w.memory a, w.orec a⟩, ⟨w.memory a, w.orec a⟩⟩] := by
    rw [ht0]
    simp
  obtain ⟨t1, h1, hact1, hid1⟩ := calls_active nd bits cs t0 w hact0
  have hf1 := calls_filter nd bits w a cs t0 _ hact0 hf0
  have ho1 := calls_only nd bits w a cs t0 hact0 honly (by rw [ht0]; simp)
  rw [h1] at hf1 ho1
  rw [after_eq] at hf1
  have hlog : t1.m_entries = [⟨a, ⟨w.memory a, w.orec a⟩,
      ⟨(writes_to a cs).getLast?.getD (w.memory a),
        stepped bits (w.orec a) (writes_to a cs).length⟩⟩] := by
    rw [← hf1]
    exact (List.filter_eq_self.mpr (fun e he => by simpa using ho1 e he)).symm
  have ht1 : t1 = ⟨id, .STATE_ACTIVE, [⟨a, ⟨w.memory a, w.orec a⟩,
      ⟨(writes_to a cs).getLast?.getD (w.memory a),
        stepped bits (w.orec a) (writes_to a cs).length⟩⟩]⟩ := by
    cases t1 with
    | mk i s l =>
      have hi : i = id := by rw [ht0] at hid1; exact hid1
      have hs : s = .STATE_ACTIVE := hact1
      have hl : l = _ := hlog
      rw [hi, hs, hl]
  have hc := commit_single nd id ⟨a, ⟨w.memory a, w.orec a⟩,
      ⟨(writes_to a cs).getLast?.getD (w.memory a),
        stepped bits (w.orec a) (writes_to a cs).length⟩⟩ w
  rw [if_pos (Or.inl rfl)] at hc
  have hval : stepped bits (w.orec a) (writes_to a cs).length
      = (w.orec a + 2 * (writes_to a cs).length) % 2 ^ bits := by
    unfold stepped
    rw [if_neg hk]
  refine ⟨t0, t1, _, _, h0, h1, by rw [ht1]; exact hc, rfl, ?_, ?_, ?_⟩
  · rw [orec_set_orec, if_pos rfl]
    exact hval
  · rw [orec_set_orec, if_pos rfl, stepped_parity bits hbits]
    exact hv
  · intro hfit
    rw [orec_set_orec, if_pos rfl, hval, Nat.mod_eq_of_lt hfit]

/-- Witness for C11 (amended): the run of `test_hello_read_write` on address 0: read,
write 30, read, write 40, then commit; the slot goes from 1 to 5. -/
theorem C11_version_after_commit_witness :
    ∃ t0 t1 w1 t2, (transaction_t.create 2).ensure world_ten 0 = (.ok 0, world_ten, t0) ∧
      transaction_t.calls false 64 [.read 0, .write 0 30, .read 0, .write 0 40] t0 world_ten
        = (.ok (), world_ten, t1) ∧
      t1.commit false world_ten = (.ok (), w1, t2) ∧ w1.orec 0 = 5 := by
  obtain ⟨t0, t1, w1, t2, h0, h1, h2, -, -, -, h3⟩ := C11_version_after_commit false 64 2
    world_ten 0 [.read 0, .write 0 30, .read 0, .write 0 40] (by decide) (by decide)
    (by decide) (by decide)
  exact ⟨t0, t1, w1, t2, h0, h1, h2, h3 (by decide)⟩

/-- Claim C11 (counterexample). In the run of `test_hello_read_write` the slot of
address 0 holds the odd version 1; the transaction touches only address 0, writes it
twice and commits. The commit returns and the slot then holds 5, not 1 + 2 = 3. The
same in both builds. -/
theorem C11_two_writes_counterexample :
    ((transaction_t.calls false 64 [.write 0 30, .write 0 40] (transaction_t.create 2)
        world_ten).1 = .ok () ∧
      (transaction_t.calls false 64 [.write 0 30, .write 0 40] (transaction_t.create 2)
        world_ten).2.2.m_entries = [⟨0, ⟨10, 1⟩, ⟨40, 5⟩⟩] ∧
      ((transaction_t.calls false 64 [.write 0 30, .write 0 40] (transaction_t.create 2)
        world_ten).2.2.commit false world_ten).1 = .ok () ∧
      ((transaction_t.calls false 64 [.write 0 30, .write 0 40] (transaction_t.create 2)
        world_ten).2.2.commit false world_ten).2.1.orec 0 = 5) ∧
    ((transaction_t.calls true 64 [.write 0 30, .write 0 40] (transaction_t.create 2)
        world_ten).1 = .ok () ∧
      ((transaction_t.calls true 64 [.write 0 30, .write 0 40] (transaction_t.create 2)
        world_ten).2.2.commit true world_ten).1 = .ok () ∧
      ((transaction_t.calls true 64 [.write 0 30, .write 0 40] (transaction_t.create 2)
        world_ten).2.2.commit true world_ten).2.1.orec 0 = 5) ∧
    world_ten.orec 0 = 1 ∧ (5 : Nat) ≠ 1 + 2 := by
  decide


/-- Claim C17. The preconditions of `release` do not hold inside `commit`, in two ways.
Rollback: in the state of the scenario "conflict behind an acquired entry" the commit
of the active transaction 2 acquires the slot of address 30, fails on address 0, and
the rollback calls `release` on the entry of 30 while the state is ACTIVE: the first
assertion fails and the commit stops there. Publication: the active transaction 4 with
the log (0, new version 3), (768, read only), both addresses on slot 0, passes
`acquire_all`; `make_all_changes` releases the entry of 0, which puts 3 into the slot,
and then calls `release` on the entry of 768 while the slot holds 3 and not the
identity 4: the second assertion fails and the commit stops there. -/
theorem C17_release_preconditions_fail :
    ((setup_conflict_behind false 64).t.m_state = .STATE_ACTIVE ∧
      (setup_conflict_behind false 64).t.m_entries
        = [⟨30, ⟨10, 1⟩, ⟨10, 1⟩⟩, ⟨0, ⟨10, 1⟩, ⟨10, 1⟩⟩] ∧
      ((setup_conflict_behind false 64).t.acquire false (setup_conflict_behind false 64).world
        ⟨30, ⟨10, 1⟩, ⟨10, 1⟩⟩).1 = .ok true ∧
      ((setup_conflict_behind false 64).t.acquire false
        ((setup_conflict_behind false 64).t.acquire false (setup_conflict_behind false 64).world
          ⟨30, ⟨10, 1⟩, ⟨10, 1⟩⟩).2.1 ⟨0, ⟨10, 1⟩, ⟨10, 1⟩⟩).1 = .ok false ∧
      ((setup_conflict_behind false 64).t.release false
        ((setup_conflict_behind false 64).t.acquire false (setup_conflict_behind false 64).world
          ⟨30, ⟨10, 1⟩, ⟨10, 1⟩⟩).2.1 ⟨30, ⟨10, 1⟩, ⟨10, 1⟩⟩).1 = .fault .assertion ∧
      ((setup_conflict_behind false 64).t.commit false
        (setup_conflict_behind false 64).world).1 = .fault .assertion) ∧
    (((⟨4, .STATE_ACTIVE, [⟨0, ⟨10, 1⟩, ⟨20, 3⟩⟩, ⟨768, ⟨10, 1⟩, ⟨10, 1⟩⟩]⟩ :
        transaction_t).acquire_all false world_ten).1 = .ok true ∧
      ((⟨4, .STATE_COMMITED, [⟨0, ⟨10, 1⟩, ⟨20, 3⟩⟩, ⟨768, ⟨10, 1⟩, ⟨10, 1⟩⟩]⟩ :
        transaction_t).release false
          (((⟨4, .STATE_ACTIVE, [⟨0, ⟨10, 1⟩, ⟨20, 3⟩⟩, ⟨768, ⟨10, 1⟩, ⟨10, 1⟩⟩]⟩ :
            transaction_t).acquire_all false world_ten).2.1.store 0 20)
          ⟨0, ⟨10, 1⟩, ⟨20, 3⟩⟩).1 = .ok () ∧
      ((⟨4, .STATE_COMMITED, [⟨0, ⟨10, 1⟩, ⟨20, 3⟩⟩, ⟨768, ⟨10, 1⟩, ⟨10, 1⟩⟩]⟩ :
        transaction_t).release false
          (((⟨4, .STATE_ACTIVE, [⟨0, ⟨10, 1⟩, ⟨20, 3⟩⟩, ⟨768, ⟨10, 1⟩, ⟨10, 1⟩⟩]⟩ :
            transaction_t).acquire_all false world_ten).2.1.store 0 20)
          ⟨0, ⟨10, 1⟩, ⟨20, 3⟩⟩).2.1.orec 768 = 3 ∧
      ((⟨4, .STATE_COMMITED, [⟨0, ⟨10, 1⟩, ⟨20, 3⟩⟩, ⟨768, ⟨10, 1⟩, ⟨10, 1⟩⟩]⟩ :
        transaction_t).release false
          (((⟨4, .STATE_COMMITED, [⟨0, ⟨10, 1⟩, ⟨20, 3⟩⟩, ⟨768, ⟨10, 1⟩, ⟨10, 1⟩⟩]⟩ :
            transaction_t).release false
              (((⟨4, .STATE_ACTIVE, [⟨0, ⟨10, 1⟩, ⟨20, 3⟩⟩, ⟨768, ⟨10, 1⟩, ⟨10, 1⟩⟩]⟩ :
                transaction_t).acquire_all false world_ten).2.1.store 0 20)
              ⟨0, ⟨10, 1⟩, ⟨20, 3⟩⟩).2.1.store 768 10)
          ⟨768, ⟨10, 1⟩, ⟨10, 1⟩⟩).1 = .fault .assertion ∧
      ((⟨4, .STATE_ACTIVE, [⟨0, ⟨10, 1⟩, ⟨20, 3⟩⟩, ⟨768, ⟨10, 1⟩, ⟨10, 1⟩⟩]⟩ :
        transaction_t).commit false world_ten).1 = .fault .assertion) := by
  decide


/-- The rollback loop, when it returns, leaves a word satisfying `G` in every slot,
provided the versions it writes satisfy `G` and every slot not satisfying `G` is one
it releases. -/
theorem release_upto_good (G : id_t → Prop) (nd : Bool) (t : transaction_t) :
    ∀ (es : List entry_t) (w w1 : world_t) (t1 : transaction_t),
      (∀ e ∈ es, G e.m_old.m_version ∧ G e.m_new.m_version) →
      (∀ b, G (w.orec b) ∨
        ∃ e ∈ es, ownership_table_t.index e.m_addr = ownership_table_t.index b) →
      transaction_t.release_upto nd es t w = (.ok (), w1, t1) → ∀ b, G (w1.orec b)
  | [], w, w1, t1, _, hc, h => by
    simp only [transaction_t.release_upto, Prod.mk.injEq] at h
    obtain ⟨-, rfl, -⟩ := h
    intro b
    rcases hc b with hb | ⟨e, he, -⟩
    · exact hb
    · simp at he
  | e :: es, w, w1, t1, hv, hc, h => by
    rw [release_upto_cons] at h
    by_cases c : nd = false ∧ (t.m_state = .STATE_ACTIVE ∨ t.this_id ≠ w.orec e.m_addr)
    · rw [if_pos c] at h
      simp at h
    · rw [if_neg c] at h
      refine release_upto_good G nd t es _ w1 t1
        (fun x hx => hv x (List.mem_cons_of_mem _ hx)) ?_ h
      intro b
      rw [orec_set_orec]
      by_cases hb : ownership_table_t.index b = ownership_table_t.index e.m_addr
      · rw [if_pos hb]
        left
        split
        · exact (hv e (List.mem_cons_self _ _)).2
        · exact (hv e (List.mem_cons_self _ _)).1
      · rw [if_neg hb]
        rcases hc b with h1 | ⟨x, hx, hxb⟩
        · exact Or.inl h1
        · rcases List.mem_cons.mp hx with rfl | hx
          · exact absurd hxb.symm hb
          · exact Or.inr ⟨x, hx, hxb⟩

/-- The same for the world the publishing loop leaves. -/
theorem publish_world_good (G : id_t → Prop) :
    ∀ (es : List entry_t) (w : world_t),
      (∀ e ∈ es, G e.m_new.m_version) →
      (∀ b, G (w.orec b) ∨
        ∃ e ∈ es, ownership_table_t.index e.m_addr = ownership_table_t.index b) →
      ∀ b, G ((publish_world es w).orec b)
  | [], w, _, hc => by
    intro b
    rcases hc b with hb | ⟨e, he, -⟩
    · exact hb
    · simp at he
  | e :: es, w, hv, hc => by
    rw [publish_world_cons]
    refine publish_world_good G es _ (fun x hx => hv x (List.mem_cons_of_mem _ hx)) ?_
    intro b
    rw [orec_set_orec]
    by_cases hb : ownership_table_t.index b = ownership_table_t.index e.m_addr
    · rw [if_pos hb]
      exact Or.inl (hv e (List.mem_cons_self _ _))
    · rw [if_neg hb, orec_store]
      rcases hc b with h1 | ⟨x, hx, hxb⟩
      · exact Or.inl h1
      · rcases List.mem_cons.mp hx with rfl | hx
        · exact absurd hxb.symm hb
        · exact Or.inr ⟨x, hx, hxb⟩

/-- When `acquire_all` (from any point of its loop) returns false, the rollback has
left a word satisfying `G` in every slot, under the same provisos. -/
theorem acquire_from_false_good (G : id_t → Prop) (nd : Bool) (t : transaction_t) :
    ∀ (es passed : List entry_t) (w w1 : world_t) (t1 : transaction_t),
      (∀ e ∈ passed, G e.m_old.m_version ∧ G e.m_new.m_version) →
      (∀ e ∈ es, G e.m_old.m_version ∧ G e.m_new.m_version) →
      (∀ b, G (w.orec b) ∨
        ∃ e ∈ passed, ownership_table_t.index e.m_addr = ownership_table_t.index b) →
      transaction_t.acquire_from nd passed es t w = (.ok false, w1, t1) →
      ∀ b, G (w1.orec b)
  | [], passed, w, w1, t1, _, _, _, h => by
    simp [transaction_t.acquire_from] at h
  | e :: es, passed, w, w1, t1, hp, hv, hc, h => by
    rw [acquire_from_cons] at h
    by_cases c : w.orec e.m_addr = e.m_old.m_version ∨ w.orec e.m_addr = t.this_id
    · rw [if_pos c] at h
      refine acquire_from_false_good G nd t es (passed ++ [e]) _ w1 t1 ?_
        (fun x hx => hv x (List.mem_cons_of_mem _ hx)) ?_ h
      · intro x hx
        rcases List.mem_append.mp hx with h1 | h1
        · exact hp x h1
        · rw [List.mem_singleton] at h1
          subst h1
          exact hv x (List.mem_cons_self _ _)
      · intro b
        rw [orec_set_orec]
        by_cases hb : ownership_table_t.index b = ownership_table_t.index e.m_addr
        · exact Or.inr ⟨e, by simp, hb.symm⟩
        · rw [if_neg hb]
          rcases hc b with h1 | ⟨x, hx, hxb⟩
          · exact Or.inl h1
          · exact Or.inr ⟨x, List.mem_append_left _ hx, hxb⟩
    · rw [if_neg c] at h
      cases hr : transaction_t.release_upto nd passed t w with
      | mk r rest =>
        cases rest with
        | mk w2 t2 =>
          rw [hr] at h
          cases r with
          | ok u =>
            simp only [Prod.mk.injEq] at h
            obtain ⟨-, rfl, -⟩ := h
            exact release_upto_good G nd t passed w w2 t2 hp hc hr
          | fault f => simp at h


/-- The rollback loop never throws `bad_consistency_t`. -/
theorem release_upto_no_throw (nd : Bool) (t : transaction_t) :
    ∀ (es : List entry_t) (w : world_t),
      (transaction_t.release_upto nd es t w).1 ≠ .fault .bad_consistency
  | [], w => by simp [transaction_t.release_upto]
  | e :: es, w => by
    rw [release_upto_cons]
    split
    · simp
    · exact release_upto_no_throw nd t es _

/-- The loop of `acquire_all` never throws `bad_consistency_t` itself. -/
theorem acquire_from_no_throw (nd : Bool) (t : transaction_t) :
    ∀ (es passed : List entry_t) (w : world_t),
      (transaction_t.acquire_from nd passed es t w).1 ≠ .fault .bad_consistency
  | [], passed, w => by simp [transaction_t.acquire_from]
  | e :: es, passed, w => by
    rw [acquire_from_cons]
    split
    · exact acquire_from_no_throw nd t es _ _
    · have hr := release_upto_no_throw nd t passed w
      cases hx : transaction_t.release_upto nd passed t w with
      | mk r rest =>
        cases rest with
        | mk w2 t2 =>
          rw [hx] at hr
          cases r with
          | ok u => simp
          | fault f =>
            cases f with
            | bad_consistency => exact absurd rfl hr
            | assertion => simp

/-- One turn of the publishing loop. -/
theorem publish_from_cons (nd : Bool) (e : entry_t) (es : List entry_t) (t : transaction_t)
    (w : world_t) :
    transaction_t.publish_from nd (e :: es) t w =
      if nd = false ∧ (t.m_state = .STATE_ACTIVE ∨
          t.this_id ≠ (w.store e.m_addr e.m_new.m_value).orec e.m_addr) then
        (.fault .assertion, w.store e.m_addr e.m_new.m_value, t)
      else
        transaction_t.publish_from nd es t ((w.store e.m_addr e.m_new.m_value).set_orec e.m_addr
          (if t.m_state = .STATE_COMMITED then e.m_new.m_version else e.m_old.m_version)) := by
  rw [transaction_t.publish_from, release_eq]
  by_cases c : nd = false ∧ (t.m_state = .STATE_ACTIVE ∨
      t.this_id ≠ (w.store e.m_addr e.m_new.m_value).orec e.m_addr)
  · have c1 : nd = false ∧ (t.m_state = .STATE_ACTIVE ∨ t.this_id ≠
        ({ w with memory := Function.update w.memory e.m_addr e.m_new.m_value } : world_t).orec
          e.m_addr) := c
    rw [if_pos c, if_pos c1]
    rfl
  · have c1 : ¬ (nd = false ∧ (t.m_state = .STATE_ACTIVE ∨ t.this_id ≠
        ({ w with memory := Function.update w.memory e.m_addr e.m_new.m_value } : world_t).orec
          e.m_addr)) := c
    rw [if_neg c, if_neg c1]
    rfl

/-- The publishing loop gives back the descriptor it was given. -/
theorem publish_from_descriptor (nd : Bool) :
    ∀ (es : List entry_t) (t : transaction_t) (w : world_t),
      (transaction_t.publish_from nd es t w).2.2 = t
  | [], t, w => rfl
  | e :: es, t, w => by
    rw [publish_from_cons]
    split
    · rfl
    · exact publish_from_descriptor nd es t _

/-- The publishing loop returns or fails an assertion. -/
theorem publish_from_no_throw (nd : Bool) :
    ∀ (es : List entry_t) (t : transaction_t) (w : world_t),
      (transaction_t.publish_from nd es t w).1 ≠ .fault .bad_consistency
  | [], t, w => by simp [transaction_t.publish_from]
  | e :: es, t, w => by
    rw [publish_from_cons]
    split
    · simp
    · exact publish_from_no_throw nd es t _


/-- A run of successful acquisitions leaves in each slot the identity or the word it
held. -/
theorem acquire_world_orec_cases (id : id_t) :
    ∀ (es : List entry_t) (w : world_t) (b : addr_t),
      (acquire_world id es w).orec b = id ∨ (acquire_world id es w).orec b = w.orec b
  | [], _, _ => Or.inr rfl
  | e :: es, w, b => by
    rw [acquire_world_cons]
    rcases acquire_world_orec_cases id es (w.set_orec e.m_addr id) b with h | h
    · exact Or.inl h
    · rw [h, orec_set_orec]
      by_cases hb : ownership_table_t.index b = ownership_table_t.index e.m_addr
      · exact Or.inl (if_pos hb)
      · exact Or.inr (if_neg hb)

/-- A complete `commit` (returned or thrown) leaves a word satisfying `G` in every
slot, when every slot held one before and the versions of the log satisfy `G`. -/
theorem commit_good (G : id_t → Prop) (nd : Bool) (t : transaction_t) (w : world_t)
    (hv : ∀ e ∈ t.m_entries, G e.m_old.m_version ∧ G e.m_new.m_version)
    (hw : ∀ b, G (w.orec b)) (hne : (t.commit nd w).1 ≠ .fault .assertion) :
    ∀ b, G ((t.commit nd w).2.1.orec b) := by
  unfold transaction_t.commit at hne ⊢
  by_cases ha : assert_ok nd t.active = true
  · rw [if_pos ha] at hne ⊢
    have hnt := acquire_from_no_throw nd t t.m_entries [] w
    cases hx : t.acquire_all nd w with
    | mk r rest =>
      cases rest with
      | mk w1 t1 =>
        have hx1 : transaction_t.acquire_from nd [] t.m_entries t w = (r, w1, t1) := hx
        rw [hx1] at hnt
        rw [hx] at hne
        cases r with
        | ok ok =>
          cases ok with
          | true =>
            obtain ⟨rfl, rfl⟩ := acquire_from_true hx1
            simp only [transaction_t.make_all_changes] at hne ⊢
            have hpt := publish_from_no_throw nd t1.m_entries
              { t1 with m_state := .STATE_COMMITED } (acquire_world t1.this_id t1.m_entries w)
            cases hp : transaction_t.publish_from nd t1.m_entries
                { t1 with m_state := .STATE_COMMITED }
                (acquire_world t1.this_id t1.m_entries w) with
            | mk r2 rest2 =>
              cases rest2 with
              | mk w2 t2 =>
                rw [hp] at hpt hne
                cases r2 with
                | ok u =>
                  obtain ⟨rfl, -⟩ := publish_from_ok rfl hp
                  refine publish_world_good G _ _ (fun e he => (hv e he).2) ?_
                  intro b
                  by_cases hc : ∃ e ∈ t1.m_entries,
                      ownership_table_t.index e.m_addr = ownership_table_t.index b
                  · exact Or.inr hc
                  · left
                    rw [acquire_world_orec_not_mem _ _ _ _
                      (fun e he hi => hc ⟨e, he, hi⟩)]
                    exact hw b
                | fault f =>
                  cases f with
                  | bad_consistency => exact absurd rfl hpt
                  | assertion => exact absurd rfl hne
          | false =>
            exact acquire_from_false_good G nd t t.m_entries [] w w1 t1
              (fun e he => by simp at he) hv (fun b => Or.inl (hw b)) hx1
        | fault f =>
          cases f with
          | bad_consistency => exact absurd rfl hnt
          | assertion => exact absurd rfl hne
  · rw [if_neg ha] at hne
    exact absurd rfl hne

/-- A complete `acquire_all` leaves a word satisfying `G` in every slot, when every slot
held one before and the identity and the versions of the log satisfy `G`. -/
theorem acquire_all_good (G : id_t → Prop) (nd : Bool) (t : transaction_t) (w : world_t)
    (hid : G t.this_id) (hv : ∀ e ∈ t.m_entries, G e.m_old.m_version ∧ G e.m_new.m_version)
    (hw : ∀ b, G (w.orec b)) (hne : (t.acquire_all nd w).1 ≠ .fault .assertion) :
    ∀ b, G ((t.acquire_all nd w).2.1.orec b) := by
  have hnt := acquire_from_no_throw nd t t.m_entries [] w
  cases hx : t.acquire_all nd w with
  | mk r rest =>
    cases rest with
    | mk w1 t1 =>
      have hx1 : transaction_t.acquire_from nd [] t.m_entries t w = (r, w1, t1) := hx
      rw [hx1] at hnt
      rw [hx] at hne
      cases r with
      | ok ok =>
        cases ok with
        | true =>
          obtain ⟨rfl, rfl⟩ := acquire_from_true hx1
          intro b
          rcases acquire_world_orec_cases t1.this_id t1.m_entries w b with h | h
          · show G ((acquire_world t1.this_id t1.m_entries w).orec b)
            rw [h]
            exact hid
          · show G ((acquire_world t1.this_id t1.m_entries w).orec b)
            rw [h]
            exact hw b
        | false =>
          exact acquire_from_false_good G nd t t.m_entries [] w w1 t1
            (fun e he => by simp at he) hv (fun b => Or.inl (hw b)) hx1
      | fault f =>
        cases f with
        | bad_consistency => exact absurd rfl hnt
        | assertion => exact absurd rfl hne

/-- A complete `make_all_changes` leaves a word satisfying `G` in every slot, when every
slot held one before and the new versions of the log satisfy `G`. -/
theorem make_all_changes_good (G : id_t → Prop) (nd : Bool) (t : transaction_t) (w : world_t)
    (hv : ∀ e ∈ t.m_entries, G e.m_old.m_version ∧ G e.m_new.m_version)
    (hw : ∀ b, G (w.orec b)) (hne : (t.make_all_changes nd w).1 ≠ .fault .assertion) :
    ∀ b, G ((t.make_all_changes nd w).2.1.orec b) := by
  unfold transaction_t.make_all_changes at hne ⊢
  have hpt := publish_from_no_throw nd t.m_entries { t with m_state := .STATE_COMMITED } w
  cases hp : transaction_t.publish_from nd t.m_entries
      { t with m_state := .STATE_COMMITED } w with
  | mk r2 rest2 =>
    cases rest2 with
    | mk w2 t2 =>
      rw [hp] at hpt hne
      cases r2 with
      | ok u =>
        obtain ⟨rfl, -⟩ := publish_from_ok rfl hp
        exact publish_world_good G _ _ (fun e he => (hv e he).2) (fun b => Or.inl (hw b))
      | fault f =>
        cases f with
        | bad_consistency => exact absurd rfl hpt
        | assertion => exact absurd rfl hne


theorem ensure_this_id (t : transaction_t) (w : world_t) (a : addr_t) :
    (t.ensure w a).2.2.this_id = t.this_id := by
  unfold transaction_t.ensure
  split
  · rfl
  · split <;> rfl

theorem read_this_id (nd : Bool) (t : transaction_t) (w : world_t) (a : addr_t) :
    (t.read nd w a).2.2.this_id = t.this_id := by
  have h0 := ensure_this_id t w a
  unfold transaction_t.read
  split
  · split
    · next heq =>
      rw [heq] at h0
      split <;> exact h0
    · next heq =>
      rw [heq] at h0
      exact h0
  · rfl

theorem write_this_id (nd : Bool) (bits : Nat) (t : transaction_t) (w : world_t) (a : addr_t)
    (v : word_t) : (t.write nd bits w a v).2.2.this_id = t.this_id := by
  have h0 := ensure_this_id t w a
  unfold transaction_t.write
  split
  · split
    · next heq =>
      rw [heq] at h0
      split
      · simp only [transaction_t.set]
        split <;> exact h0
      · exact h0
    · next heq =>
      rw [heq] at h0
      exact h0
  · rfl

/-- The world `call` leaves is the one it was given. -/
theorem call_world (nd : Bool) (bits : Nat) (t : transaction_t) (w : world_t) :
    ∀ c : call_t, (t.call nd bits w c).2.1 = w
  | .read a => by
    have h := read_world nd t w a
    simp only [transaction_t.call]
    split <;> next heq => rw [heq] at h; exact h
  | .write a v => write_world nd bits t w a v

/-- The call `commit` changes nothing in the descriptor but its state. -/
theorem commit_descriptor (nd : Bool) (t : transaction_t) (w : world_t) :
    (t.commit nd w).2.2.this_id = t.this_id ∧ (t.commit nd w).2.2.m_entries = t.m_entries := by
  unfold transaction_t.commit
  by_cases ha : assert_ok nd t.active = true
  · rw [if_pos ha]
    have hd := acquire_from_descriptor nd t t.m_entries [] w
    cases hx : t.acquire_all nd w with
    | mk r rest =>
      cases rest with
      | mk w1 t1 =>
        have hx1 : transaction_t.acquire_from nd [] t.m_entries t w = (r, w1, t1) := hx
        rw [hx1] at hd
        have ht : t1 = t := hd
        subst ht
        cases r with
        | ok ok =>
          cases ok with
          | true =>
            simp only [transaction_t.make_all_changes]
            rw [publish_from_descriptor]
            exact ⟨rfl, rfl⟩
          | false => exact ⟨rfl, rfl⟩
        | fault f => exact ⟨rfl, rfl⟩
  · rw [if_neg ha]
    exact ⟨rfl, rfl⟩

/-- No step changes the identity of the descriptor, and every step keeps the versions
of its log odd (for a width of at least one bit). -/
theorem step_descriptor (nd : Bool) (bits : Nat) (t : transaction_t) (w : world_t) :
    ∀ o : op_t, (t.step nd bits w o).2.2.this_id = t.this_id ∧
      (1 ≤ bits → log_odd t.m_entries → log_odd (t.step nd bits w o).2.2.m_entries)
  | .read a => by
    simp only [transaction_t.step]
    rw [call_descriptor]
    exact ⟨read_this_id nd t w a, fun _ ho => read_log_odd nd t w a ho⟩
  | .write a v => by
    simp only [transaction_t.step]
    rw [call_descriptor]
    exact ⟨write_this_id nd bits t w a v, fun hb ho => write_log_odd nd bits hb t w a v ho⟩
  | .commit => by
    simp only [transaction_t.step]
    obtain ⟨h1, h2⟩ := commit_descriptor nd t w
    exact ⟨h1, fun _ ho => by rw [h2]; exact ho⟩
  | .abort => by
    simp only [transaction_t.step, transaction_t.abort]
    split
    · exact ⟨rfl, fun _ ho => ho⟩
    · exact ⟨rfl, fun _ ho => ho⟩
  | .acquire_all => by
    have hd : (t.acquire_all nd w).2.2 = t := acquire_from_descriptor nd t t.m_entries [] w
    simp only [transaction_t.step]
    split
    · next heq =>
      rw [heq] at hd
      have ht : _ = t := hd
      rw [ht]
      exact ⟨rfl, fun _ ho => ho⟩
    · next heq =>
      rw [heq] at hd
      have ht : _ = t := hd
      rw [ht]
      exact ⟨rfl, fun _ ho => ho⟩
  | .make_all_changes => by
    simp only [transaction_t.step, transaction_t.make_all_changes]
    rw [publish_from_descriptor]
    exact ⟨rfl, fun _ ho => ho⟩

/-- A complete step leaves a word satisfying `G` in every slot, when every slot held
one before, every odd word satisfies `G`, the versions of the log are odd, and the
identity satisfies `G` in case the step is a separate `acquire_all`. -/
theorem step_good (G : id_t → Prop) (nd : Bool) (bits : Nat) (t : transaction_t)
    (w : world_t) (hG : ∀ x : id_t, x % 2 = 1 → G x) (ho : log_odd t.m_entries)
    (hw : ∀ b, G (w.orec b)) :
    ∀ o : op_t, (o = .acquire_all → G t.this_id) →
      (t.step nd bits w o).1 ≠ .fault .assertion →
      ∀ b, G ((t.step nd bits w o).2.1.orec b)
  | .read a, _, _ => by
    simp only [transaction_t.step]
    rw [call_world]
    exact hw
  | .write a v, _, _ => by
    simp only [transaction_t.step]
    rw [call_world]
    exact hw
  | .commit, _, hne =>
    commit_good G nd t w (fun e he => ⟨hG _ (ho e he).1, hG _ (ho e he).2⟩) hw hne
  | .abort, _, _ => by
    simp only [transaction_t.step, transaction_t.abort]
    split <;> exact hw
  | .acquire_all, hid, hne => by
    have hgood := acquire_all_good G nd t w (hid rfl)
      (fun e he => ⟨hG _ (ho e he).1, hG _ (ho e he).2⟩) hw
    simp only [transaction_t.step] at hne ⊢
    split at hne
    · next heq =>
      rw [heq] at hgood
      exact hgood (by simp)
    · next heq =>
      rw [heq] at hgood
      refine hgood (fun h => hne ?_)
      simp only [result_t.fault.injEq] at h ⊢
      exact h
  | .make_all_changes, _, hne =>
    make_all_changes_good G nd t w (fun e he => ⟨hG _ (ho e he).1, hG _ (ho e he).2⟩) hw hne


/-- Every slot is the slot of some address. -/
theorem index_three_mul (i : Fin SIZE) : ownership_table_t.index (3 * i.val) = i := by
  apply Fin.ext
  show 3 * i.val / 3 % SIZE = i.val
  rw [Nat.mul_div_cancel_left _ (by decide : 0 < 3), Nat.mod_eq_of_lt i.isLt]

/-- A fresh context satisfies the invariant when 1 satisfies `G`. -/
theorem fresh_good (G : id_t → Prop) (memory : addr_t → word_t) (h1 : G 1) :
    (system_t.fresh memory).good G :=
  ⟨fun _ => h1, fun _ => ⟨rfl, fun e he => by simp [system_t.fresh, transaction_t.create] at he⟩⟩

/-- A complete step of the system keeps the invariant, when every odd word satisfies
`G` and the stepping identity satisfies `G` in case the step is a separate
`acquire_all`. -/
theorem system_step_good (G : id_t → Prop) (nd : Bool) (bits : Nat) (hb : 1 ≤ bits)
    (hG : ∀ x : id_t, x % 2 = 1 → G x) (s : system_t) (i : id_t) (o : op_t)
    (hs : s.good G) (hacq : o = .acquire_all → G i)
    (hne : (s.step nd bits i o).1 ≠ .fault .assertion) : (s.step nd bits i o).2.good G := by
  have hd := step_descriptor nd bits (s.txns i) s.world o
  have hg := step_good G nd bits (s.txns i) s.world hG (hs.2 i).2 hs.1 o
    (fun h => by rw [(hs.2 i).1]; exact hacq h) hne
  refine ⟨hg, fun j => ?_⟩
  show (Function.update s.txns i ((s.txns i).step nd bits s.world o).2.2 j).this_id = j ∧
    log_odd (Function.update s.txns i ((s.txns i).step nd bits s.world o).2.2 j).m_entries
  by_cases hj : j = i
  · subst hj
    rw [Function.update_same]
    exact ⟨hd.1.trans (hs.2 j).1, hd.2 hb (hs.2 j).2⟩
  · rw [Function.update_noteq hj]
    exact hs.2 j

/-- A run of complete steps keeps the invariant, when no separate `acquire_all` is run
by an identity that does not satisfy `G`. -/
theorem run_good (G : id_t → Prop) (nd : Bool) (bits : Nat) (hb : 1 ≤ bits)
    (hG : ∀ x : id_t, x % 2 = 1 → G x) :
    ∀ (trace : List (id_t × op_t)) (s s1 : system_t), s.good G →
      (∀ p ∈ trace, p.2 = .acquire_all → G p.1) →
      system_t.run nd bits trace s = some s1 → s1.good G
  | [], s, s1, hs, _, h => by
    simp only [system_t.run, Option.some.injEq] at h
    rw [← h]
    exact hs
  | (i, o) :: rest, s, s1, hs, hacq, h => by
    have hstep := system_step_good G nd bits hb hG s i o hs
      (hacq (i, o) (List.mem_cons_self _ _))
    unfold system_t.run at h
    cases hx : s.step nd bits i o with
    | mk r s2 =>
      rw [hx] at h hstep
      have hrest := fun hne => run_good G nd bits hb hG rest s2 s1 (hstep hne)
        (fun p hp => hacq p (List.mem_cons_of_mem _ hp))
      cases r with
      | ok u => exact hrest (by simp) h
      | fault f =>
        cases f with
        | bad_consistency => exact hrest (by simp) h
        | assertion => simp at h

/-- Claim C13. Orecs at rest are odd: in every state reached from a fresh context by
a sequence of complete read, write, commit (returned or thrown) and abort calls of
transactions (of any identities), every slot of the table holds an odd word. Holds in
both builds, for every width of `id_t` of at least one bit. -/
theorem C13_orecs_at_rest_odd (nd : Bool) (bits : Nat) (memory : addr_t → word_t)
    (trace : List (id_t × op_t)) (s : system_t) (hbits : 1 ≤ bits)
    (hpub : ∀ p ∈ trace, p.2.is_public = true)
    (hrun : system_t.run nd bits trace (system_t.fresh memory) = some s) :
    ∀ i : Fin SIZE, (s.world.ctx.m_orecs.m_records i).m_id % 2 = 1 := by
  have hg := run_good (fun x => x % 2 = 1) nd bits hbits (fun _ h => h) trace _ s
    (fresh_good _ memory rfl)
    (fun p hp h => by
      have := hpub p hp
      rw [h] at this
      exact absurd this (by decide)) hrun
  intro i
  have := hg.1 (3 * i.val)
  unfold world_t.orec ownership_table_t.find ownership_t.id at this
  rw [index_three_mul] at this
  exact this

/-- Witness for C13: the run of `test_hello_commit_abort`; the second commit throws. -/
theorem C13_orecs_at_rest_odd_witness :
    ∃ s, system_t.run false 64 [(2, .write 0 20), (4, .read 0), (4, .write 0 30),
        (2, .commit), (4, .commit), (4, .abort)] (system_t.fresh (fun _ => 10)) = some s ∧
      s.world.memory 0 = 20 ∧
      ∀ i : Fin SIZE, (s.world.ctx.m_orecs.m_records i).m_id % 2 = 1 :=
  ⟨_, rfl, by decide, C13_orecs_at_rest_odd false 64 (fun _ => 10)
    [(2, .write 0 20), (4, .read 0), (4, .write 0 30), (2, .commit), (4, .commit),
      (4, .abort)] _ (by decide) (by decide) rfl⟩

/-- Claim C18 (amended). Transactions own nothing outside a separate `acquire_all`: in
every state reached from a fresh context by complete steps read, write, acquire_all,
make_all_changes, commit and abort of transactions, a transaction with an even identity
that has not run `acquire_all` as a step of its own lives at its identity and no slot
of the table holds that identity, whatever its state (so also when it is ACTIVE).
Holds in both builds, for every width of `id_t` of at least one bit. -/
theorem C18_active_owns_nothing (nd : Bool) (bits : Nat) (memory : addr_t → word_t)
    (trace : List (id_t × op_t)) (s : system_t) (id : id_t) (hbits : 1 ≤ bits)
    (heven : id % 2 = 0) (hnot : (id, op_t.acquire_all) ∉ trace)
    (hrun : system_t.run nd bits trace (system_t.fresh memory) = some s) :
    (s.txns id).this_id = id ∧
      ∀ i : Fin SIZE, (s.world.ctx.m_orecs.m_records i).m_id ≠ (s.txns id).this_id := by
  have hodd : ∀ x : id_t, x % 2 = 1 → x ≠ id := by
    intro x hx hxi
    rw [hxi, heven] at hx
    exact absurd hx (by decide)
  have hg := run_good (fun x => x ≠ id) nd bits hbits hodd trace _ s
    (fresh_good _ memory (hodd 1 rfl))
    (fun p hp h hpi => hnot (by
      have : p = (id, op_t.acquire_all) := Prod.ext hpi h
      rw [← this]
      exact hp)) hrun
  refine ⟨(hg.2 id).1, fun i => ?_⟩
  rw [(hg.2 id).1]
  have := hg.1 (3 * i.val)
  unfold world_t.orec ownership_table_t.find ownership_t.id at this
  rw [index_three_mul] at this
  exact this

/-- Witness for C18 (amended): transaction 2 runs `acquire_all` on its own and holds
slot 0; transaction 4, which reads another address and commits, is never in a slot. -/
theorem C18_active_owns_nothing_witness :
    ∃ s, system_t.run false 64 [(2, .write 0 20), (2, .acquire_all), (4, .read 30),
        (4, .commit), (2, .make_all_changes)] (system_t.fresh (fun _ => 10)) = some s ∧
      (s.txns 4).this_id = 4 ∧
      ∀ i : Fin SIZE, (s.world.ctx.m_orecs.m_records i).m_id ≠ (s.txns 4).this_id :=
  ⟨_, rfl, C18_active_owns_nothing false 64 (fun _ => 10)
    [(2, .write 0 20), (2, .acquire_all), (4, .read 30), (4, .commit),
      (2, .make_all_changes)] _ 4 (by decide) (by decide) (by decide) rfl⟩

/-- Claim C18 (counterexample). The run of `test_hello_false_abort`: transaction 2
writes 20 to address 0 and runs `acquire_all`, which returns. Its state is still ACTIVE
and slot 0 holds its identity 2. The same in both builds. -/
theorem C18_acquire_all_counterexample :
    (system_t.run false 64 [(2, .write 0 20), (2, .acquire_all)]
        (system_t.fresh (fun _ => 10))).map
          (fun s => ((s.txns 2).m_state, (s.txns 2).this_id,
            (s.world.ctx.m_orecs.m_records (ownership_table_t.index 0)).m_id))
      = some (.STATE_ACTIVE, 2, 2) ∧
    (system_t.run true 64 [(2, .write 0 20), (2, .acquire_all)]
        (system_t.fresh (fun _ => 10))).map
          (fun s => ((s.txns 2).m_state, (s.txns 2).this_id,
            (s.world.ctx.m_orecs.m_records (ownership_table_t.index 0)).m_id))
      = some (.STATE_ACTIVE, 2, 2) := by
  decide


/-- The word of a slot does not depend on which of its addresses asks. -/
theorem orec_congr (w : world_t) {a b : addr_t}
    (h : ownership_table_t.index a = ownership_table_t.index b) : w.orec a = w.orec b := by
  unfold world_t.orec ownership_table_t.find
  rw [h]

/-- Two worlds with the same memory and the same word under every address are equal. -/
theorem world_eq_of_orec {w1 w2 : world_t} (hm : w1.memory = w2.memory)
    (ho : ∀ b, w1.orec b = w2.orec b) : w1 = w2 := by
  apply world_ext hm
  funext i
  have h := ho (3 * i.val)
  unfold world_t.orec ownership_table_t.find ownership_t.id at h
  rw [index_three_mul] at h
  cases h1 : w1.ctx.m_orecs.m_records i with
  | mk x =>
    cases h2 : w2.ctx.m_orecs.m_records i with
    | mk y =>
      rw [h1, h2] at h
      exact congrArg ownership_t.mk h

/-- When `acquire_all` (from any point of its loop) returns true, every acquisition
succeeded. -/
theorem acquire_from_true_acquirable {nd : Bool} {t : transaction_t} :
    ∀ {es passed : List entry_t} {w w1 : world_t} {t1 : transaction_t},
      transaction_t.acquire_from nd passed es t w = (.ok true, w1, t1) →
        acquirable t.this_id es w
  | [], _, _, _, _, _ => trivial
  | e :: es, passed, w, w1, t1, h => by
    rw [acquire_from_cons] at h
    by_cases c : w.orec e.m_addr = e.m_old.m_version ∨ w.orec e.m_addr = t.this_id
    · rw [if_pos c] at h
      exact ⟨c, @acquire_from_true_acquirable nd t es _ _ w1 t1 h⟩
    · rw [if_neg c] at h
      split at h <;> simp at h

/-- When `acquire_all` (from any point of its loop) returns false, the log splits at
the entry that failed: the entries before it were all acquired, and the rollback over
them and the ones passed earlier returned. -/
theorem acquire_from_false_split {nd : Bool} {t : transaction_t} :
    ∀ {es passed : List entry_t} {w w1 : world_t} {t1 : transaction_t},
      transaction_t.acquire_from nd passed es t w = (.ok false, w1, t1) →
        ∃ pre e post, es = pre ++ e :: post ∧ acquirable t.this_id pre w ∧
          transaction_t.release_upto nd (passed ++ pre) t (acquire_world t.this_id pre w)
            = (.ok (), w1, t1)
  | [], _, _, _, _, h => by simp [transaction_t.acquire_from] at h
  | e :: es, passed, w, w1, t1, h => by
    rw [acquire_from_cons] at h
    by_cases c : w.orec e.m_addr = e.m_old.m_version ∨ w.orec e.m_addr = t.this_id
    · rw [if_pos c] at h
      obtain ⟨pre, x, post, hes, hacq, hrel⟩ :=
        @acquire_from_false_split nd t es _ _ w1 t1 h
      refine ⟨e :: pre, x, post, by rw [hes]; rfl, ⟨c, hacq⟩, ?_⟩
      rw [acquire_world_cons]
      rw [List.append_assoc] at hrel
      exact hrel
    · rw [if_neg c] at h
      refine ⟨[], e, es, rfl, trivial, ?_⟩
      rw [List.append_nil]
      cases hr : transaction_t.release_upto nd passed t w with
      | mk r rest =>
        cases rest with
        | mk w2 t2 =>
          rw [hr] at h
          cases r with
          | ok u =>
            simp only [Prod.mk.injEq] at h
            obtain ⟨-, rfl, rfl⟩ := h
            exact hr
          | fault f => simp at h

/-- The rollback loop, when it returns, leaves under every address a word satisfying
the condition `G` of that address, provided the version it writes for an entry
satisfies the conditions of the addresses of its slot and every address whose word
does not satisfy its condition is on a slot it releases. -/
theorem release_upto_slotwise (G : addr_t → id_t → Prop) (nd : Bool) (t : transaction_t) :
    ∀ (es : List entry_t) (w w1 : world_t) (t1 : transaction_t),
      (∀ e ∈ es, ∀ b, ownership_table_t.index b = ownership_table_t.index e.m_addr →
        G b (if t.m_state = .STATE_COMMITED then e.m_new.m_version else e.m_old.m_version)) →
      (∀ b, G b (w.orec b) ∨
        ∃ e ∈ es, ownership_table_t.index e.m_addr = ownership_table_t.index b) →
      transaction_t.release_upto nd es t w = (.ok (), w1, t1) → ∀ b, G b (w1.orec b)
  | [], w, w1, t1, _, hc, h => by
    simp only [transaction_t.release_upto, Prod.mk.injEq] at h
    obtain ⟨-, rfl, -⟩ := h
    intro b
    rcases hc b with hb | ⟨e, he, -⟩
    · exact hb
    · simp at he
  | e :: es, w, w1, t1, hv, hc, h => by
    rw [release_upto_cons] at h
    by_cases c : nd = false ∧ (t.m_state = .STATE_ACTIVE ∨ t.this_id ≠ w.orec e.m_addr)
    · rw [if_pos c] at h
      simp at h
    · rw [if_neg c] at h
      refine release_upto_slotwise G nd t es _ w1 t1
        (fun x hx => hv x (List.mem_cons_of_mem _ hx)) ?_ h
      intro b
      rw [orec_set_orec]
      by_cases hb : ownership_table_t.index b = ownership_table_t.index e.m_addr
      · rw [if_pos hb]
        exact Or.inl (hv e (List.mem_cons_self _ _) b hb)
      · rw [if_neg hb]
        rcases hc b with h1 | ⟨x, hx, hxb⟩
        · exact Or.inl h1
        · rcases List.mem_cons.mp hx with rfl | hx
          · exact absurd hxb.symm hb
          · exact Or.inr ⟨x, hx, hxb⟩

/-- The same for the world the publishing loop leaves. -/
theorem publish_world_slotwise (G : addr_t → id_t → Prop) :
    ∀ (es : List entry_t) (w : world_t),
      (∀ e ∈ es, ∀ b, ownership_table_t.index b = ownership_table_t.index e.m_addr →
        G b e.m_new.m_version) →
      (∀ b, G b (w.orec b) ∨
        ∃ e ∈ es, ownership_table_t.index e.m_addr = ownership_table_t.index b) →
      ∀ b, G b ((publish_world es w).orec b)
  | [], w, _, hc => by
    intro b
    rcases hc b with hb | ⟨e, he, -⟩
    · exact hb
    · simp at he
  | e :: es, w, hv, hc => by
    rw [publish_world_cons]
    refine publish_world_slotwise G es _ (fun x hx => hv x (List.mem_cons_of_mem _ hx)) ?_
    intro b
    rw [orec_set_orec]
    by_cases hb : ownership_table_t.index b = ownership_table_t.index e.m_addr
    · rw [if_pos hb]
      exact Or.inl (hv e (List.mem_cons_self _ _) b hb)
    · rw [if_neg hb, orec_store]
      rcases hc b with h1 | ⟨x, hx, hxb⟩
      · exact Or.inl h1
      · rcases List.mem_cons.mp hx with rfl | hx
        · exact absurd hxb.symm hb
        · exact Or.inr ⟨x, hx, hxb⟩


/-- The entries the loop of `acquire_all` has acquired were taken at the word their
slot held before the loop, when no slot held the identity then and the log agrees
with the world on shared slots. `wc` is the world the loop has reached. -/
theorem acquired_old (id : id_t) (w : world_t) (hown : ∀ b, w.orec b ≠ id) :
    ∀ (pre : List entry_t) (wc : world_t), acquirable id pre wc →
      (∀ e ∈ pre, wc.orec e.m_addr = w.orec e.m_addr ∨
        (wc.orec e.m_addr = id ∧ e.m_old.m_version = w.orec e.m_addr)) →
      log_coherent w pre → ∀ e ∈ pre, e.m_old.m_version = w.orec e.m_addr
  | [], _, _, _, _ => by
    intro e he
    simp at he
  | x :: rest, wc, hacq, hinv, hcoh => by
    have hx : x.m_old.m_version = w.orec x.m_addr := by
      rcases hinv x (List.mem_cons_self _ _) with h | ⟨-, h⟩
      · rcases hacq.1 with h1 | h1
        · rw [← h1, h]
        · rw [h] at h1
          exact absurd h1 (hown _)
      · exact h
    unfold log_coherent at hcoh
    have hcoh1 := List.pairwise_cons.mp hcoh
    have hrest := acquired_old id w hown rest (wc.set_orec x.m_addr id) hacq.2
      (fun y hy => by
        rw [orec_set_orec]
        by_cases hi : ownership_table_t.index y.m_addr = ownership_table_t.index x.m_addr
        · rw [if_pos hi]
          right
          refine ⟨rfl, ?_⟩
          rw [hcoh1.1 y hy hi.symm hx.symm, hx]
          exact orec_congr w hi.symm
        · rw [if_neg hi]
          exact hinv y (List.mem_cons_of_mem _ hy)) hcoh1.2
    intro e he
    rcases List.mem_cons.mp he with rfl | he
    · exact hx
    · exact hrest e he

/-- A run of acquisitions changes only the slots of its entries. -/
theorem acquire_world_orec_or (id : id_t) (es : List entry_t) (w : world_t) (b : addr_t) :
    (acquire_world id es w).orec b = w.orec b ∨
      ∃ e ∈ es, ownership_table_t.index e.m_addr = ownership_table_t.index b := by
  by_cases hc : ∃ e ∈ es, ownership_table_t.index e.m_addr = ownership_table_t.index b
  · exact Or.inr hc
  · left
    exact acquire_world_orec_not_mem id es w b (fun e he hi => hc ⟨e, he, hi⟩)

/-- When `acquire_all` of an active transaction returns false, the world and the
descriptor are as before the call. With assertions compiled in this needs nothing
more (a rollback over an acquired entry stops on the first assertion of `release`);
with assertions compiled out it needs that no slot held the identity and that the
log agrees with the world on shared slots. -/
theorem acquire_all_false_restores (nd : Bool) (t : transaction_t) (w w1 : world_t)
    (t1 : transaction_t) (hact : t.m_state = .STATE_ACTIVE)
    (hown : nd = true → ∀ b, w.orec b ≠ t.this_id)
    (hcoh : nd = true → log_coherent w t.m_entries)
    (h : t.acquire_all nd w = (.ok false, w1, t1)) : w1 = w ∧ t1 = t := by
  have hd := acquire_from_descriptor nd t t.m_entries [] w
  have h1 : transaction_t.acquire_from nd [] t.m_entries t w = (.ok false, w1, t1) := h
  rw [h1] at hd
  refine ⟨?_, hd⟩
  obtain ⟨pre, e, post, hes, hacq, hrel⟩ := acquire_from_false_split h1
  rw [List.nil_append] at hrel
  cases nd with
  | false =>
    cases pre with
    | nil =>
      simp only [transaction_t.release_upto, Prod.mk.injEq] at hrel
      exact hrel.2.1.symm
    | cons x rest =>
      rw [release_upto_active_checked _ _ _ _ hact] at hrel
      simp at hrel
  | true =>
    have hcoh1 : log_coherent w pre := by
      have := hcoh rfl
      unfold log_coherent at this ⊢
      rw [hes] at this
      exact (List.pairwise_append.mp this).1
    have hold := acquired_old t.this_id w (hown rfl) pre w hacq (fun _ _ => Or.inl rfl) hcoh1
    have hm := release_upto_memory true pre t (acquire_world t.this_id pre w)
    rw [hrel] at hm
    apply world_eq_of_orec
    · exact hm.trans (acquire_world_memory _ _ _)
    · intro b
      refine release_upto_slotwise (fun b x => x = w.orec b) true t pre _ w1 t1 ?_
        (acquire_world_orec_or _ _ _) hrel b
      intro x hx c hc
      rw [hact, if_neg (by decide), hold x hx]
      exact orec_congr w hc.symm

/-- When `commit` of an active transaction throws `bad_consistency_t`, its
`acquire_all` returned false with the same world and descriptor. -/
theorem commit_throws_acquire_false (nd : Bool) (t : transaction_t) (w w1 : world_t)
    (t1 : transaction_t) (hact : t.m_state = .STATE_ACTIVE)
    (h : t.commit nd w = (.fault .bad_consistency, w1, t1)) :
    t.acquire_all nd w = (.ok false, w1, t1) := by
  unfold transaction_t.commit at h
  rw [if_pos (by simp [assert_ok, transaction_t.active, hact])] at h
  have hnt := acquire_from_no_throw nd t t.m_entries [] w
  cases hx : t.acquire_all nd w with
  | mk r rest =>
    cases rest with
    | mk w2 t2 =>
      have hx1 : transaction_t.acquire_from nd [] t.m_entries t w = (r, w2, t2) := hx
      rw [hx1] at hnt
      rw [hx] at h
      cases r with
      | ok ok =>
        cases ok with
        | true =>
          exfalso
          simp only [transaction_t.make_all_changes] at h
          have hpt := publish_from_no_throw nd t2.m_entries
            { t2 with m_state := .STATE_COMMITED } w2
          rw [h] at hpt
          exact hpt rfl
        | false =>
          simp only [Prod.mk.injEq] at h
          obtain ⟨-, rfl, rfl⟩ := h
          rfl
      | fault f =>
        simp only [Prod.mk.injEq, result_t.fault.injEq] at h
        obtain ⟨rfl, -, -⟩ := h
        exact absurd rfl hnt


/-- A larger bound keeps a log ordered. -/
theorem log_ordered_weaken {n m : Nat} {w : world_t} {es : List entry_t} (hnm : n ≤ m)
    (h : log_ordered n w es) : log_ordered m w es :=
  ⟨fun e he => ⟨(h.1 e he).1, Nat.le_trans (h.1 e he).2.1 hnm, (h.1 e he).2.2⟩, h.2⟩

/-- A world whose slot words have not decreased keeps a log ordered. -/
theorem log_ordered_world {n : Nat} {w w1 : world_t} {es : List entry_t}
    (hw : ∀ b, w.orec b ≤ w1.orec b) (h : log_ordered n w es) : log_ordered n w1 es :=
  ⟨fun e he => ⟨(h.1 e he).1, (h.1 e he).2.1, Nat.le_trans (h.1 e he).2.2 (hw _)⟩, h.2⟩

/-- An ordered log agrees with the world on shared slots. -/
theorem log_ordered_coherent {n : Nat} {w : world_t} {es : List entry_t}
    (h : log_ordered n w es) : log_coherent w es := by
  unfold log_coherent
  have hm := h.2
  unfold log_mono at hm
  refine List.Pairwise.imp_of_mem ?_ hm
  intro e x _ hx hr hi hw
  have h1 := hr hi
  have h2 := (h.1 x hx).2.2
  rw [← orec_congr w hi, hw] at h2
  exact Nat.le_antisymm h2 h1

/-- Replacing an entry by one with the same address and old version keeps `log_mono`. -/
theorem log_mono_set {es : List entry_t} {i : Nat} {e x : entry_t}
    (hu : log_mono es) (he : es[i]? = some e) (ha : x.m_addr = e.m_addr)
    (ho : x.m_old.m_version = e.m_old.m_version) : log_mono (es.set i x) := by
  have key : (es.set i x).map (fun e : entry_t => (e.m_addr, e.m_old.m_version))
      = es.map (fun e : entry_t => (e.m_addr, e.m_old.m_version)) := by
    rw [List.map_set]
    apply List.ext_getElem?
    intro n
    by_cases hn : i = n
    · subst hn
      obtain ⟨hi, hei⟩ := List.getElem?_eq_some.mp he
      simp [hi, ha, ho, ← hei]
    · rw [List.getElem?_set_ne hn]
  have hp : ∀ l : List entry_t, log_mono l ↔
      (l.map (fun e : entry_t => (e.m_addr, e.m_old.m_version))).Pairwise
        (fun p q : addr_t × id_t =>
          ownership_table_t.index p.1 = ownership_table_t.index q.1 → p.2 ≤ q.2) := by
    intro l
    unfold log_mono
    rw [List.pairwise_map]
  rw [hp, key, ← hp]
  exact hu

/-- The entry `ensure` appends keeps the log ordered. -/
theorem ensure_log_ordered (n : Nat) (t : transaction_t) (w : world_t) (a : addr_t)
    (hw : ∀ b, w.orec b ≤ n) (h : log_ordered n w t.m_entries) :
    log_ordered n w (t.ensure w a).2.2.m_entries := by
  unfold transaction_t.ensure
  cases hs : ensure_scan a t.m_entries with
  | some i => exact h
  | none =>
    simp only
    cases hv : (w.ctx.m_orecs.find a).is_version with
    | true =>
      simp only [ownership_t.resolve, hv, Bool.not_true, Bool.false_eq_true, if_false]
      constructor
      · intro e he
        rcases List.mem_append.mp he with h1 | h1
        · exact h.1 e h1
        · rw [List.mem_singleton] at h1
          subst h1
          exact ⟨Nat.le_refl _, hw a, Nat.le_refl _⟩
      · unfold log_mono
        rw [List.pairwise_append]
        refine ⟨h.2, List.pairwise_singleton _ _, ?_⟩
        intro e he x hx hi
        rw [List.mem_singleton] at hx
        subst hx
        have := (h.1 e he).2.2
        rw [orec_congr w hi] at this
        exact this
    | false =>
      simp only [ownership_t.resolve, hv, Bool.not_false, if_true]
      exact h

/-- Reading keeps the log ordered. -/
theorem read_log_ordered (nd : Bool) (n : Nat) (t : transaction_t) (w : world_t) (a : addr_t)
    (hw : ∀ b, w.orec b ≤ n) (h : log_ordered n w t.m_entries) :
    log_ordered n w (t.read nd w a).2.2.m_entries := by
  have h0 := ensure_log_ordered n t w a hw h
  unfold transaction_t.read
  split
  · split
    · next i w1 t1 heq =>
      rw [heq] at h0
      split <;> exact h0
    · next heq =>
      rw [heq] at h0
      exact h0
  · exact h

/-- Writing keeps the log ordered under a bound two higher, when that bound fits the
width of `id_t`. -/
theorem write_log_ordered (nd : Bool) (bits n : Nat) (hn : n + 2 < 2 ^ bits)
    (t : transaction_t) (w : world_t) (a : addr_t) (v : word_t)
    (hw : ∀ b, w.orec b ≤ n) (h : log_ordered n w t.m_entries) :
    log_ordered (n + 2) w (t.write nd bits w a v).2.2.m_entries := by
  have h0 := ensure_log_ordered n t w a hw h
  have hle : n ≤ n + 2 := Nat.le_add_right _ _
  unfold transaction_t.write
  split
  · split
    · next i w1 t1 heq =>
      rw [heq] at h0
      simp only [transaction_t.get]
      split
      · next e he =>
        split at he
        · next e1 he1 =>
          cases he
          simp only [transaction_t.set]
          split
          · have he1mem : e ∈ t1.m_entries := by
              obtain ⟨hlt, hget⟩ := List.getElem?_eq_some.mp he1
              rw [← hget]
              exact List.getElem_mem _
            constructor
            · intro x hx
              rcases List.mem_or_eq_of_mem_set hx with h1 | h1
              · exact (log_ordered_weaken hle h0).1 x h1
              · subst h1
                obtain ⟨h1, h2, h3⟩ := h0.1 e he1mem
                have hadd : id_add bits e.m_new.m_version VERSION_STEP
                    = e.m_new.m_version + 2 := by
                  unfold id_add VERSION_STEP
                  apply Nat.mod_eq_of_lt
                  dsimp only [id_t] at *
                  omega
                refine ⟨?_, ?_, h3⟩
                · show e.m_old.m_version ≤ id_add bits e.m_new.m_version VERSION_STEP
                  rw [hadd]
                  dsimp only [id_t] at *
                  omega
                · show id_add bits e.m_new.m_version VERSION_STEP ≤ n + 2
                  rw [hadd]
                  dsimp only [id_t] at *
                  omega
            · exact log_mono_set h0.2 he1 rfl rfl
          · exact log_ordered_weaken hle h0
        · simp at he
      · exact log_ordered_weaken hle h0
    · next heq =>
      rw [heq] at h0
      exact log_ordered_weaken hle h0
  · exact log_ordered_weaken hle h


/-- A complete `commit` (returned or thrown) lowers the word of no slot, when no slot
held the identity, the log agrees with the world on shared slots and no new version is
below its old one. -/
theorem commit_mono (nd : Bool) (t : transaction_t) (w : world_t)
    (hown : ∀ b, w.orec b ≠ t.this_id) (hcoh : log_coherent w t.m_entries)
    (hle : ∀ e ∈ t.m_entries, e.m_old.m_version ≤ e.m_new.m_version)
    (hne : (t.commit nd w).1 ≠ .fault .assertion) :
    ∀ b, w.orec b ≤ (t.commit nd w).2.1.orec b := by
  unfold transaction_t.commit at hne ⊢
  by_cases ha : assert_ok nd t.active = true
  · rw [if_pos ha] at hne ⊢
    have hnt := acquire_from_no_throw nd t t.m_entries [] w
    cases hx : t.acquire_all nd w with
    | mk r rest =>
      cases rest with
      | mk w1 t1 =>
        have hx1 : transaction_t.acquire_from nd [] t.m_entries t w = (r, w1, t1) := hx
        rw [hx1] at hnt
        rw [hx] at hne
        cases r with
        | ok ok =>
          cases ok with
          | true =>
            have hacq := acquire_from_true_acquirable hx1
            have hold := acquired_old t.this_id w hown t.m_entries w hacq
              (fun _ _ => Or.inl rfl) hcoh
            obtain ⟨rfl, rfl⟩ := acquire_from_true hx1
            simp only [transaction_t.make_all_changes] at hne ⊢
            have hpt := publish_from_no_throw nd t1.m_entries
              { t1 with m_state := .STATE_COMMITED } (acquire_world t1.this_id t1.m_entries w)
            cases hp : transaction_t.publish_from nd t1.m_entries
                { t1 with m_state := .STATE_COMMITED }
                (acquire_world t1.this_id t1.m_entries w) with
            | mk r2 rest2 =>
              cases rest2 with
              | mk w2 t2 =>
                rw [hp] at hpt hne
                cases r2 with
                | ok u =>
                  obtain ⟨rfl, -⟩ := publish_from_ok rfl hp
                  refine publish_world_slotwise (fun b x => w.orec b ≤ x) _ _ ?_ ?_
                  · intro e he b hb
                    show w.orec b ≤ e.m_new.m_version
                    rw [orec_congr w hb, ← hold e he]
                    exact hle e he
                  · intro b
                    rcases acquire_world_orec_or t1.this_id t1.m_entries w b with h | h
                    · exact Or.inl (Nat.le_of_eq h.symm)
                    · exact Or.inr h
                | fault f =>
                  cases f with
                  | bad_consistency => exact absurd rfl hpt
                  | assertion => exact absurd rfl hne
          | false =>
            obtain ⟨pre, e, post, hes, hacq, hrel⟩ := acquire_from_false_split hx1
            rw [List.nil_append] at hrel
            have hcoh1 : log_coherent w pre := by
              unfold log_coherent at hcoh ⊢
              rw [hes] at hcoh
              exact (List.pairwise_append.mp hcoh).1
            have hold := acquired_old t.this_id w hown pre w hacq (fun _ _ => Or.inl rfl) hcoh1
            refine release_upto_slotwise (fun b x => w.orec b ≤ x) nd t pre _ w1 t1 ?_ ?_ hrel
            · intro x hx b hb
              show w.orec b ≤ _
              have hxm : x ∈ t.m_entries := by
                rw [hes]
                exact List.mem_append_left _ hx
              rw [orec_congr w hb, ← hold x hx]
              split
              · exact hle x hxm
              · exact Nat.le_refl _
            · intro b
              rcases acquire_world_orec_or t.this_id pre w b with h | h
              · exact Or.inl (Nat.le_of_eq h.symm)
              · exact Or.inr h
        | fault f =>
          cases f with
          | bad_consistency => exact absurd rfl hnt
          | assertion => exact absurd rfl hne
  · rw [if_neg ha]
    intro b
    exact Nat.le_refl _


/-- The count of writes of a run, step by step. -/
theorem writes_in_cons (i : id_t) (o : op_t) (rest : List (id_t × op_t)) :
    writes_in ((i, o) :: rest) = writes_in rest + writes_in [(i, o)] := by
  cases o <;> simp [writes_in]

/-- A public step of a transaction with an even identity, in a world whose slot words
are odd and at most `n`: it lowers the word of no slot, leaves every word at most `n`,
and keeps the log ordered, under a bound two higher when the step is a write. -/
theorem step_ordered (nd : Bool) (bits n : Nat) (t : transaction_t) (w : world_t)
    (hodd : ∀ b, w.orec b % 2 = 1) (hid : t.this_id % 2 = 0) (hw : ∀ b, w.orec b ≤ n)
    (h : log_ordered n w t.m_entries) :
    ∀ o : op_t, o.is_public = true → n + 2 * writes_in [(t.this_id, o)] < 2 ^ bits →
      (t.step nd bits w o).1 ≠ .fault .assertion →
      (∀ b, w.orec b ≤ (t.step nd bits w o).2.1.orec b) ∧
        (∀ b, (t.step nd bits w o).2.1.orec b ≤ n) ∧
        log_ordered (n + 2 * writes_in [(t.this_id, o)]) (t.step nd bits w o).2.1
          (t.step nd bits w o).2.2.m_entries
  | .read a, _, _, _ => by
    simp only [transaction_t.step]
    rw [call_world, call_descriptor]
    exact ⟨fun _ => Nat.le_refl _, hw, read_log_ordered nd n t w a hw h⟩
  | .write a v, _, hn, _ => by
    simp only [transaction_t.step]
    rw [call_world, call_descriptor]
    exact ⟨fun _ => Nat.le_refl _, hw, write_log_ordered nd bits n hn t w a v hw h⟩
  | .commit, _, _, hne => by
    have hown : ∀ b, w.orec b ≠ t.this_id := by
      intro b hb
      have := hodd b
      rw [hb, hid] at this
      exact absurd this (by decide)
    have hmono := commit_mono nd t w hown (log_ordered_coherent h)
      (fun e he => (h.1 e he).1) hne
    have hle := commit_good (fun x => x ≤ n) nd t w
      (fun e he => ⟨Nat.le_trans (h.1 e he).1 (h.1 e he).2.1, (h.1 e he).2.1⟩) hw hne
    simp only [transaction_t.step]
    refine ⟨hmono, hle, ?_⟩
    rw [(commit_descriptor nd t w).2]
    exact log_ordered_world hmono h
  | .abort, _, _, _ => by
    simp only [transaction_t.step, transaction_t.abort]
    split
    · exact ⟨fun _ => Nat.le_refl _, hw, h⟩
    · exact ⟨fun _ => Nat.le_refl _, hw, h⟩
  | .acquire_all, hp, _, _ => by simp [op_t.is_public] at hp
  | .make_all_changes, hp, _, _ => by simp [op_t.is_public] at hp

/-- A public step of a transaction with an even identity keeps the invariant `steady`,
under a bound two higher when the step is a write. -/
theorem system_step_steady (nd : Bool) (bits n : Nat) (hb : 1 ≤ bits) (s : system_t)
    (i : id_t) (o : op_t) (hs : s.steady n) (hi : i % 2 = 0) (hp : o.is_public = true)
    (hn : n + 2 * writes_in [(i, o)] < 2 ^ bits)
    (hne : (s.step nd bits i o).1 ≠ .fault .assertion) :
    (s.step nd bits i o).2.steady (n + 2 * writes_in [(i, o)]) := by
  obtain ⟨hg, hw, hl⟩ := hs
  have hgood := system_step_good (fun x => x % 2 = 1) nd bits hb (fun _ h => h) s i o hg
    (fun h => by rw [h] at hp; exact absurd hp (by decide)) hne
  have hti : (s.txns i).this_id = i := (hg.2 i).1
  have hst := step_ordered nd bits n (s.txns i) s.world hg.1 (by rw [hti]; exact hi) hw (hl i) o
    hp (by rw [hti]; exact hn) hne
  rw [hti] at hst
  obtain ⟨hmono, hle, hlog⟩ := hst
  refine ⟨hgood, ?_, fun j => ?_⟩
  · intro b
    exact Nat.le_trans (hle b) (Nat.le_add_right _ _)
  · show log_ordered _ ((s.txns i).step nd bits s.world o).2.1
      (Function.update s.txns i ((s.txns i).step nd bits s.world o).2.2 j).m_entries
    by_cases hj : j = i
    · subst hj
      rw [Function.update_same]
      exact hlog
    · rw [Function.update_noteq hj]
      exact log_ordered_weaken (Nat.le_add_right _ _) (log_ordered_world hmono (hl j))

/-- A run of public steps of transactions with even identities keeps the invariant
`steady`, when the versions do not wrap around: the bound grows by two with each
write and stays inside `id_t`. -/
theorem run_steady (nd : Bool) (bits : Nat) (hb : 1 ≤ bits) :
    ∀ (trace : List (id_t × op_t)) (s s1 : system_t) (n : Nat), s.steady n →
      (∀ p ∈ trace, p.2.is_public = true ∧ p.1 % 2 = 0) →
      n + 2 * writes_in trace < 2 ^ bits →
      system_t.run nd bits trace s = some s1 → s1.steady (n + 2 * writes_in trace)
  | [], s, s1, n, hs, _, _, h => by
    simp only [system_t.run, Option.some.injEq] at h
    rw [← h]
    exact hs
  | (i, o) :: rest, s, s1, n, hs, hpub, hn, h => by
    rw [writes_in_cons] at hn ⊢
    have hio := hpub (i, o) (List.mem_cons_self _ _)
    have hstep := system_step_steady nd bits n hb s i o hs hio.2 hio.1 (by omega)
    unfold system_t.run at h
    cases hx : s.step nd bits i o with
    | mk r s2 =>
      rw [hx] at h hstep
      have hrest := fun hne => run_steady nd bits hb rest s2 s1 (n + 2 * writes_in [(i, o)])
        (hstep hne) (fun p hp => hpub p (List.mem_cons_of_mem _ hp)) (by omega)
      have heq : n + 2 * writes_in [(i, o)] + 2 * writes_in rest
          = n + 2 * (writes_in rest + writes_in [(i, o)]) := by omega
      rw [heq] at hrest
      cases r with
      | ok u => exact hrest (by simp) h
      | fault f =>
        cases f with
        | bad_consistency => exact hrest (by simp) h
        | assertion => simp at h

/-- A fresh context satisfies the invariant `steady` with bound 1. -/
theorem fresh_steady (memory : addr_t → word_t) : (system_t.fresh memory).steady 1 :=
  ⟨fresh_good _ memory rfl, fun _ => Nat.le_refl _,
    fun _ => ⟨fun e he => by simp [system_t.fresh, transaction_t.create] at he,
      List.Pairwise.nil⟩⟩

/-- In every state reached from a fresh context by public steps of transactions with
even identities, without wrap-around of the versions, no slot holds the identity of a
transaction with an even identity and every log agrees with the world on shared
slots: the two conditions under which a rollback of `acquire_all` restores the slots
when assertions are compiled out. -/
theorem run_coherent (nd : Bool) (bits : Nat) (memory : addr_t → word_t)
    (trace : List (id_t × op_t)) (s : system_t)
    (hpub : ∀ p ∈ trace, p.2.is_public = true ∧ p.1 % 2 = 0)
    (hn : 1 + 2 * writes_in trace < 2 ^ bits)
    (hrun : system_t.run nd bits trace (system_t.fresh memory) = some s) (j : id_t)
    (hj : j % 2 = 0) :
    (∀ b, s.world.orec b ≠ (s.txns j).this_id) ∧ log_coherent s.world (s.txns j).m_entries := by
  have hb : 1 ≤ bits := by
    rcases Nat.eq_zero_or_pos bits with h | h
    · subst h
      simp at hn
    · exact h
  have hs := run_steady nd bits hb trace _ s 1 (fresh_steady memory) hpub hn hrun
  refine ⟨?_, log_ordered_coherent (hs.2.2 j)⟩
  intro b hbj
  have hodd := hs.1.1 b
  rw [hbj, (hs.1.2 j).1, hj] at hodd
  exact absurd hodd (by decide)


/-- Claim C5. A failed commit is not atomic on the code when the transaction owns a slot
before the call. In the state of the scenario "rollback over a slot already owned" the
transaction `t` (identity 2) is active with the log (0, 30), slot 0 holds its identity
2 and slot 10 holds 3, in both builds. With assertions compiled out, `acquire_all`
passes the entry of 0, fails on the entry of 30 and returns false, and `commit`
throws `bad_consistency_t`; after either call `t` is active and the words at 0 and 30
are the 10 and 20 they were, but slot 0 holds 1 and no longer the word 2 it held before
the call: the rollback ran `release` on the entry of 0 with the first assertion of
`release` false. With assertions compiled in both calls stop on that assertion and
neither returns false nor throws. -/
theorem C5_rollback_changes_owned_slot :
    ((setup_rollback_owned true 64).last = .ok () ∧
      (setup_rollback_owned true 64).t.m_state = .STATE_ACTIVE ∧
      (setup_rollback_owned true 64).t.m_entries
        = [⟨0, ⟨10, 1⟩, ⟨10, 1⟩⟩, ⟨30, ⟨10, 1⟩, ⟨10, 1⟩⟩] ∧
      (setup_rollback_owned true 64).world.orec 0 = 2 ∧
      (setup_rollback_owned true 64).world.orec 30 = 3 ∧
      (setup_rollback_owned true 64).world.memory 0 = 10 ∧
      (setup_rollback_owned true 64).world.memory 30 = 20 ∧
      ((setup_rollback_owned true 64).t.acquire_all true
        (setup_rollback_owned true 64).world).1 = .ok false ∧
      ((setup_rollback_owned true 64).t.acquire_all true
        (setup_rollback_owned true 64).world).2.2.m_state = .STATE_ACTIVE ∧
      ((setup_rollback_owned true 64).t.acquire_all true
        (setup_rollback_owned true 64).world).2.1.orec 0 = 1 ∧
      ((setup_rollback_owned true 64).t.acquire_all true
        (setup_rollback_owned true 64).world).2.1.orec 30 = 3 ∧
      ((setup_rollback_owned true 64).t.acquire_all true
        (setup_rollback_owned true 64).world).2.1.memory 0 = 10 ∧
      ((setup_rollback_owned true 64).t.acquire_all true
        (setup_rollback_owned true 64).world).2.1.memory 30 = 20 ∧
      ((setup_rollback_owned true 64).t.commit true
        (setup_rollback_owned true 64).world).1 = .fault .bad_consistency ∧
      ((setup_rollback_owned true 64).t.commit true
        (setup_rollback_owned true 64).world).2.2.m_state = .STATE_ACTIVE ∧
      ((setup_rollback_owned true 64).t.commit true
        (setup_rollback_owned true 64).world).2.1.orec 0 = 1) ∧
    ((setup_rollback_owned false 64).last = .ok () ∧
      (setup_rollback_owned false 64).t.m_state = .STATE_ACTIVE ∧
      (setup_rollback_owned false 64).t.m_entries
        = [⟨0, ⟨10, 1⟩, ⟨10, 1⟩⟩, ⟨30, ⟨10, 1⟩, ⟨10, 1⟩⟩] ∧
      (setup_rollback_owned false 64).world.orec 0 = 2 ∧
      (setup_rollback_owned false 64).world.orec 30 = 3 ∧
      ((setup_rollback_owned false 64).t.acquire_all false
        (setup_rollback_owned false 64).world).1 = .fault .assertion ∧
      ((setup_rollback_owned false 64).t.commit false
        (setup_rollback_owned false 64).world).1 = .fault .assertion) := by
  decide


/-- An instance of `acquire_all_false_restores` with assertions compiled out and an
entry acquired before the failing one: the log is (30, 0), slot 0 holds 3 and every
other slot 1. `acquire_all` takes slot 10, fails on slot 0, puts 1 back into slot 10
and returns false: the world and the descriptor are as before the call. -/
theorem acquire_all_false_restores_example :
    ((⟨2, .STATE_ACTIVE, [⟨30, ⟨10, 1⟩, ⟨10, 1⟩⟩, ⟨0, ⟨10, 1⟩, ⟨10, 1⟩⟩]⟩ :
        transaction_t).acquire_all true
        ⟨fun _ => 10, ⟨⟨fun i => if i.val = 0 then ⟨3⟩ else ⟨1⟩⟩⟩⟩).1 = .ok false ∧
      ((⟨2, .STATE_ACTIVE, [⟨30, ⟨10, 1⟩, ⟨10, 1⟩⟩, ⟨0, ⟨10, 1⟩, ⟨10, 1⟩⟩]⟩ :
        transaction_t).acquire_all true
        ⟨fun _ => 10, ⟨⟨fun i => if i.val = 0 then ⟨3⟩ else ⟨1⟩⟩⟩⟩).2.1
        = ⟨fun _ => 10, ⟨⟨fun i => if i.val = 0 then ⟨3⟩ else ⟨1⟩⟩⟩⟩ ∧
      ((⟨2, .STATE_ACTIVE, [⟨30, ⟨10, 1⟩, ⟨10, 1⟩⟩, ⟨0, ⟨10, 1⟩, ⟨10, 1⟩⟩]⟩ :
        transaction_t).acquire_all true
        ⟨fun _ => 10, ⟨⟨fun i => if i.val = 0 then ⟨3⟩ else ⟨1⟩⟩⟩⟩).2.2
        = ⟨2, .STATE_ACTIVE, [⟨30, ⟨10, 1⟩, ⟨10, 1⟩⟩, ⟨0, ⟨10, 1⟩, ⟨10, 1⟩⟩]⟩ :=
  ⟨by decide,
    acquire_all_false_restores true
      ⟨2, .STATE_ACTIVE, [⟨30, ⟨10, 1⟩, ⟨10, 1⟩⟩, ⟨0, ⟨10, 1⟩, ⟨10, 1⟩⟩]⟩
      ⟨fun _ => 10, ⟨⟨fun i => if i.val = 0 then ⟨3⟩ else ⟨1⟩⟩⟩⟩ _ _ rfl
      (fun _ b => by
        show (if (ownership_table_t.index b).val = 0 then (⟨3⟩ : ownership_t) else ⟨1⟩).m_id ≠ 2
        split <;> decide)
      (fun _ => by
        unfold log_coherent
        refine List.Pairwise.cons ?_ (List.Pairwise.cons ?_ List.Pairwise.nil)
        · intro x hx hi
          rw [List.mem_singleton] at hx
          subst hx
          exact absurd hi (by decide)
        · intro x hx
          simp at hx)
      rfl⟩

end tora
